import Mathlib

/-! FreeBSD `timingsafe_bcmp` and the kernel `arc4random` generator.

A shallow embedding of `lib/libc/string/timingsafe_bcmp.c` and
`sys/libkern/arc4random.c`, followed by the properties proved about them.
-/

namespace TimingSafe

/-- Value of a C `char` holding the byte `b`, after integer promotion.
`char_signed` tells whether plain `char` is signed on the platform. -/
def char_to_int (char_signed : Bool) (b : Fin 256) : Int :=
  if char_signed = true ∧ 128 ≤ b.val then (b.val : Int) - 256 else (b.val : Int)

/-- Result of the loop `while (n-- != 0) r |= *p1++ ^ *p2++;`: the accumulator
together with the list of indices dereferenced so far. `i` is the common offset
of `p1` and `p2`; a read past the end of a buffer has no defined result. -/
def timingsafe_bcmp_loop (char_signed : Bool) (b1 b2 : List (Fin 256)) :
    Nat → Nat → Int → List Nat → Option (Int × List Nat)
  | 0, _, r, reads => some (r, reads)
  | n + 1, i, r, reads =>
    match b1[i]?, b2[i]? with
    | some x, some y =>
      timingsafe_bcmp_loop char_signed b1 b2 n (i + 1)
        (Int.lor r (Int.xor (char_to_int char_signed x) (char_to_int char_signed y)))
        (reads ++ [i])
    | _, _ => none

/-- Embedding of `timingsafe_bcmp(b1, b2, n)`: `r = 0`, the loop, then `return (r != 0)`. -/
def timingsafe_bcmp (char_signed : Bool) (b1 b2 : List (Fin 256)) (n : Nat) : Option Int :=
  match timingsafe_bcmp_loop char_signed b1 b2 n 0 0 [] with
  | some (r, _) => some (if r ≠ 0 then 1 else 0)
  | none => none

/-- Specification side of the comparator, after its description: the OR over `i < n`
of `b1[i] XOR b2[i]`, the bytes read as C `char` values promoted to `int`. -/
def or_of_xor (char_signed : Bool) (b1 b2 : List (Fin 256)) : Nat → Int
  | 0 => 0
  | n + 1 =>
    Int.lor (or_of_xor char_signed b1 b2 n)
      (Int.xor (char_to_int char_signed (b1.getD n 0)) (char_to_int char_signed (b2.getD n 0)))

end TimingSafe

namespace Arc4

/-! ## `sys/libkern/arc4random.c` -/

def ARC4_RESEED_BYTES : Int := 65536

def ARC4_RESEED_SECONDS : Int := 300

def ARC4_KEYBYTES : Nat := 256 / 8

def KEYSZ : Nat := 32

def IVSZ : Nat := 8

def BLOCKSZ : Nat := 64

def RSBUFSZ : Nat := 16 * BLOCKSZ

/-- Modelled from the spec: the three values of `entropy_state` (NO_ENTROPY, HAVE_ENTROPY,
SEEDED). The constants `ARC4_ENTR_NONE`, `ARC4_ENTR_HAVE` and `ARC4_ENTR_SEED` that
`arc4rand_iniseed_state` takes are declared in `sys/libkern.h`, outside the sources. -/
inductive arc4_entr where
  | ARC4_ENTR_NONE
  | ARC4_ENTR_HAVE
  | ARC4_ENTR_SEED
  deriving DecidableEq, Repr

/-- Modelled from the spec: the keystream primitive of section 6, `init(key, nonce)` and
`generate(context, length)`; `crypto/chacha_private.h` is outside the sources.
`init key nonce` stands for `chacha_keysetup` followed by `chacha_ivsetup`, `generate c i`
is byte `i` of the keystream that `chacha_encrypt_bytes` writes from context `c` when
`KEYSTREAM_ONLY` is defined, and `zero` is the statically zero-initialised `chacha_ctx`. -/
structure Keystream where
  Ctx : Type
  zero : Ctx
  init : List Nat → List Nat → Ctx
  generate : Ctx → Nat → Nat

/-- Observable steps of an execution, in the order they happen: calls of the external
collaborators, entries of `_rs_stir` and `_rs_rekey`, and each `memcpy` of `m` cache bytes
from cache index `src` to offset `dst` of the caller's buffer. The log is not program
state: no modelled function reads it. -/
inductive Event where
  | read_random
  | nanotime
  | mtx_lock
  | mtx_unlock
  | rs_stir
  | rs_rekey
  | copy_out (src dst m : Nat)
  deriving DecidableEq, Repr

/-- A `struct timespec` as `nanotime` fills it: the field `tv_sec` and the object
representation, `sizeof(struct timespec)` bytes, which `_rs_stir` XORs into `key`; the
loop there writes `key[n]` for every `n` below that size, so the size is at most
`sizeof(key)`. -/
structure timespec where
  tv_sec : Int
  bytes : List Nat
  sizeof_le : bytes.length ≤ 40

/-- What one run of `_rs_stir` obtains from its collaborators: the value `r` returned by
`read_random(key, ARC4_KEYBYTES)`, the content of the local array `key` after that call
(the bytes delivered in positions below `r`, whatever was on the stack elsewhere) and the
time stored by `nanotime`. -/
structure StirInput where
  r : Int
  key : Nat → Nat
  ts_now : timespec

/-- The file's static variables, a byte being a natural number, and the log of events. -/
structure State (K : Keystream) where
  arc4rand_iniseed_state : arc4_entr
  arc4_numruns : Int
  arc4_t_reseed : Int
  rs_initialized : Bool
  rs : K.Ctx
  rs_buf : Nat → Nat
  rs_have : Nat
  rs_count : Nat
  trace : List Event

/-- State at load time: `arc4rand_iniseed_state = ARC4_ENTR_NONE`, `arc4_numruns = 0`,
every other static variable zero-initialised. -/
def State.initial (K : Keystream) : State K :=
  { arc4rand_iniseed_state := arc4_entr.ARC4_ENTR_NONE
    arc4_numruns := 0
    arc4_t_reseed := 0
    rs_initialized := false
    rs := K.zero
    rs_buf := fun _ => 0
    rs_have := 0
    rs_count := 0
    trace := [] }

/-- `memcpy(dst + d, src + s, m)`. -/
def memcpy (dst : Nat → Nat) (d : Nat) (src : Nat → Nat) (s m : Nat) : Nat → Nat :=
  fun i => if d ≤ i ∧ i < d + m then src (s + (i - d)) else dst i

/-- `memset(dst + d, c, m)`. -/
def memset (dst : Nat → Nat) (d c m : Nat) : Nat → Nat :=
  fun i => if d ≤ i ∧ i < d + m then c else dst i

/-- The `len` bytes of `m` from offset `off`. -/
def bytes (m : Nat → Nat) (off len : Nat) : List Nat :=
  (List.range len).map fun i => m (off + i)

/-- Subtraction of `size_t` values (64 bits): wraps around when `b > a`. -/
def size_t_sub (a b : Nat) : Nat :=
  if b ≤ a then a - b else a + 2 ^ 64 - b

/-- Conversion to `int` (32 bits, two's complement) of an integer result. -/
def to_int (x : Int) : Int :=
  (x + 2 ^ 31) % 2 ^ 32 - 2 ^ 31

/-- Conversion to `time_t` (64 bits, two's complement) of an integer result: a sum of
`time_t` values that leaves the range wraps around. -/
def to_time_t (x : Int) : Int :=
  (x + 2 ^ 63) % 2 ^ 64 - 2 ^ 63

variable {K : Keystream}

/-- `_rs_init(buf, n)`: key from `buf[0..KEYSZ)`, nonce from `buf[KEYSZ..KEYSZ+IVSZ)`.
Both callers pass `n = KEYSZ + IVSZ`, so the `KASSERT` holds. -/
def _rs_init (buf : Nat → Nat) (_n : Nat) (s : State K) : State K :=
  { s with rs := K.init (bytes buf 0 KEYSZ) (bytes buf KEYSZ IVSZ) }

/-- `_rs_rekey(dat, datlen)`; `dat = none` is the null pointer. -/
def _rs_rekey (dat : Option (Nat → Nat)) (datlen : Nat) (s : State K) : State K :=
  let buf1 : Nat → Nat := fun i => if i < RSBUFSZ then K.generate s.rs i else s.rs_buf i
  let buf2 : Nat → Nat :=
    match dat with
    | some d =>
      (List.range (min datlen (KEYSZ + IVSZ))).foldl
        (fun b n => Function.update b n (b n ^^^ d n)) buf1
    | none => buf1
  let s1 : State K :=
    _rs_init buf2 (KEYSZ + IVSZ) { s with rs_buf := buf2, trace := s.trace ++ [Event.rs_rekey] }
  { s1 with rs_buf := memset s1.rs_buf 0 0 (KEYSZ + IVSZ), rs_have := RSBUFSZ - KEYSZ - IVSZ }

/-- `_rs_seed(buf, n)`. -/
def _rs_seed (buf : Nat → Nat) (n : Nat) (s : State K) : State K :=
  let s1 := _rs_rekey (some buf) n s
  { s1 with rs_have := 0, rs_buf := memset s1.rs_buf 0 0 RSBUFSZ, rs_count := 1600000 }

/-- The seed `_rs_stir` builds in `key`: if `r > 0` the delivered bytes are repeated
cyclically up to `sizeof(key)`, then the timestamp bytes are XORed in. -/
def stir_key (i : StirInput) : Nat → Nat :=
  let key1 : Nat → Nat :=
    if i.r > 0 then
      (List.range' i.r.toNat (KEYSZ + IVSZ - i.r.toNat)).foldl
        (fun k n => Function.update k n (k (n % i.r.toNat))) i.key
    else i.key
  (List.range i.ts_now.bytes.length).foldl
    (fun k n => Function.update k n (k n ^^^ i.ts_now.bytes.getD n 0)) key1

/-- `_rs_stir(lock)`. The sum `ts_now.tv_sec + ARC4_RESEED_SECONDS` is computed in `time_t`.
The final `explicit_bzero(key, ...)` clears a local array only. -/
def _rs_stir (i : StirInput) (lock : Bool) (s : State K) : State K :=
  let s0 : State K :=
    { s with trace := s.trace ++ [Event.rs_stir, Event.read_random, Event.nanotime] }
  let s1 : State K := if lock then { s0 with trace := s0.trace ++ [Event.mtx_lock] } else s0
  let s2 := _rs_seed (stir_key i) (KEYSZ + IVSZ) s1
  let s3 : State K :=
    { s2 with
      arc4_t_reseed := to_time_t (i.ts_now.tv_sec + ARC4_RESEED_SECONDS)
      arc4_numruns := 0 }
  if lock then { s3 with trace := s3.trace ++ [Event.mtx_unlock] } else s3

/-- `_rs_stir_if_needed(len)`; `i` is what `_rs_stir` would obtain if it is called. -/
def _rs_stir_if_needed (i : StirInput) (len : Nat) (s : State K) : State K :=
  if s.rs_initialized = false then
    { _rs_init s.rs_buf (KEYSZ + IVSZ) s with
      rs_count := 1024 * 1024 * 1024, rs_initialized := true }
  else if s.rs_count ≤ len then
    _rs_stir i false s
  else
    { s with rs_count := size_t_sub s.rs_count len }

/-- Variables of the loop of `_rs_random_buf`: the state, the memory at `_buf`, the offset
`buf - _buf` and the count `n` still to serve. -/
structure BufLoop (K : Keystream) where
  s : State K
  out : Nat → Nat
  buf : Nat
  n : Nat

/-- One iteration of `while (n > 0)` in `_rs_random_buf`. The pointer
`rs_buf + RSBUFSZ - rs_have` is defined only when `rs_have ≤ RSBUFSZ`; there is no result
otherwise. -/
def _rs_random_buf_body (l : BufLoop K) : Option (BufLoop K) :=
  let l1 : Option (BufLoop K) :=
    if l.s.rs_have > 0 then
      if l.s.rs_have ≤ RSBUFSZ then
        let m := min l.n l.s.rs_have
        let keystream := RSBUFSZ - l.s.rs_have
        some
          { s :=
              { l.s with
                rs_buf := memset l.s.rs_buf keystream 0 m
                rs_have := size_t_sub l.s.rs_have m
                trace := l.s.trace ++ [Event.copy_out keystream l.buf m] }
            out := memcpy l.out l.buf l.s.rs_buf keystream m
            buf := l.buf + m
            n := size_t_sub l.n m }
      else none
    else some l
  l1.map fun l1 => if l1.s.rs_have = 0 then { l1 with s := _rs_rekey none 0 l1.s } else l1

/-- The loop `while (n > 0) { ... }` of `_rs_random_buf`. -/
def _rs_random_buf_loop (l : BufLoop K) : Option (BufLoop K) :=
  if hn : l.n = 0 then some l
  else
    match hb : _rs_random_buf_body l with
    | none => none
    | some l1 => _rs_random_buf_loop l1
termination_by 2 * l.n + (if l.s.rs_have = 0 then 1 else 0)
decreasing_by
  unfold _rs_random_buf_body at hb
  by_cases h0 : l.s.rs_have = 0
  · simp [h0] at hb
    subst hb
    simp [h0, _rs_rekey, _rs_init, RSBUFSZ, BLOCKSZ, KEYSZ, IVSZ]
  · have hpos : l.s.rs_have > 0 := Nat.pos_of_ne_zero h0
    by_cases hle : l.s.rs_have ≤ RSBUFSZ
    · simp only [hpos, hle, if_true, Option.map_some', Option.some.injEq] at hb
      subst hb
      have hm : 1 ≤ min l.n l.s.rs_have := by
        have : 1 ≤ l.n := Nat.pos_of_ne_zero hn
        exact Nat.le_min.mpr ⟨this, hpos⟩
      have hmn : min l.n l.s.rs_have ≤ l.n := Nat.min_le_left _ _
      have hsub : size_t_sub l.n (min l.n l.s.rs_have) = l.n - min l.n l.s.rs_have := by
        simp [size_t_sub, hmn]
      simp only [h0, if_false, Nat.add_zero]
      split_ifs <;> simp only [hsub] <;> omega
    · simp [hpos, hle] at hb

/-- `_rs_random_buf(_buf, n)`: the state and the caller's buffer afterwards. -/
def _rs_random_buf (i : StirInput) (_buf : Nat → Nat) (n : Nat) (s : State K) :
    Option (State K × (Nat → Nat)) :=
  (_rs_random_buf_loop { s := _rs_stir_if_needed i n s, out := _buf, buf := 0, n := n }).map
    fun l => (l.s, l.out)

/-- The state of `_rs_random_u32` when it computes `keystream`: after
`_rs_stir_if_needed(sizeof(*val))` and the refill of a cache that holds fewer than
`sizeof(*val)` bytes. -/
def u32_ready (i : StirInput) (s : State K) : State K :=
  let s1 := _rs_stir_if_needed i 4 s
  if s1.rs_have < 4 then _rs_rekey none 0 s1 else s1

/-- `_rs_random_u32(val)`: the state afterwards and the four bytes stored in `*val`.
The read of `sizeof(*val)` bytes at `rs_buf + RSBUFSZ - rs_have` is defined only when
`sizeof(*val) ≤ rs_have ≤ RSBUFSZ`. -/
def _rs_random_u32 (i : StirInput) (s : State K) : Option (State K × List Nat) :=
  let s2 := u32_ready i s
  if 4 ≤ s2.rs_have ∧ s2.rs_have ≤ RSBUFSZ then
    let keystream := RSBUFSZ - s2.rs_have
    some
      ({ s2 with
          rs_buf := memset s2.rs_buf keystream 0 4
          rs_have := size_t_sub s2.rs_have 4
          trace := s2.trace ++ [Event.copy_out keystream 0 4] },
        bytes s2.rs_buf keystream 4)
  else none

/-- `arc4_init()`. -/
def arc4_init (i : StirInput) (s : State K) : State K :=
  { _rs_stir i true s with arc4_t_reseed := 0 }

/-- The condition of the `if` at the head of `arc4rand`, evaluated left to right after
`atomic_cmpset_int` has been tried on `arc4rand_iniseed_state`. -/
def arc4rand_trigger (ts : timespec) (reseed : Int) (s : State K) : Prop :=
  s.arc4rand_iniseed_state = arc4_entr.ARC4_ENTR_HAVE ∨ reseed ≠ 0 ∨
    s.arc4_numruns > ARC4_RESEED_BYTES ∨ ts.tv_sec > s.arc4_t_reseed

instance (ts : timespec) (reseed : Int) (s : State K) :
    Decidable (arc4rand_trigger ts reseed s) :=
  inferInstanceAs
    (Decidable
      (s.arc4rand_iniseed_state = arc4_entr.ARC4_ENTR_HAVE ∨ reseed ≠ 0 ∨
        s.arc4_numruns > ARC4_RESEED_BYTES ∨ ts.tv_sec > s.arc4_t_reseed))

/-- The head of `arc4rand`, up to and excluding `mtx_lock`: `nanotime(&ts)`, the
compare-and-set of `arc4rand_iniseed_state` from HAVE to SEED, and `_rs_stir(0)` when the
condition holds. `ts` is the time read here, `i1` what that `_rs_stir` would obtain. -/
def arc4rand_head (ts : timespec) (i1 : StirInput) (reseed : Int) (s : State K) : State K :=
  let s0 : State K := { s with trace := s.trace ++ [Event.nanotime] }
  let s1 : State K :=
    if s0.arc4rand_iniseed_state = arc4_entr.ARC4_ENTR_HAVE then
      { s0 with arc4rand_iniseed_state := arc4_entr.ARC4_ENTR_SEED }
    else s0
  if arc4rand_trigger ts reseed s then _rs_stir i1 false s1 else s1

/-- The state of `arc4rand` at its call of `_rs_random_buf`: after the head, `mtx_lock`
and `arc4_numruns += len` (an `int` plus a `u_int`, converted back to `int`). -/
def arc4rand_locked (ts : timespec) (i1 : StirInput) (len : Nat) (reseed : Int)
    (s : State K) : State K :=
  let s2 := arc4rand_head ts i1 reseed s
  { s2 with
    trace := s2.trace ++ [Event.mtx_lock]
    arc4_numruns := to_int (s2.arc4_numruns + (len : Int)) }

/-- `arc4rand(ptr, len, reseed)`: the state and the memory at `ptr` afterwards. `i2` is
what `_rs_stir` would obtain if `_rs_stir_if_needed` calls it. -/
def arc4rand (ts : timespec) (i1 i2 : StirInput) (ptr : Nat → Nat) (len : Nat) (reseed : Int)
    (s : State K) : Option (State K × (Nat → Nat)) :=
  (_rs_random_buf i2 ptr len (arc4rand_locked ts i1 len reseed s)).map fun p =>
    ({ p.1 with trace := p.1.trace ++ [Event.mtx_unlock] }, p.2)

/-- `arc4random()`: the state afterwards and the bytes of the returned `uint32_t`. -/
def arc4random (i : StirInput) (s : State K) : Option (State K × List Nat) :=
  (_rs_random_u32 i { s with trace := s.trace ++ [Event.mtx_lock] }).map fun p =>
    ({ p.1 with trace := p.1.trace ++ [Event.mtx_unlock] }, p.2)

/-- Events that one run of `_rs_stir(lock)` appends to the log. -/
def stir_events (lock : Bool) : List Event :=
  [Event.rs_stir, Event.read_random, Event.nanotime] ++
    (if lock then [Event.mtx_lock] else []) ++ [Event.rs_rekey] ++
    (if lock then [Event.mtx_unlock] else [])

/-- Offsets of the caller's buffer written by the copies recorded in a log, in order. -/
def out_writes : List Event → List Nat
  | [] => []
  | Event.copy_out _ dst m :: es => List.range' dst m ++ out_writes es
  | _ :: es => out_writes es

/-- Cache indices copied out to a caller since the cache was last refilled by
`_rs_rekey`, for a log in chronological order. -/
def served_since_rekey (es : List Event) : List Nat :=
  es.foldl
    (fun acc e =>
      match e with
      | Event.rs_rekey => []
      | Event.copy_out src _ m => acc ++ List.range' src m
      | _ => acc)
    []

/-- An event of the serving loop: a cache refill or a copy to the caller. -/
def Event.serving : Event → Prop
  | Event.rs_rekey => True
  | Event.copy_out _ _ _ => True
  | _ => False

/-- The block `if (rs_have > 0) { ... }` of `_rs_random_buf`, with `m = MIN(n, rs_have)`. -/
def serve_block (l : BufLoop K) : BufLoop K :=
  { s :=
      { l.s with
        rs_buf := memset l.s.rs_buf (RSBUFSZ - l.s.rs_have) 0 (min l.n l.s.rs_have)
        rs_have := size_t_sub l.s.rs_have (min l.n l.s.rs_have)
        trace := l.s.trace ++ [Event.copy_out (RSBUFSZ - l.s.rs_have) l.buf (min l.n l.s.rs_have)] }
    out := memcpy l.out l.buf l.s.rs_buf (RSBUFSZ - l.s.rs_have) (min l.n l.s.rs_have)
    buf := l.buf + min l.n l.s.rs_have
    n := size_t_sub l.n (min l.n l.s.rs_have) }

/-- The cache invariants: at most `RSBUFSZ - KEYSZ - IVSZ` unconsumed bytes, and every
cache byte below the unconsumed tail is zero. -/
def CacheInv (s : State K) : Prop :=
  s.rs_have ≤ RSBUFSZ - KEYSZ - IVSZ ∧ ∀ i, i < RSBUFSZ - s.rs_have → s.rs_buf i = 0

/-- States reached from the load-time state by calls of `arc4_init`, `arc4rand`,
`arc4random` and `_rs_stir`, with any results of the collaborators, and by the host
changing `arc4rand_iniseed_state`. -/
inductive Reachable : State K → Prop where
  | initial : Reachable (State.initial K)
  | arc4_init (i : StirInput) (s : State K) : Reachable s → Reachable (arc4_init i s)
  | rs_stir (i : StirInput) (lock : Bool) (s : State K) :
      Reachable s → Reachable (_rs_stir i lock s)
  | arc4rand (ts : timespec) (i1 i2 : StirInput) (ptr : Nat → Nat) (len : Nat) (reseed : Int)
      (s s1 : State K) (out : Nat → Nat) :
      Reachable s → arc4rand ts i1 i2 ptr len reseed s = some (s1, out) → Reachable s1
  | arc4random (i : StirInput) (s s1 : State K) (val : List Nat) :
      Reachable s → arc4random i s = some (s1, val) → Reachable s1
  | host_signal (e : arc4_entr) (s : State K) :
      Reachable s → Reachable { s with arc4rand_iniseed_state := e }

/-- The static variables that the serving loop leaves alone agree in two states. -/
def SameScalars (s s0 : State K) : Prop :=
  s.arc4rand_iniseed_state = s0.arc4rand_iniseed_state ∧ s.arc4_numruns = s0.arc4_numruns ∧
    s.arc4_t_reseed = s0.arc4_t_reseed ∧ s.rs_initialized = s0.rs_initialized ∧
    s.rs_count = s0.rs_count

/-- Relation between the loop variables at some iteration (`l`) and on entry (`l0`): the
pointer has advanced by what was served, memory outside the requested range is untouched,
and the log has grown by serving events that wrote the offsets passed so far. -/
def LoopProgress (l0 l : BufLoop K) : Prop :=
  l.s.rs_have ≤ RSBUFSZ ∧ l.buf + l.n = l0.buf + l0.n ∧ l0.buf ≤ l.buf ∧
    (∀ j, j < l0.buf ∨ l0.buf + l0.n ≤ j → l.out j = l0.out j) ∧
    SameScalars l.s l0.s ∧
    ∃ evs, l.s.trace = l0.s.trace ++ evs ∧
      out_writes evs = List.range' l0.buf (l.buf - l0.buf) ∧ ∀ e, e ∈ evs → e.serving

/-- A small keystream primitive for concrete runs: the context is a number, `init` adds
up the key and nonce bytes, and byte `i` of the keystream of context `c` is
`(c + i) mod 256`. -/
def toyKS : Keystream :=
  { Ctx := Nat
    zero := 0
    init := fun key iv => key.sum + iv.sum + 1
    generate := fun c i => (c + i) % 256 }

/-- A clock reading for concrete runs: 1000 seconds, sixteen bytes of representation. -/
def ts1000 : timespec :=
  { tv_sec := 1000
    bytes := [232, 3, 0, 0, 0, 0, 0, 0, 0, 0, 0, 0, 0, 0, 0, 0]
    sizeof_le := by decide }

/-- A full entropy read for concrete runs: 32 bytes `0, 1, ..., 31` at time `ts1000`. -/
def stir32 : StirInput :=
  { r := 32
    key := fun n => if n < 32 then n else 0
    ts_now := ts1000 }

/-- The invariant carried through every call: the cache invariants, every cache index
copied out since the last refill lies below the unconsumed tail, and every copy recorded
in the log read `m` bytes from a cache index `src` with `KEYSZ + IVSZ ≤ src` and
`src + m ≤ RSBUFSZ`. -/
def GInv (s : State K) : Prop :=
  CacheInv s ∧ (∀ p, p ∈ served_since_rekey s.trace → p < RSBUFSZ - s.rs_have) ∧
    ∀ src dst m, Event.copy_out src dst m ∈ s.trace → KEYSZ + IVSZ ≤ src ∧ src + m ≤ RSBUFSZ

/-- A generator that was seeded but never marked initialised: `rs_initialized` is still
0, the cache is empty and all zero. This is the state `_rs_seed` leaves behind when it is
reached before the first call of `_rs_stir_if_needed`. -/
def Fresh (s : State K) : Prop :=
  s.rs_initialized = false ∧ s.rs_have = 0 ∧ ∀ i, i < RSBUFSZ → s.rs_buf i = 0

/-- The context `_rs_init` loads from forty zero bytes: the all-zero key and nonce. -/
def zero_key_ctx (K : Keystream) : K.Ctx :=
  K.init (List.replicate KEYSZ 0) (List.replicate IVSZ 0)

/-- The arguments of one call `arc4rand(ptr, len, reseed)` and what the collaborators
return during it. -/
structure Call where
  ts : timespec
  i1 : StirInput
  i2 : StirInput
  ptr : Nat → Nat
  len : Nat
  reseed : Int

/-- The call `c` takes `s` to `s1` without any trigger firing: the condition at the head
of `arc4rand` is false, and the generator is initialised with `rs_count` above the
requested length. -/
def Call.quiet (c : Call) (s s1 : State K) : Prop :=
  ¬ arc4rand_trigger c.ts c.reseed s ∧ s.rs_initialized = true ∧ c.len < s.rs_count ∧
    ∃ out, arc4rand c.ts c.i1 c.i2 c.ptr c.len c.reseed s = some (s1, out)

/-- A sequence of `arc4rand` calls from `s` to `s2` during which no trigger fires. -/
def QuietRun : State K → List Call → State K → Prop
  | s, [], s2 => s2 = s
  | s, c :: cs, s2 => ∃ s1, c.quiet s s1 ∧ QuietRun s1 cs s2

/-- A call for concrete runs: `len` bytes with flag `reseed`, clock at `ts1000`, entropy
reads `stir32`. -/
def toy_call (len : Nat) (reseed : Int) : Call :=
  { ts := ts1000, i1 := stir32, i2 := stir32, ptr := fun _ => 0, len := len, reseed := reseed }

/-- The state after the call `c` of `arc4rand` on `s` (`s` itself if the call has no
result). -/
def run_call (c : Call) (s : State K) : State K :=
  match arc4rand c.ts c.i1 c.i2 c.ptr c.len c.reseed s with
  | some (s1, _) => s1
  | none => s

/-- A state just after a reseed, for concrete runs: the load-time state after
`arc4rand(ptr, 0, 0)`, which marks the generator initialised, and `arc4rand(ptr, 0, 1)`,
which reseeds it. -/
def toy_seeded : State toyKS :=
  run_call (toy_call 0 1) (run_call (toy_call 0 0) (State.initial toyKS))

/-- A later clock reading for concrete runs: 1200 seconds. -/
def ts1200 : timespec :=
  { tv_sec := 1200
    bytes := [176, 4, 0, 0, 0, 0, 0, 0, 0, 0, 0, 0, 0, 0, 0, 0]
    sizeof_le := by decide }

/-- A full entropy read at time `ts1200`. -/
def stir32_late : StirInput :=
  { r := 32
    key := fun n => if n < 32 then n else 0
    ts_now := ts1200 }

/-- A reachable state in which every trigger of the reseed policy is due: 65537 bytes
were requested since the reseed of `toy_seeded`, whose deadline is 1300 seconds, and the
host has then signalled fresh entropy. -/
def toy_overdue : State toyKS :=
  { run_call (toy_call 65537 0) toy_seeded with
    arc4rand_iniseed_state := arc4_entr.ARC4_ENTR_HAVE }

/-- The loop of `_rs_random_buf` cut off after `k` iterations: there is no result if
`n > 0` still holds after them. -/
def _rs_random_buf_iter : Nat → BufLoop K → Option (BufLoop K)
  | 0, l => if l.n = 0 then some l else none
  | k + 1, l => if l.n = 0 then some l else (_rs_random_buf_body l).bind (_rs_random_buf_iter k)

/-- The forty bytes `_rs_rekey(dat, datlen)` hands to `_rs_init` when the context is `c`:
the head of the fresh keystream block, XORed with `dat[n]` for `n < MIN(datlen, 40)` when
`dat` is not null. -/
def rekey_key (K : Keystream) (c : K.Ctx) (dat : Option (Nat → Nat)) (datlen : Nat) : Nat → Nat :=
  fun n =>
    match dat with
    | some d => if n < min datlen (KEYSZ + IVSZ) then K.generate c n ^^^ d n else K.generate c n
    | none => K.generate c n

/-- A clock reading of zero seconds, for concrete runs. -/
def ts_zero : timespec :=
  { tv_sec := 0
    bytes := [0, 0, 0, 0, 0, 0, 0, 0, 0, 0, 0, 0, 0, 0, 0, 0]
    sizeof_le := by decide }

/-- Whether every write to the cache recorded in a log (a refill by `_rs_rekey`, or the
zeroing that follows a copy) happens while `arc4_mtx` is held; `held` tells whether the
mutex is held where the log starts. -/
def writes_locked : Bool → List Event → Bool
  | _, [] => true
  | _, Event.mtx_lock :: es => writes_locked true es
  | _, Event.mtx_unlock :: es => writes_locked false es
  | held, Event.rs_rekey :: es => held && writes_locked held es
  | held, Event.copy_out _ _ _ :: es => held && writes_locked held es
  | held, Event.read_random :: es => writes_locked held es
  | held, Event.nanotime :: es => writes_locked held es
  | held, Event.rs_stir :: es => writes_locked held es

/-- The layout of the keystream block in the cache: some context `c` generated a block of
which the unconsumed tail of `rs_buf` still holds the bytes at their own indices, and,
while that tail is not empty, the generator is initialised and its context is the one
`_rs_init` loaded from bytes `[0, KEYSZ + IVSZ)` of the same block. -/
def BlockInv (s : State K) : Prop :=
  (0 < s.rs_have → s.rs_initialized = true) ∧
    ∃ c : K.Ctx,
      (0 < s.rs_have →
        s.rs = K.init (bytes (K.generate c) 0 KEYSZ) (bytes (K.generate c) KEYSZ IVSZ)) ∧
      ∀ i, RSBUFSZ - s.rs_have ≤ i → i < RSBUFSZ → s.rs_buf i = K.generate c i

/-- At every moment of a log (every prefix of it), the cache indices copied out since the
last refill by `_rs_rekey` are pairwise distinct. -/
def ServedOnce (t : List Event) : Prop :=
  ∀ p, p <+: t → (served_since_rekey p).Nodup

/-- The invariant of the cache layout: `GInv`, `BlockInv`, and `ServedOnce` of the log. -/
def LayoutInv (s : State K) : Prop :=
  GInv s ∧ BlockInv s ∧ ServedOnce s.trace

/-- Every byte of `out` at an offset below `hi` is a keystream byte at an index within
`[KEYSZ + IVSZ, RSBUFSZ)` of the block of some context. -/
def FromTail (K : Keystream) (out : Nat → Nat) (hi : Nat) : Prop :=
  ∀ j, j < hi → ∃ (c : K.Ctx) (src : Nat),
    KEYSZ + IVSZ ≤ src ∧ src < RSBUFSZ ∧ out j = K.generate c src

/-- Two states hold the same cipher context and the same cache. -/
def SameCache (s t : State K) : Prop :=
  s.rs = t.rs ∧ s.rs_buf = t.rs_buf ∧ s.rs_have = t.rs_have

/-- The last clock reading `time_t` can hold, for concrete runs: `2^63 - 1` seconds. -/
def ts_last : timespec :=
  { tv_sec := 9223372036854775807
    bytes := [255, 255, 255, 255, 255, 255, 255, 127, 0, 0, 0, 0, 0, 0, 0, 0]
    sizeof_le := by decide }

/-- A full entropy read at time `ts_last`. -/
def stir32_last : StirInput :=
  { r := 32
    key := fun n => if n < 32 then n else 0
    ts_now := ts_last }

end Arc4

namespace TimingSafe

theorem nat_or_eq_zero (a b : Nat) : a ||| b = 0 ↔ a = 0 ∧ b = 0 := by
  constructor
  · intro h
    have key : ∀ i, a.testBit i = false ∧ b.testBit i = false := by
      intro i
      have := congrArg (fun x => x.testBit i) h
      simpa [Nat.testBit_or] using this
    constructor
    · apply Nat.eq_of_testBit_eq
      intro i
      simp [(key i).1]
    · apply Nat.eq_of_testBit_eq
      intro i
      simp [(key i).2]
  · rintro ⟨rfl, rfl⟩
    simp

theorem int_xor_eq_zero (a b : Int) : Int.xor a b = 0 ↔ a = b := by
  cases a <;> cases b <;> simp [Int.xor, Nat.xor_eq_zero]

theorem int_lor_eq_zero (a b : Int) : Int.lor a b = 0 ↔ a = 0 ∧ b = 0 := by
  cases a <;> cases b <;> simp [Int.lor, nat_or_eq_zero]

theorem char_to_int_inj (cs : Bool) (x y : Fin 256) :
    char_to_int cs x = char_to_int cs y ↔ x = y := by
  constructor
  · intro h
    apply Fin.ext
    have hx := x.isLt
    have hy := y.isLt
    unfold char_to_int at h
    split_ifs at h <;> omega
  · rintro rfl
    rfl

/-- One more iteration at the end of the loop is one more step on its result. -/
theorem loop_succ (cs : Bool) (b1 b2 : List (Fin 256)) (n : Nat) :
    ∀ (i : Nat) (r : Int) (reads : List Nat),
      timingsafe_bcmp_loop cs b1 b2 (n + 1) i r reads =
        (timingsafe_bcmp_loop cs b1 b2 n i r reads).bind fun p =>
          match b1[i + n]?, b2[i + n]? with
          | some x, some y =>
            some (Int.lor p.1 (Int.xor (char_to_int cs x) (char_to_int cs y)), p.2 ++ [i + n])
          | _, _ => none := by
  induction n with
  | zero =>
    intro i r reads
    simp only [timingsafe_bcmp_loop, Nat.add_zero, Option.some_bind]
  | succ k ih =>
    intro i r reads
    rw [timingsafe_bcmp_loop]
    cases h1 : b1[i]? with
    | none => simp [timingsafe_bcmp_loop, h1]
    | some x =>
      cases h2 : b2[i]? with
      | none => simp [timingsafe_bcmp_loop, h1, h2]
      | some y =>
        simp only []
        rw [ih (i + 1)]
        conv_rhs => rw [timingsafe_bcmp_loop]
        simp only [h1, h2]
        have e : i + 1 + k = i + (k + 1) := by omega
        rw [e]

/-- On buffers of at least `n` bytes the loop runs to completion, computes the OR of the
XORs and dereferences the indices `0, 1, ..., n-1` in this order. -/
theorem loop_eq (cs : Bool) (b1 b2 : List (Fin 256)) (n : Nat)
    (h1 : n ≤ b1.length) (h2 : n ≤ b2.length) :
    timingsafe_bcmp_loop cs b1 b2 n 0 0 [] = some (or_of_xor cs b1 b2 n, List.range n) := by
  induction n with
  | zero => rfl
  | succ k ih =>
    have hk1 : k < b1.length := by omega
    have hk2 : k < b2.length := by omega
    rw [loop_succ, ih (by omega) (by omega)]
    simp [or_of_xor, List.getElem?_eq_getElem, hk1, hk2, List.getD_eq_getElem, List.range_succ]

theorem or_of_xor_eq_zero (cs : Bool) (b1 b2 : List (Fin 256)) (n : Nat) :
    or_of_xor cs b1 b2 n = 0 ↔ ∀ i, i < n → b1.getD i 0 = b2.getD i 0 := by
  induction n with
  | zero => simp [or_of_xor]
  | succ k ih =>
    simp only [or_of_xor, int_lor_eq_zero, int_xor_eq_zero, char_to_int_inj, ih]
    constructor
    · rintro ⟨h, hk⟩ i hi
      rcases Nat.lt_succ_iff_lt_or_eq.mp hi with h1 | rfl
      · exact h i h1
      · exact hk
    · intro h
      exact ⟨fun i hi => h i (by omega), h k (by omega)⟩

/-- C1. For every length `n` and buffers of at least `n` bytes, `timingsafe_bcmp` returns a
result, and the result is non-zero exactly when some index `i < n` has `b1[i] ≠ b2[i]`;
it is zero exactly when the first `n` bytes agree (so `n = 0` gives zero), and it is the
test "OR over `i < n` of `b1[i] XOR b2[i]` is non-zero" on the promoted `char` values. -/
theorem timingsafe_bcmp_iff_differs (char_signed : Bool) (b1 b2 : List (Fin 256)) (n : Nat)
    (h1 : n ≤ b1.length) (h2 : n ≤ b2.length) :
    ∃ r : Int, timingsafe_bcmp char_signed b1 b2 n = some r ∧
      (r ≠ 0 ↔ ∃ i, i < n ∧ b1.getD i 0 ≠ b2.getD i 0) ∧
      (r = 0 ↔ b1.take n = b2.take n) ∧
      r = (if or_of_xor char_signed b1 b2 n ≠ 0 then 1 else 0) := by
  refine ⟨if or_of_xor char_signed b1 b2 n ≠ 0 then 1 else 0, ?_, ?_, ?_, rfl⟩
  · simp [timingsafe_bcmp, loop_eq char_signed b1 b2 n h1 h2]
  · have h := or_of_xor_eq_zero char_signed b1 b2 n
    by_cases hz : or_of_xor char_signed b1 b2 n = 0
    · simp only [hz, ne_eq, not_true_eq_false, if_false, false_iff]
      rintro ⟨i, hi, hne⟩
      exact hne (h.mp hz i hi)
    · simp only [hz, ne_eq, not_false_eq_true, if_true, one_ne_zero, true_iff]
      by_contra hcon
      apply hz
      apply h.mpr
      intro i hi
      by_contra hne
      exact hcon ⟨i, hi, hne⟩
  · have h := or_of_xor_eq_zero char_signed b1 b2 n
    have ht : b1.take n = b2.take n ↔ ∀ i, i < n → b1.getD i 0 = b2.getD i 0 := by
      constructor
      · intro e i hi
        have := congrArg (fun l => l.getD i 0) e
        simpa [List.getD_eq_getElem?_getD, List.getElem?_take, hi] using this
      · intro e
        apply List.ext_getElem
        · simp [List.length_take, Nat.min_eq_left h1, Nat.min_eq_left h2]
        · intro i hi1 hi2
          have hi : i < n := by
            simp [List.length_take] at hi1
            omega
          have := e i hi
          simp only [List.getElem_take]
          rw [List.getD_eq_getElem b1 0 (by omega), List.getD_eq_getElem b2 0 (by omega)] at this
          exact this
    rw [ht, ← h]
    by_cases hz : or_of_xor char_signed b1 b2 n = 0 <;> simp [hz]

/-- Witness for C1: equal-length buffers differing only in their last byte. -/
theorem timingsafe_bcmp_iff_differs_witness :
    ∃ r : Int, timingsafe_bcmp true [1, 2, 200] [1, 2, 201] 3 = some r ∧
      (r ≠ 0 ↔ ∃ i, i < 3 ∧ ([1, 2, 200] : List (Fin 256)).getD i 0 ≠
        ([1, 2, 201] : List (Fin 256)).getD i 0) ∧
      (r = 0 ↔ ([1, 2, 200] : List (Fin 256)).take 3 = ([1, 2, 201] : List (Fin 256)).take 3) ∧
      r = (if or_of_xor true [1, 2, 200] [1, 2, 201] 3 ≠ 0 then 1 else 0) :=
  timingsafe_bcmp_iff_differs true [1, 2, 200] [1, 2, 201] 3 (by decide) (by decide)

/-- C13. For every `n` and any two pairs of buffers of at least `n` bytes, the loop of
`timingsafe_bcmp` runs to completion on both, performs `n` iterations and dereferences the
indices `0, 1, ..., n-1` of both buffers in this order, whatever the buffers hold and
wherever they differ; the accumulator is tested once, on the value the loop ends with. -/
theorem timingsafe_bcmp_same_reads (char_signed : Bool) (a b a2 b2 : List (Fin 256)) (n : Nat)
    (h1 : n ≤ a.length) (h2 : n ≤ b.length) (h3 : n ≤ a2.length) (h4 : n ≤ b2.length) :
    ∃ (r r2 : Int) (reads : List Nat),
      timingsafe_bcmp_loop char_signed a b n 0 0 [] = some (r, reads) ∧
      timingsafe_bcmp_loop char_signed a2 b2 n 0 0 [] = some (r2, reads) ∧
      reads = List.range n ∧ reads.length = n ∧
      timingsafe_bcmp char_signed a b n = some (if r ≠ 0 then 1 else 0) ∧
      timingsafe_bcmp char_signed a2 b2 n = some (if r2 ≠ 0 then 1 else 0) := by
  refine ⟨or_of_xor char_signed a b n, or_of_xor char_signed a2 b2 n, List.range n,
    loop_eq char_signed a b n h1 h2, loop_eq char_signed a2 b2 n h3 h4, rfl,
    List.length_range n, ?_, ?_⟩
  · simp only [timingsafe_bcmp, loop_eq char_signed a b n h1 h2]
  · simp only [timingsafe_bcmp, loop_eq char_signed a2 b2 n h3 h4]

/-- Witness for C13: equal buffers against buffers differing in their first byte. -/
theorem timingsafe_bcmp_same_reads_witness :
    ∃ (r r2 : Int) (reads : List Nat),
      timingsafe_bcmp_loop true [1, 2, 3] [1, 2, 3] 3 0 0 [] = some (r, reads) ∧
      timingsafe_bcmp_loop true [9, 2, 3] [1, 2, 3] 3 0 0 [] = some (r2, reads) ∧
      reads = List.range 3 ∧ reads.length = 3 ∧
      timingsafe_bcmp true [1, 2, 3] [1, 2, 3] 3 = some (if r ≠ 0 then 1 else 0) ∧
      timingsafe_bcmp true [9, 2, 3] [1, 2, 3] 3 = some (if r2 ≠ 0 then 1 else 0) :=
  timingsafe_bcmp_same_reads true [1, 2, 3] [1, 2, 3] [9, 2, 3] [1, 2, 3] 3
    (by decide) (by decide) (by decide) (by decide)

end TimingSafe

namespace Arc4

variable {K : Keystream}

theorem RSBUFSZ_eq : RSBUFSZ = 1024 := rfl

theorem KEYSZ_eq : KEYSZ = 32 := rfl

theorem IVSZ_eq : IVSZ = 8 := rfl

theorem size_t_sub_of_le {a b : Nat} (h : b ≤ a) : size_t_sub a b = a - b := by
  simp [size_t_sub, h]

/-! ### Effect of `_rs_rekey`, `_rs_seed`, `_rs_stir` and `_rs_stir_if_needed` -/

theorem rekey_rs_have (d : Option (Nat → Nat)) (n : Nat) (s : State K) :
    (_rs_rekey d n s).rs_have = 984 := rfl

theorem rekey_trace (d : Option (Nat → Nat)) (n : Nat) (s : State K) :
    (_rs_rekey d n s).trace = s.trace ++ [Event.rs_rekey] := rfl

theorem rekey_buf_low (d : Option (Nat → Nat)) (n : Nat) (s : State K) (i : Nat) (h : i < 40) :
    (_rs_rekey d n s).rs_buf i = 0 := by
  simp [_rs_rekey, _rs_init, memset, KEYSZ_eq, IVSZ_eq, h]

theorem rekey_buf_high (n : Nat) (s : State K) (i : Nat) (h1 : 40 ≤ i) (h2 : i < 1024) :
    (_rs_rekey none n s).rs_buf i = K.generate s.rs i := by
  have h3 : ¬ i < 40 := by omega
  simp [_rs_rekey, _rs_init, memset, KEYSZ_eq, IVSZ_eq, RSBUFSZ_eq, h3, h2]

theorem rekey_rs (n : Nat) (s : State K) :
    (_rs_rekey none n s).rs =
      K.init (bytes (K.generate s.rs) 0 32) (bytes (K.generate s.rs) 32 8) := by
  have e : ∀ off len, off + len ≤ 1024 →
      bytes (fun i => if i < RSBUFSZ then K.generate s.rs i else s.rs_buf i) off len =
        bytes (K.generate s.rs) off len := by
    intro off len h
    apply List.map_congr_left
    intro a ha
    have : off + a < 1024 := by
      have := List.mem_range.mp ha
      omega
    simp [RSBUFSZ_eq, this]
  simp only [_rs_rekey, _rs_init, KEYSZ_eq, IVSZ_eq]
  rw [e 0 32 (by omega), e 32 8 (by omega)]

theorem rekey_frame (d : Option (Nat → Nat)) (n : Nat) (s : State K) :
    (_rs_rekey d n s).arc4rand_iniseed_state = s.arc4rand_iniseed_state ∧
    (_rs_rekey d n s).arc4_numruns = s.arc4_numruns ∧
    (_rs_rekey d n s).arc4_t_reseed = s.arc4_t_reseed ∧
    (_rs_rekey d n s).rs_initialized = s.rs_initialized ∧
    (_rs_rekey d n s).rs_count = s.rs_count :=
  ⟨rfl, rfl, rfl, rfl, rfl⟩

theorem seed_rs_have (b : Nat → Nat) (n : Nat) (s : State K) : (_rs_seed b n s).rs_have = 0 := rfl

theorem seed_rs_count (b : Nat → Nat) (n : Nat) (s : State K) :
    (_rs_seed b n s).rs_count = 1600000 := rfl

theorem seed_trace (b : Nat → Nat) (n : Nat) (s : State K) :
    (_rs_seed b n s).trace = s.trace ++ [Event.rs_rekey] := rfl

theorem seed_buf (b : Nat → Nat) (n : Nat) (s : State K) (i : Nat) (h : i < 1024) :
    (_rs_seed b n s).rs_buf i = 0 := by
  simp [_rs_seed, memset, RSBUFSZ_eq, h]

theorem seed_frame (b : Nat → Nat) (n : Nat) (s : State K) :
    (_rs_seed b n s).arc4rand_iniseed_state = s.arc4rand_iniseed_state ∧
    (_rs_seed b n s).arc4_numruns = s.arc4_numruns ∧
    (_rs_seed b n s).arc4_t_reseed = s.arc4_t_reseed ∧
    (_rs_seed b n s).rs_initialized = s.rs_initialized :=
  ⟨rfl, rfl, rfl, rfl⟩

theorem stir_trace (i : StirInput) (lock : Bool) (s : State K) :
    (_rs_stir i lock s).trace = s.trace ++ stir_events lock := by
  cases lock <;> simp [_rs_stir, stir_events, seed_trace]

theorem stir_rs_have (i : StirInput) (lock : Bool) (s : State K) :
    (_rs_stir i lock s).rs_have = 0 := by
  cases lock <;> rfl

theorem stir_rs_count (i : StirInput) (lock : Bool) (s : State K) :
    (_rs_stir i lock s).rs_count = 1600000 := by
  cases lock <;> rfl

theorem stir_numruns (i : StirInput) (lock : Bool) (s : State K) :
    (_rs_stir i lock s).arc4_numruns = 0 := by
  cases lock <;> rfl

theorem stir_t_reseed (i : StirInput) (lock : Bool) (s : State K) :
    (_rs_stir i lock s).arc4_t_reseed = to_time_t (i.ts_now.tv_sec + 300) := by
  cases lock <;> rfl

theorem stir_buf (i : StirInput) (lock : Bool) (s : State K) (j : Nat) (h : j < 1024) :
    (_rs_stir i lock s).rs_buf j = 0 := by
  cases lock <;> simp [_rs_stir, seed_buf, h]

theorem stir_frame (i : StirInput) (lock : Bool) (s : State K) :
    (_rs_stir i lock s).arc4rand_iniseed_state = s.arc4rand_iniseed_state ∧
    (_rs_stir i lock s).rs_initialized = s.rs_initialized := by
  cases lock <;> exact ⟨rfl, rfl⟩

/-! ### The serving loop -/

theorem loop_zero (l : BufLoop K) (h : l.n = 0) : _rs_random_buf_loop l = some l := by
  rw [_rs_random_buf_loop]
  simp [h]

theorem loop_step (l l1 : BufLoop K) (h : l.n ≠ 0) (hb : _rs_random_buf_body l = some l1) :
    _rs_random_buf_loop l = _rs_random_buf_loop l1 := by
  rw [_rs_random_buf_loop]
  simp only [h, dite_false]
  split
  · rename_i h2
    rw [hb] at h2
    cases h2
  · rename_i l2 h2
    rw [hb] at h2
    cases h2
    rfl

theorem loop_none (l : BufLoop K) (h : l.n ≠ 0) (hb : _rs_random_buf_body l = none) :
    _rs_random_buf_loop l = none := by
  rw [_rs_random_buf_loop]
  simp only [h, dite_false]
  split
  · rfl
  · rename_i l2 h2
    rw [hb] at h2
    cases h2

/-- The three ways one iteration can end: a refill of an empty cache, a partial drain of
the cache, or a drain to the last byte followed by a refill. -/
theorem body_cases (l l1 : BufLoop K) (hb : _rs_random_buf_body l = some l1) :
    (l.s.rs_have = 0 ∧ l1 = { l with s := _rs_rekey none 0 l.s }) ∨
    (0 < l.s.rs_have ∧ l.s.rs_have ≤ RSBUFSZ ∧ l.n < l.s.rs_have ∧ l1 = serve_block l) ∨
    (0 < l.s.rs_have ∧ l.s.rs_have ≤ RSBUFSZ ∧ l.s.rs_have ≤ l.n ∧
      l1 = { serve_block l with s := _rs_rekey none 0 (serve_block l).s }) := by
  unfold _rs_random_buf_body at hb
  by_cases h0 : l.s.rs_have = 0
  · left
    simp [h0] at hb
    exact ⟨h0, hb.symm⟩
  · right
    have hpos : 0 < l.s.rs_have := Nat.pos_of_ne_zero h0
    by_cases hle : l.s.rs_have ≤ RSBUFSZ
    · simp only [gt_iff_lt, hpos, hle, if_true, Option.map_some', Option.some.injEq] at hb
      by_cases hn : l.n < l.s.rs_have
      · left
        refine ⟨hpos, hle, hn, ?_⟩
        have hm : min l.n l.s.rs_have = l.n := Nat.min_eq_left (Nat.le_of_lt hn)
        have hne : ¬ size_t_sub l.s.rs_have (min l.n l.s.rs_have) = 0 := by
          rw [hm, size_t_sub_of_le (Nat.le_of_lt hn)]
          omega
        rw [if_neg hne] at hb
        exact hb.symm
      · right
        have hn2 : l.s.rs_have ≤ l.n := Nat.le_of_not_lt hn
        refine ⟨hpos, hle, hn2, ?_⟩
        have hm : min l.n l.s.rs_have = l.s.rs_have := Nat.min_eq_right hn2
        have he : size_t_sub l.s.rs_have (min l.n l.s.rs_have) = 0 := by
          rw [hm, size_t_sub_of_le (Nat.le_refl _)]
          omega
        rw [if_pos he] at hb
        exact hb.symm
    · simp [hpos, hle] at hb

theorem body_some (l : BufLoop K) (h : l.s.rs_have ≤ RSBUFSZ) :
    ∃ l1, _rs_random_buf_body l = some l1 := by
  unfold _rs_random_buf_body
  by_cases h0 : l.s.rs_have = 0
  · simp [h0]
  · have hpos : 0 < l.s.rs_have := Nat.pos_of_ne_zero h0
    simp [hpos, h]

/-- Invariant rule for the loop: a property kept by every iteration holds on exit, where
`n = 0`. -/
theorem loop_inv_rule (P : BufLoop K → Prop)
    (hP : ∀ l l1, P l → l.n ≠ 0 → _rs_random_buf_body l = some l1 → P l1) :
    ∀ l l2, P l → _rs_random_buf_loop l = some l2 → P l2 ∧ l2.n = 0 := by
  intro l
  induction l using _rs_random_buf_loop.induct with
  | case1 x hx =>
    intro l2 hp hl
    rw [loop_zero x hx] at hl
    cases hl
    exact ⟨hp, hx⟩
  | case2 x hx hb =>
    intro l2 _ hl
    rw [loop_none x hx hb] at hl
    cases hl
  | case3 x hx l1 hb ih =>
    intro l2 hp hl
    rw [loop_step x l1 hx hb] at hl
    exact ih l2 (hP x l1 hp hx hb) hl

theorem body_rs_have_le (l l1 : BufLoop K) (h : l.s.rs_have ≤ RSBUFSZ)
    (hb : _rs_random_buf_body l = some l1) : l1.s.rs_have ≤ RSBUFSZ := by
  rcases body_cases l l1 hb with ⟨_, rfl⟩ | ⟨_, _, hn, rfl⟩ | ⟨_, _, _, rfl⟩
  · simp [rekey_rs_have, RSBUFSZ_eq]
  · have hm : min l.n l.s.rs_have = l.n := Nat.min_eq_left (Nat.le_of_lt hn)
    simp only [serve_block, hm, size_t_sub_of_le (Nat.le_of_lt hn)]
    omega
  · simp [rekey_rs_have, RSBUFSZ_eq]

/-- The loop ends with a result whenever `rs_have ≤ RSBUFSZ` on entry. -/
theorem loop_total (l : BufLoop K) (h : l.s.rs_have ≤ RSBUFSZ) :
    ∃ l2, _rs_random_buf_loop l = some l2 := by
  induction l using _rs_random_buf_loop.induct with
  | case1 x hx => exact ⟨x, loop_zero x hx⟩
  | case2 x _ hb =>
    obtain ⟨l1, h1⟩ := body_some x h
    rw [hb] at h1
    cases h1
  | case3 x hx l1 hb ih =>
    obtain ⟨l2, h2⟩ := ih (body_rs_have_le x l1 h hb)
    exact ⟨l2, by rw [loop_step x l1 hx hb]; exact h2⟩

theorem out_writes_append (a b : List Event) :
    out_writes (a ++ b) = out_writes a ++ out_writes b := by
  induction a with
  | nil => rfl
  | cons e es ih =>
    cases e <;> simp [out_writes, ih]

theorem loopProgress_refl (l0 : BufLoop K) (h : l0.s.rs_have ≤ RSBUFSZ) :
    LoopProgress l0 l0 :=
  ⟨h, rfl, Nat.le_refl _, fun _ _ => rfl, ⟨rfl, rfl, rfl, rfl, rfl⟩, [], by simp, by simp [out_writes],
    by simp⟩

theorem loopProgress_rekey (l0 l : BufLoop K) (h : LoopProgress l0 l) :
    LoopProgress l0 { l with s := _rs_rekey none 0 l.s } := by
  obtain ⟨_, h2, h3, h4, h5, evs, h6, h7, h8⟩ := h
  refine ⟨by simp [rekey_rs_have, RSBUFSZ_eq], h2, h3, h4, ?_, evs ++ [Event.rs_rekey], ?_, ?_, ?_⟩
  · exact h5
  · simp [rekey_trace, h6]
  · simp [out_writes_append, out_writes, h7]
  · intro e he
    rcases List.mem_append.mp he with h | h
    · exact h8 e h
    · simp at h
      subst h
      trivial

theorem loopProgress_serve (l0 l : BufLoop K) (h : LoopProgress l0 l) :
    LoopProgress l0 (serve_block l) := by
  obtain ⟨h1, h2, h3, h4, h5, evs, h6, h7, h8⟩ := h
  have hm1 : min l.n l.s.rs_have ≤ l.n := Nat.min_le_left _ _
  have hm2 : min l.n l.s.rs_have ≤ l.s.rs_have := Nat.min_le_right _ _
  generalize hm : min l.n l.s.rs_have = m at hm1 hm2
  refine ⟨?_, ?_, ?_, ?_, h5, evs ++ [Event.copy_out (RSBUFSZ - l.s.rs_have) l.buf m], ?_, ?_, ?_⟩
  · simp only [serve_block, hm, size_t_sub_of_le hm2]
    omega
  · simp only [serve_block, hm, size_t_sub_of_le hm1]
    omega
  · simp only [serve_block, hm]
    omega
  · intro j hj
    have hj2 : ¬ (l.buf ≤ j ∧ j < l.buf + m) := by omega
    simp only [serve_block, hm, memcpy, hj2, if_false]
    exact h4 j hj
  · simp [serve_block, hm, h6]
  · simp only [serve_block, hm, out_writes_append, out_writes, h7, List.append_nil]
    have e1 : l.buf = l0.buf + (l.buf - l0.buf) := by omega
    have e2 : l.buf + m - l0.buf = (l.buf - l0.buf) + m := by omega
    rw [e2]
    conv_lhs => rw [e1]
    simp only [Nat.add_sub_cancel_left]
    rw [List.range'_append_1, Nat.add_comm]
  · intro e he
    rcases List.mem_append.mp he with h | h
    · exact h8 e h
    · simp at h
      subst h
      trivial

theorem loopProgress_body (l0 l l1 : BufLoop K) (h : LoopProgress l0 l)
    (hb : _rs_random_buf_body l = some l1) : LoopProgress l0 l1 := by
  rcases body_cases l l1 hb with ⟨_, rfl⟩ | ⟨_, _, _, rfl⟩ | ⟨_, _, _, rfl⟩
  · exact loopProgress_rekey l0 l h
  · exact loopProgress_serve l0 l h
  · exact loopProgress_rekey l0 (serve_block l) (loopProgress_serve l0 l h)

/-- What the loop of `_rs_random_buf` achieves from any entry with `rs_have ≤ RSBUFSZ`. -/
theorem loop_spec (l0 : BufLoop K) (h : l0.s.rs_have ≤ RSBUFSZ) :
    ∃ l2, _rs_random_buf_loop l0 = some l2 ∧ LoopProgress l0 l2 ∧ l2.n = 0 := by
  obtain ⟨l2, h2⟩ := loop_total l0 h
  refine ⟨l2, h2, ?_⟩
  exact loop_inv_rule (LoopProgress l0) (fun l l1 hp _ hb => loopProgress_body l0 l l1 hp hb)
    l0 l2 (loopProgress_refl l0 h) h2

/-- One iteration started with another content `o2` of the caller's buffer does the same
to the state and leaves the same bytes at the offsets it writes. -/
theorem body_out_indep (l l1 : BufLoop K) (o2 : Nat → Nat)
    (hb : _rs_random_buf_body l = some l1) :
    ∃ o3, _rs_random_buf_body { l with out := o2 } = some { l1 with out := o3 } ∧
      ∀ j, l.buf ≤ j → j < l1.buf → o3 j = l1.out j := by
  unfold _rs_random_buf_body at hb ⊢
  by_cases h0 : l.s.rs_have = 0
  · simp [h0] at hb
    subst hb
    refine ⟨o2, by simp [h0], ?_⟩
    intro j h1 h2
    simp at h2
    omega
  · have hpos : 0 < l.s.rs_have := Nat.pos_of_ne_zero h0
    by_cases hle : l.s.rs_have ≤ RSBUFSZ
    · simp only [gt_iff_lt, hpos, hle, if_true, Option.map_some', Option.some.injEq] at hb ⊢
      refine ⟨memcpy o2 l.buf l.s.rs_buf (RSBUFSZ - l.s.rs_have) (min l.n l.s.rs_have), ?_, ?_⟩
      · subst hb
        split_ifs <;> rfl
      · intro j h1 h2
        subst hb
        have h3 : j < l.buf + min l.n l.s.rs_have := by
          split_ifs at h2 <;> exact h2
        have e : ∀ o : Nat → Nat,
            memcpy o l.buf l.s.rs_buf (RSBUFSZ - l.s.rs_have) (min l.n l.s.rs_have) j =
              l.s.rs_buf (RSBUFSZ - l.s.rs_have + (j - l.buf)) := by
          intro o
          simp [memcpy, h1, h3]
        split_ifs <;> simp only [e]
    · simp [hpos, hle] at hb

/-- The bytes the loop leaves at the requested offsets, and the final state, do not depend
on what the caller's buffer held before. -/
theorem loop_out_indep (l : BufLoop K) :
    ∀ (o2 : Nat → Nat) (l2 : BufLoop K), l.s.rs_have ≤ RSBUFSZ →
      _rs_random_buf_loop l = some l2 →
      ∃ l3, _rs_random_buf_loop { l with out := o2 } = some l3 ∧ l3.s = l2.s ∧
        ∀ j, l.buf ≤ j → j < l.buf + l.n → l3.out j = l2.out j := by
  induction l using _rs_random_buf_loop.induct with
  | case1 x hx =>
    intro o2 l2 _ hl
    rw [loop_zero x hx] at hl
    cases hl
    refine ⟨{ x with out := o2 }, loop_zero _ hx, rfl, ?_⟩
    intro j h1 h2
    omega
  | case2 x hx hb =>
    intro o2 l2 _ hl
    rw [loop_none x hx hb] at hl
    cases hl
  | case3 x hx l1 hb ih =>
    intro o2 l2 hle hl
    rw [loop_step x l1 hx hb] at hl
    obtain ⟨o3, hb3, ho3⟩ := body_out_indep x l1 o2 hb
    have hle1 : l1.s.rs_have ≤ RSBUFSZ := body_rs_have_le x l1 hle hb
    obtain ⟨l3, hl3, hs3, hj3⟩ := ih o3 l2 hle1 hl
    refine ⟨l3, ?_, hs3, ?_⟩
    · rw [loop_step { x with out := o2 } { l1 with out := o3 } hx hb3]
      exact hl3
    · intro j h1 h2
      have hp : LoopProgress x l1 := loopProgress_body x x l1 (loopProgress_refl x hle) hb
      obtain ⟨_, hp2, hp3, _⟩ := hp
      by_cases hj : j < l1.buf
      · -- written by this iteration, untouched by the later ones
        obtain ⟨m2, hm2, hq2, _⟩ := loop_spec l1 hle1
        rw [hl] at hm2
        cases hm2
        obtain ⟨m3, hm3, hq3, _⟩ := loop_spec { l1 with out := o3 } hle1
        rw [hl3] at hm3
        cases hm3
        obtain ⟨_, _, _, f2, _⟩ := hq2
        obtain ⟨_, _, _, f3, _⟩ := hq3
        rw [f2 j (Or.inl hj), f3 j (Or.inl hj)]
        exact ho3 j h1 hj
      · exact hj3 j (by omega) (by omega)

/-! ### Number of iterations -/

theorem serve_block_n (l : BufLoop K) : (serve_block l).n = l.n - min l.n l.s.rs_have := by
  simp only [serve_block, size_t_sub_of_le (Nat.min_le_left _ _)]

theorem body_measure (l l1 : BufLoop K) (hn : l.n ≠ 0) (hb : _rs_random_buf_body l = some l1) :
    2 * l1.n + (if l1.s.rs_have = 0 then 1 else 0) <
      2 * l.n + (if l.s.rs_have = 0 then 1 else 0) := by
  rcases body_cases l l1 hb with ⟨h0, rfl⟩ | ⟨hp, _, hlt, rfl⟩ | ⟨hp, _, hge, rfl⟩
  · simp [h0, rekey_rs_have]
  · have hm : min l.n l.s.rs_have = l.n := Nat.min_eq_left (Nat.le_of_lt hlt)
    have h1 : (serve_block l).n = 0 := by rw [serve_block_n, hm]; omega
    have h2 : (serve_block l).s.rs_have ≠ 0 := by
      simp only [serve_block, hm, size_t_sub_of_le (Nat.le_of_lt hlt)]
      omega
    rw [h1, if_neg h2]
    omega
  · have hm : min l.n l.s.rs_have = l.s.rs_have := Nat.min_eq_right hge
    have h1 : (serve_block l).n = l.n - l.s.rs_have := by rw [serve_block_n, hm]
    show 2 * (serve_block l).n + (if (_rs_rekey none 0 (serve_block l).s).rs_have = 0 then 1 else 0) < _
    rw [h1, rekey_rs_have]
    split_ifs <;> omega

theorem iter_mono (k : Nat) :
    ∀ (l l2 : BufLoop K) (k2 : Nat), k ≤ k2 → _rs_random_buf_iter k l = some l2 →
      _rs_random_buf_iter k2 l = some l2 := by
  induction k with
  | zero =>
    intro l l2 k2 _ h
    by_cases hn : l.n = 0
    · simp only [_rs_random_buf_iter, hn, if_true] at h
      cases k2 <;> simp [_rs_random_buf_iter, hn, h]
    · simp [_rs_random_buf_iter, hn] at h
  | succ k ih =>
    intro l l2 k2 hk h
    obtain ⟨k3, rfl⟩ : ∃ k3, k2 = k3 + 1 := ⟨k2 - 1, by omega⟩
    by_cases hn : l.n = 0
    · simp only [_rs_random_buf_iter, hn, if_true] at h ⊢
      exact h
    · simp only [_rs_random_buf_iter, hn, if_false] at h ⊢
      cases hb : _rs_random_buf_body l with
      | none => simp [hb] at h
      | some l1 =>
        simp only [hb, Option.some_bind] at h ⊢
        exact ih l1 l2 k3 (by omega) h

/-- The loop exits within `2 n + 1` iterations, with the result of the loop. -/
theorem loop_iterations (l : BufLoop K) (h : l.s.rs_have ≤ RSBUFSZ) :
    ∃ l2, _rs_random_buf_iter (2 * l.n + 1) l = some l2 ∧ _rs_random_buf_loop l = some l2 := by
  have key : ∀ l : BufLoop K, l.s.rs_have ≤ RSBUFSZ →
      ∃ l2, _rs_random_buf_iter (2 * l.n + (if l.s.rs_have = 0 then 1 else 0)) l = some l2 ∧
        _rs_random_buf_loop l = some l2 := by
    intro l
    induction l using _rs_random_buf_loop.induct with
    | case1 x hx =>
      intro _
      refine ⟨x, ?_, loop_zero x hx⟩
      cases hk : 2 * x.n + (if x.s.rs_have = 0 then 1 else 0) <;>
        simp [_rs_random_buf_iter, hx]
    | case2 x _ hb =>
      intro hle
      obtain ⟨l1, h1⟩ := body_some x hle
      rw [hb] at h1
      cases h1
    | case3 x hx l1 hb ih =>
      intro hle
      obtain ⟨l2, hi, hl⟩ := ih (body_rs_have_le x l1 hle hb)
      refine ⟨l2, ?_, by rw [loop_step x l1 hx hb]; exact hl⟩
      have hm := body_measure x l1 hx hb
      obtain ⟨k, hk⟩ : ∃ k, 2 * x.n + (if x.s.rs_have = 0 then 1 else 0) = k + 1 :=
        ⟨2 * x.n + (if x.s.rs_have = 0 then 1 else 0) - 1, by omega⟩
      rw [hk]
      simp only [_rs_random_buf_iter, hx, if_false, hb, Option.some_bind]
      exact iter_mono _ l1 l2 k (by omega) hi
  obtain ⟨l2, hi, hl⟩ := key l h
  refine ⟨l2, iter_mono _ l l2 _ ?_ hi, hl⟩
  split_ifs <;> omega

/-! ### `arc4rand` -/

theorem stir_if_needed_rs_have_le (i : StirInput) (len : Nat) (s : State K)
    (h : s.rs_have ≤ RSBUFSZ) : (_rs_stir_if_needed i len s).rs_have ≤ RSBUFSZ := by
  unfold _rs_stir_if_needed
  split_ifs
  · exact h
  · simp [stir_rs_have]
  · exact h

theorem head_rs_have_le (ts : timespec) (i1 : StirInput) (reseed : Int) (s : State K)
    (h : s.rs_have ≤ RSBUFSZ) : (arc4rand_head ts i1 reseed s).rs_have ≤ RSBUFSZ := by
  unfold arc4rand_head
  by_cases hH : s.arc4rand_iniseed_state = arc4_entr.ARC4_ENTR_HAVE <;>
    by_cases ht : arc4rand_trigger ts reseed s <;> simp [hH, ht, stir_rs_have, h]

/-- Events that `_rs_stir_if_needed` appends to the log from state `s`. -/
theorem stir_if_needed_trace (i : StirInput) (len : Nat) (s : State K) :
    (_rs_stir_if_needed i len s).trace =
      s.trace ++ (if s.rs_initialized = true ∧ s.rs_count ≤ len then stir_events false else []) := by
  unfold _rs_stir_if_needed
  by_cases h1 : s.rs_initialized = false
  · simp [h1, _rs_init]
  · have h1t : s.rs_initialized = true := by simpa using h1
    by_cases h2 : s.rs_count ≤ len
    · simp [h1t, h2, stir_trace]
    · simp [h1t, h2]

/-- Events that the head of `arc4rand` appends to the log. -/
theorem head_trace (ts : timespec) (i1 : StirInput) (reseed : Int) (s : State K) :
    (arc4rand_head ts i1 reseed s).trace =
      s.trace ++ Event.nanotime ::
        (if arc4rand_trigger ts reseed s then stir_events false else []) := by
  unfold arc4rand_head
  by_cases hH : s.arc4rand_iniseed_state = arc4_entr.ARC4_ENTR_HAVE <;>
    by_cases ht : arc4rand_trigger ts reseed s <;> simp [hH, ht, stir_trace]

theorem out_writes_stir_events (lock : Bool) : out_writes (stir_events lock) = [] := by
  cases lock <;> rfl

/-- The loop variables on entry to the loop inside `arc4rand`. -/
theorem arc4rand_spec (ts : timespec) (i1 i2 : StirInput) (ptr : Nat → Nat) (len : Nat)
    (reseed : Int) (s : State K) (h : s.rs_have ≤ RSBUFSZ) :
    ∃ l2 : BufLoop K,
      _rs_random_buf_loop
        { s := _rs_stir_if_needed i2 len (arc4rand_locked ts i1 len reseed s),
          out := ptr, buf := 0, n := len } = some l2 ∧
      LoopProgress
        { s := _rs_stir_if_needed i2 len (arc4rand_locked ts i1 len reseed s),
          out := ptr, buf := 0, n := len } l2 ∧
      l2.n = 0 ∧
      arc4rand ts i1 i2 ptr len reseed s =
        some ({ l2.s with trace := l2.s.trace ++ [Event.mtx_unlock] }, l2.out) := by
  have h3 : (_rs_stir_if_needed i2 len (arc4rand_locked ts i1 len reseed s)).rs_have ≤ RSBUFSZ :=
    stir_if_needed_rs_have_le _ _ _ (head_rs_have_le ts i1 reseed s h)
  obtain ⟨l2, hl, hp, hn⟩ :=
    loop_spec
      { s := _rs_stir_if_needed i2 len (arc4rand_locked ts i1 len reseed s),
        out := ptr, buf := 0, n := len } h3
  refine ⟨l2, hl, hp, hn, ?_⟩
  simp [arc4rand, _rs_random_buf, hl]

theorem locked_trace (ts : timespec) (i1 : StirInput) (len : Nat) (reseed : Int) (s : State K) :
    (arc4rand_locked ts i1 len reseed s).trace =
      s.trace ++ Event.nanotime ::
        ((if arc4rand_trigger ts reseed s then stir_events false else []) ++ [Event.mtx_lock]) := by
  simp [arc4rand_locked, head_trace]

/-- C2. For every length `len`, every state with `rs_have ≤ RSBUFSZ`, every reseed flag and
every result of the entropy source and the clock, `arc4rand(ptr, len, reseed)` ends with a
result: no access is undefined, and the loop of `_rs_random_buf` exits within `2 len + 1`
iterations. The offsets of the caller's buffer it writes are `0, ..., len-1`, each once;
every other offset keeps its content; and the bytes left at the offsets below `len`, like
the final state, do not depend on what the buffer held before. -/
theorem arc4rand_writes_exactly_len (ts : timespec) (i1 i2 : StirInput) (ptr : Nat → Nat)
    (len : Nat) (reseed : Int) (s : State K) (h : s.rs_have ≤ RSBUFSZ) :
    ∃ (s1 : State K) (out : Nat → Nat),
      arc4rand ts i1 i2 ptr len reseed s = some (s1, out) ∧
      (∃ k, k ≤ 2 * len + 1 ∧
        (_rs_random_buf_iter k
          { s := _rs_stir_if_needed i2 len (arc4rand_locked ts i1 len reseed s),
            out := ptr, buf := 0, n := len }).isSome = true) ∧
      (∀ j, len ≤ j → out j = ptr j) ∧
      (∃ evs, s1.trace = s.trace ++ evs ∧ out_writes evs = List.range len) ∧
      ∀ ptr2 : Nat → Nat, ∃ out2,
        arc4rand ts i1 i2 ptr2 len reseed s = some (s1, out2) ∧
        ∀ j, j < len → out2 j = out j := by
  obtain ⟨l2, hl, hp, hn, hr⟩ := arc4rand_spec ts i1 i2 ptr len reseed s h
  obtain ⟨_, hbuf, _, hframe, _, evs, htr, hw, _⟩ := hp
  refine ⟨_, _, hr, ?_, ?_, ?_, ?_⟩
  · obtain ⟨l3, hi, _⟩ := loop_iterations
      ({ s := _rs_stir_if_needed i2 len (arc4rand_locked ts i1 len reseed s),
         out := ptr, buf := 0, n := len } : BufLoop K)
      (stir_if_needed_rs_have_le _ _ _ (head_rs_have_le ts i1 reseed s h))
    exact ⟨2 * len + 1, Nat.le_refl _, by rw [hi]; rfl⟩
  · intro j hj
    exact hframe j (Or.inr (by simpa using hj))
  · refine ⟨[Event.nanotime] ++
        (if arc4rand_trigger ts reseed s then stir_events false else []) ++ [Event.mtx_lock] ++
        (if (arc4rand_locked ts i1 len reseed s).rs_initialized = true ∧
            (arc4rand_locked ts i1 len reseed s).rs_count ≤ len then stir_events false else []) ++
        evs ++ [Event.mtx_unlock], ?_, ?_⟩
    · simp only [htr, stir_if_needed_trace, locked_trace]
      simp [List.append_assoc]
    · have hb : l2.buf = len := by
        simp only [hn, Nat.add_zero, Nat.zero_add] at hbuf
        exact hbuf
      have e : ∀ c : Prop, ∀ [Decidable c], out_writes (if c then stir_events false else []) = [] := by
        intro c _
        split_ifs
        · exact out_writes_stir_events false
        · rfl
      have e1 : out_writes [Event.nanotime] = [] := rfl
      have e2 : out_writes [Event.mtx_lock] = [] := rfl
      have e3 : out_writes [Event.mtx_unlock] = [] := rfl
      simp only [out_writes_append, e, e1, e2, e3, hw, hb, List.nil_append, List.append_nil,
        Nat.sub_zero]
      exact (List.range_eq_range' len).symm
  · intro ptr2
    have h3 : (_rs_stir_if_needed i2 len (arc4rand_locked ts i1 len reseed s)).rs_have ≤ RSBUFSZ :=
      stir_if_needed_rs_have_le _ _ _ (head_rs_have_le ts i1 reseed s h)
    obtain ⟨l3, hl3, hs3, hj3⟩ := loop_out_indep _ ptr2 l2 h3 hl
    refine ⟨l3.out, ?_, ?_⟩
    · simp [arc4rand, _rs_random_buf, hl3, hs3]
    · intro j hj
      exact hj3 j (Nat.zero_le _) (by simpa using hj)

/-- Witness for C2: a request of three bytes on the load-time state. -/
theorem arc4rand_writes_exactly_len_witness :
    (State.initial toyKS).rs_have ≤ RSBUFSZ ∧
    ∃ (s1 : State toyKS) (out : Nat → Nat),
      arc4rand ts1000 stir32 stir32 (fun _ => 7) 3 0 (State.initial toyKS) = some (s1, out) ∧
      (∃ k, k ≤ 2 * 3 + 1 ∧
        (_rs_random_buf_iter k
          { s := _rs_stir_if_needed stir32 3
              (arc4rand_locked ts1000 stir32 3 0 (State.initial toyKS)),
            out := fun _ => 7, buf := 0, n := 3 }).isSome = true) ∧
      (∀ j, 3 ≤ j → out j = (fun _ => 7) j) ∧
      (∃ evs, s1.trace = (State.initial toyKS).trace ++ evs ∧ out_writes evs = List.range 3) ∧
      ∀ ptr2 : Nat → Nat, ∃ out2,
        arc4rand ts1000 stir32 stir32 ptr2 3 0 (State.initial toyKS) = some (s1, out2) ∧
        ∀ j, j < 3 → out2 j = out j :=
  ⟨by decide,
    arc4rand_writes_exactly_len ts1000 stir32 stir32 (fun _ => 7) 3 0 (State.initial toyKS)
      (by decide)⟩

/-! ### The invariant of the cache -/

theorem served_snoc (t : List Event) (e : Event) :
    served_since_rekey (t ++ [e]) =
      match e with
      | Event.rs_rekey => []
      | Event.copy_out src _ m => served_since_rekey t ++ List.range' src m
      | _ => served_since_rekey t := by
  simp only [served_since_rekey, List.foldl_append, List.foldl_cons, List.foldl_nil]

theorem served_stir_events (t : List Event) (lock : Bool) :
    served_since_rekey (t ++ stir_events lock) = [] := by
  cases lock
  · have e : t ++ stir_events false =
        (t ++ [Event.rs_stir, Event.read_random, Event.nanotime]) ++ [Event.rs_rekey] := by
      simp [stir_events]
    rw [e, served_snoc]
  · have e : t ++ stir_events true =
        ((t ++ [Event.rs_stir, Event.read_random, Event.nanotime, Event.mtx_lock]) ++
          [Event.rs_rekey]) ++ [Event.mtx_unlock] := by
      simp [stir_events]
    rw [e, served_snoc]
    simp only []
    rw [served_snoc]

theorem copy_mem_stir_events (lock : Bool) (src dst m : Nat) :
    ¬ Event.copy_out src dst m ∈ stir_events lock := by
  cases lock <;> simp [stir_events]

theorem ginv_rekey (d : Option (Nat → Nat)) (n : Nat) (s : State K) (h : GInv s) :
    GInv (_rs_rekey d n s) := by
  obtain ⟨_, _, h3⟩ := h
  refine ⟨⟨by simp [rekey_rs_have, RSBUFSZ_eq, KEYSZ_eq, IVSZ_eq], ?_⟩, ?_, ?_⟩
  · intro i hi
    rw [rekey_rs_have, RSBUFSZ_eq] at hi
    exact rekey_buf_low d n s i (by omega)
  · intro p hp
    rw [rekey_trace, served_snoc] at hp
    simp at hp
  · intro src dst m hm
    rw [rekey_trace] at hm
    simp at hm
    exact h3 src dst m hm

theorem ginv_stir (i : StirInput) (lock : Bool) (s : State K) (h : GInv s) :
    GInv (_rs_stir i lock s) := by
  obtain ⟨_, _, h3⟩ := h
  refine ⟨⟨by simp [stir_rs_have], ?_⟩, ?_, ?_⟩
  · intro j hj
    rw [stir_rs_have, RSBUFSZ_eq] at hj
    exact stir_buf i lock s j (by omega)
  · intro p hp
    rw [stir_trace, served_stir_events] at hp
    simp at hp
  · intro src dst m hm
    rw [stir_trace] at hm
    rcases List.mem_append.mp hm with h | h
    · exact h3 src dst m h
    · exact absurd h (copy_mem_stir_events lock src dst m)

theorem ginv_stir_if_needed (i : StirInput) (len : Nat) (s : State K) (h : GInv s) :
    GInv (_rs_stir_if_needed i len s) := by
  unfold _rs_stir_if_needed
  split_ifs
  · exact h
  · exact ginv_stir i false s h
  · exact h

/-- Appending an event that is neither a refill nor a copy keeps the invariant. -/
theorem ginv_log (s : State K) (e : Event) (h : GInv s) (h1 : e ≠ Event.rs_rekey)
    (h2 : ∀ a b c, e ≠ Event.copy_out a b c) :
    GInv { s with trace := s.trace ++ [e] } := by
  obtain ⟨g1, g2, g3⟩ := h
  refine ⟨g1, ?_, ?_⟩
  · intro p hp
    simp only [served_snoc] at hp
    cases e with
    | rs_rekey => exact absurd rfl h1
    | copy_out a b c => exact absurd rfl (h2 a b c)
    | read_random => exact g2 p hp
    | nanotime => exact g2 p hp
    | mtx_lock => exact g2 p hp
    | mtx_unlock => exact g2 p hp
    | rs_stir => exact g2 p hp
  · intro src dst m hm
    simp only [List.mem_append, List.mem_singleton] at hm
    rcases hm with h | h
    · exact g3 src dst m h
    · exact absurd h.symm (h2 src dst m)

theorem ginv_serve (l : BufLoop K) (h : GInv l.s) (hpos : 0 < l.s.rs_have) :
    GInv (serve_block l).s := by
  obtain ⟨⟨c1, c2⟩, g2, g3⟩ := h
  have hm2 : min l.n l.s.rs_have ≤ l.s.rs_have := Nat.min_le_right _ _
  generalize hm : min l.n l.s.rs_have = m at hm2
  simp only [RSBUFSZ_eq, KEYSZ_eq, IVSZ_eq] at c1 c2 g2 g3
  have hh : (serve_block l).s.rs_have = l.s.rs_have - m := by
    simp only [serve_block, hm, size_t_sub_of_le hm2]
  refine ⟨⟨?_, ?_⟩, ?_, ?_⟩
  · rw [hh]
    simp only [RSBUFSZ_eq, KEYSZ_eq, IVSZ_eq]
    omega
  · intro i hi
    rw [hh, RSBUFSZ_eq] at hi
    simp only [serve_block, hm, memset, RSBUFSZ_eq]
    split_ifs with hc
    · rfl
    · exact c2 i (by omega)
  · intro p hp
    rw [hh, RSBUFSZ_eq]
    simp only [serve_block, hm, served_snoc, List.mem_append, List.mem_range'_1, RSBUFSZ_eq] at hp
    rcases hp with h | h
    · have := g2 p h
      omega
    · omega
  · intro src dst k hk
    simp only [serve_block, hm, List.mem_append, List.mem_singleton, Event.copy_out.injEq,
      RSBUFSZ_eq] at hk
    simp only [RSBUFSZ_eq, KEYSZ_eq, IVSZ_eq]
    rcases hk with h | ⟨rfl, _, rfl⟩
    · exact g3 src dst k h
    · omega

theorem ginv_body (l l1 : BufLoop K) (h : GInv l.s) (hb : _rs_random_buf_body l = some l1) :
    GInv l1.s := by
  rcases body_cases l l1 hb with ⟨_, rfl⟩ | ⟨hp, _, _, rfl⟩ | ⟨hp, _, _, rfl⟩
  · exact ginv_rekey none 0 l.s h
  · exact ginv_serve l h hp
  · exact ginv_rekey none 0 _ (ginv_serve l h hp)

theorem ginv_signal (e : arc4_entr) (s : State K) (h : GInv s) :
    GInv { s with arc4rand_iniseed_state := e } := h

theorem ginv_head (ts : timespec) (i1 : StirInput) (reseed : Int) (s : State K) (h : GInv s) :
    GInv (arc4rand_head ts i1 reseed s) := by
  have h0 : GInv { s with trace := s.trace ++ [Event.nanotime] } :=
    ginv_log s Event.nanotime h (by simp) (by simp)
  have h1 := fun e => ginv_signal e _ h0
  unfold arc4rand_head
  by_cases hH : s.arc4rand_iniseed_state = arc4_entr.ARC4_ENTR_HAVE <;>
    by_cases ht : arc4rand_trigger ts reseed s
  · simp only [hH, ht, if_true]
    exact ginv_stir i1 false _ (h1 _)
  · simp only [hH, ht, if_true, if_false]
    exact h1 _
  · simp only [hH, ht, if_true, if_false]
    exact ginv_stir i1 false _ h0
  · simp only [hH, ht, if_false]
    exact h0

theorem ginv_locked (ts : timespec) (i1 : StirInput) (len : Nat) (reseed : Int) (s : State K)
    (h : GInv s) : GInv (arc4rand_locked ts i1 len reseed s) := by
  have h2 := ginv_log _ Event.mtx_lock (ginv_head ts i1 reseed s h) (by simp) (by simp)
  exact h2

theorem ginv_rs_have_le (s : State K) (h : GInv s) : s.rs_have ≤ RSBUFSZ := by
  have := h.1.1
  simp only [RSBUFSZ_eq, KEYSZ_eq, IVSZ_eq] at this ⊢
  omega

theorem ginv_arc4rand (ts : timespec) (i1 i2 : StirInput) (ptr : Nat → Nat) (len : Nat)
    (reseed : Int) (s s1 : State K) (out : Nat → Nat) (h : GInv s)
    (hr : arc4rand ts i1 i2 ptr len reseed s = some (s1, out)) : GInv s1 := by
  obtain ⟨l2, hl, _, _, hr2⟩ := arc4rand_spec ts i1 i2 ptr len reseed s (ginv_rs_have_le s h)
  rw [hr2] at hr
  cases hr
  have hg : GInv l2.s :=
    (loop_inv_rule (fun l => GInv l.s) (fun l l1 hp _ hb => ginv_body l l1 hp hb) _ l2
      (ginv_stir_if_needed i2 len _ (ginv_locked ts i1 len reseed s h)) hl).1
  exact ginv_log l2.s Event.mtx_unlock hg (by simp) (by simp)

theorem ginv_u32_ready (i : StirInput) (s : State K) (h : GInv s) :
    GInv (u32_ready i s) ∧ 4 ≤ (u32_ready i s).rs_have ∧ (u32_ready i s).rs_have ≤ RSBUFSZ := by
  have h1 := ginv_stir_if_needed i 4 s h
  unfold u32_ready
  by_cases hlt : (_rs_stir_if_needed i 4 s).rs_have < 4
  · simp only [hlt, if_true]
    exact ⟨ginv_rekey none 0 _ h1, by simp [rekey_rs_have], by simp [rekey_rs_have, RSBUFSZ_eq]⟩
  · simp only [hlt, if_false]
    exact ⟨h1, by omega, ginv_rs_have_le _ h1⟩

/-- On a state satisfying the invariant `_rs_random_u32` has a result: the four bytes at
the head of the unconsumed tail, which it zeroes. -/
theorem u32_spec (i : StirInput) (s : State K) (h : GInv s) :
    _rs_random_u32 i s =
      some ((serve_block { s := u32_ready i s, out := fun _ => 0, buf := 0, n := 4 }).s,
        bytes (u32_ready i s).rs_buf (RSBUFSZ - (u32_ready i s).rs_have) 4) := by
  obtain ⟨_, h4, hle⟩ := ginv_u32_ready i s h
  have hm : min 4 (u32_ready i s).rs_have = 4 := Nat.min_eq_left h4
  simp [_rs_random_u32, h4, hle, serve_block, hm]

theorem ginv_u32 (i : StirInput) (s s1 : State K) (val : List Nat) (h : GInv s)
    (hr : _rs_random_u32 i s = some (s1, val)) : GInv s1 := by
  rw [u32_spec i s h] at hr
  cases hr
  obtain ⟨hg, h4, _⟩ := ginv_u32_ready i s h
  exact ginv_serve { s := u32_ready i s, out := fun _ => 0, buf := 0, n := 4 } hg (by simp; omega)

theorem ginv_arc4random (i : StirInput) (s s1 : State K) (val : List Nat) (h : GInv s)
    (hr : arc4random i s = some (s1, val)) : GInv s1 := by
  have hl := ginv_log s Event.mtx_lock h (by simp) (by simp)
  unfold arc4random at hr
  rw [u32_spec i _ hl] at hr
  simp only [Option.map_some', Option.some.injEq, Prod.mk.injEq] at hr
  obtain ⟨rfl, _⟩ := hr
  have hg := ginv_u32 i _ _ _ hl (u32_spec i _ hl)
  exact ginv_log _ Event.mtx_unlock hg (by simp) (by simp)

theorem ginv_arc4_init (i : StirInput) (s : State K) (h : GInv s) : GInv (arc4_init i s) :=
  ginv_stir i true s h

theorem ginv_initial : GInv (State.initial K) := by
  refine ⟨⟨by simp [State.initial], fun _ _ => rfl⟩, ?_, ?_⟩
  · intro p hp
    simp [State.initial, served_since_rekey] at hp
  · intro src dst m hm
    simp [State.initial] at hm

/-- Every reachable state satisfies the invariant. -/
theorem reachable_ginv (s : State K) (h : Reachable s) : GInv s := by
  induction h with
  | initial => exact ginv_initial
  | arc4_init i s _ ih => exact ginv_arc4_init i s ih
  | rs_stir i lock s _ ih => exact ginv_stir i lock s ih
  | arc4rand ts i1 i2 ptr len reseed s s1 out _ hr ih =>
    exact ginv_arc4rand ts i1 i2 ptr len reseed s s1 out ih hr
  | arc4random i s s1 val _ hr ih => exact ginv_arc4random i s s1 val ih hr
  | host_signal e s _ ih => exact ginv_signal e s ih

/-! ### Short runs of the loop -/

theorem body_refill (l : BufLoop K) (h : l.s.rs_have = 0) :
    _rs_random_buf_body l = some { l with s := _rs_rekey none 0 l.s } := by
  simp [_rs_random_buf_body, h]

theorem body_short (l : BufLoop K) (hle : l.s.rs_have ≤ RSBUFSZ) (hn : l.n < l.s.rs_have) :
    _rs_random_buf_body l = some (serve_block l) := by
  obtain ⟨l1, h1⟩ := body_some l hle
  rcases body_cases l l1 h1 with ⟨h0, _⟩ | ⟨_, _, _, rfl⟩ | ⟨_, _, h2, _⟩
  · omega
  · exact h1
  · omega

theorem body_drain (l : BufLoop K) (hpos : 0 < l.s.rs_have) (hle : l.s.rs_have ≤ RSBUFSZ)
    (hn : l.s.rs_have ≤ l.n) :
    _rs_random_buf_body l =
      some { serve_block l with s := _rs_rekey none 0 (serve_block l).s } := by
  obtain ⟨l1, h1⟩ := body_some l hle
  rcases body_cases l l1 h1 with ⟨h0, _⟩ | ⟨_, _, h2, _⟩ | ⟨_, _, _, rfl⟩
  · omega
  · omega
  · exact h1

/-- A request that the cache can satisfy with bytes to spare is one copy. -/
theorem loop_short (l : BufLoop K) (hle : l.s.rs_have ≤ RSBUFSZ) (h0 : l.n ≠ 0)
    (hn : l.n < l.s.rs_have) : _rs_random_buf_loop l = some (serve_block l) := by
  rw [loop_step l _ h0 (body_short l hle hn)]
  apply loop_zero
  rw [serve_block_n, Nat.min_eq_left (Nat.le_of_lt hn)]
  omega

/-- A request for exactly the bytes the cache holds is one copy followed by a refill. -/
theorem loop_exact (l : BufLoop K) (hle : l.s.rs_have ≤ RSBUFSZ) (h0 : l.n ≠ 0)
    (hn : l.n = l.s.rs_have) :
    _rs_random_buf_loop l =
      some { serve_block l with s := _rs_rekey none 0 (serve_block l).s } := by
  rw [loop_step l _ h0 (body_drain l (by omega) hle (by omega))]
  apply loop_zero
  show (serve_block l).n = 0
  rw [serve_block_n, hn]
  simp

/-- On an empty cache the loop first refills. -/
theorem loop_refill (l : BufLoop K) (h : l.s.rs_have = 0) (h0 : l.n ≠ 0) :
    _rs_random_buf_loop l = _rs_random_buf_loop { l with s := _rs_rekey none 0 l.s } :=
  loop_step l _ h0 (body_refill l h)

/-! ### Claims on the cache -/

/-- C4. In every state reached from the load-time state by calls of `arc4_init`,
`arc4rand`, `arc4random` and `_rs_stir`, `rs_have ≤ RSBUFSZ`, indeed
`rs_have ≤ RSBUFSZ - KEYSZ - IVSZ = 984`; every copy made so far read `m` bytes at a cache
index `src = RSBUFSZ - rs_have` with `src + m ≤ RSBUFSZ`, so inside `rs_buf`, and the `m`
then subtracted from `rs_have = RSBUFSZ - src` did not exceed it; and the next call of
`arc4rand` or `arc4random` has a result (no access outside `rs_buf`) with `rs_have ≤ 984`
again. -/
theorem rs_have_le_rsbufsz (s : State K) (h : Reachable s) :
    s.rs_have ≤ RSBUFSZ ∧ s.rs_have ≤ RSBUFSZ - KEYSZ - IVSZ ∧ s.rs_have ≤ 984 ∧
    (∀ src dst m, Event.copy_out src dst m ∈ s.trace →
      src + m ≤ RSBUFSZ ∧ m ≤ RSBUFSZ - src) ∧
    (∀ ts i1 i2 ptr len reseed, ∃ s1 out,
      arc4rand ts i1 i2 ptr len reseed s = some (s1, out) ∧ s1.rs_have ≤ 984) ∧
    ∀ i, ∃ s1 val, arc4random i s = some (s1, val) ∧ s1.rs_have ≤ 984 := by
  have hg := reachable_ginv s h
  have h984 : ∀ t : State K, GInv t → t.rs_have ≤ 984 := fun t ht => ht.1.1
  refine ⟨ginv_rs_have_le s hg, hg.1.1, h984 s hg, ?_, ?_, ?_⟩
  · intro src dst m hm
    have := (hg.2.2 src dst m hm).2
    exact ⟨this, by omega⟩
  · intro ts i1 i2 ptr len reseed
    obtain ⟨l2, _, _, _, hr⟩ := arc4rand_spec ts i1 i2 ptr len reseed s (ginv_rs_have_le s hg)
    exact ⟨_, _, hr, h984 _ (ginv_arc4rand ts i1 i2 ptr len reseed s _ _ hg hr)⟩
  · intro i
    have hl := ginv_log s Event.mtx_lock hg (by simp) (by simp)
    have hr : ∃ s1 val, arc4random i s = some (s1, val) := by
      unfold arc4random
      rw [u32_spec i _ hl]
      exact ⟨_, _, rfl⟩
    obtain ⟨s1, val, hr⟩ := hr
    exact ⟨s1, val, hr, h984 _ (ginv_arc4random i s s1 val hg hr)⟩

/-- Witness for C4: the state after `arc4_init` on the load-time state. -/
theorem rs_have_le_rsbufsz_witness :
    Reachable (arc4_init stir32 (State.initial toyKS)) ∧
    (arc4_init stir32 (State.initial toyKS)).rs_have ≤ RSBUFSZ :=
  ⟨Reachable.arc4_init _ _ Reachable.initial,
    (rs_have_le_rsbufsz _ (Reachable.arc4_init stir32 _ Reachable.initial)).1⟩

/-- C3, as amended. In every reachable state each cache byte below the unconsumed tail is
zero, `rs_buf[i] = 0` for `i < RSBUFSZ - rs_have`; in particular every cache position
copied out to a caller since the cache was last refilled by `_rs_rekey` holds zero. -/
theorem cache_zero_below_tail (s : State K) (h : Reachable s) :
    (∀ i, i < RSBUFSZ - s.rs_have → s.rs_buf i = 0) ∧
    ∀ p, p ∈ served_since_rekey s.trace → s.rs_buf p = 0 := by
  have hg := reachable_ginv s h
  exact ⟨hg.1.2, fun p hp => hg.1.2 p (hg.2.1 p hp)⟩

/-- Witness for C3: the state after `arc4_init` on the load-time state. -/
theorem cache_zero_below_tail_witness :
    Reachable (arc4_init stir32 (State.initial toyKS)) ∧
    ∀ i, i < RSBUFSZ - (arc4_init stir32 (State.initial toyKS)).rs_have →
      (arc4_init stir32 (State.initial toyKS)).rs_buf i = 0 :=
  ⟨Reachable.arc4_init _ _ Reachable.initial,
    (cache_zero_below_tail _ (Reachable.arc4_init stir32 _ Reachable.initial)).1⟩

/-! ### The first call after seeding -/

theorem bytes_zero (m : Nat → Nat) (off len : Nat)
    (h : ∀ i, off ≤ i → i < off + len → m i = 0) : bytes m off len = List.replicate len 0 := by
  apply List.eq_replicate_iff.mpr
  refine ⟨by simp [bytes], ?_⟩
  intro b hb
  simp only [bytes, List.mem_map, List.mem_range] at hb
  obtain ⟨a, ha, rfl⟩ := hb
  exact h (off + a) (by omega) (by omega)

theorem fresh_initial : Fresh (State.initial K) :=
  ⟨rfl, rfl, fun _ _ => rfl⟩

theorem fresh_stir (i : StirInput) (lock : Bool) (s : State K) (h : Fresh s) :
    Fresh (_rs_stir i lock s) :=
  ⟨by rw [(stir_frame i lock s).2]; exact h.1, stir_rs_have i lock s,
    fun j hj => stir_buf i lock s j hj⟩

theorem fresh_arc4_init (i : StirInput) (s : State K) (h : Fresh s) : Fresh (arc4_init i s) :=
  fresh_stir i true s h

theorem fresh_locked (ts : timespec) (i1 : StirInput) (len : Nat) (reseed : Int) (s : State K)
    (h : Fresh s) : Fresh (arc4rand_locked ts i1 len reseed s) := by
  have h0 : Fresh ({ s with trace := s.trace ++ [Event.nanotime] } : State K) := h
  have h1 : Fresh ({ s with trace := s.trace ++ [Event.nanotime],
                            arc4rand_iniseed_state := arc4_entr.ARC4_ENTR_SEED } : State K) := h
  have h2 : Fresh (arc4rand_head ts i1 reseed s) := by
    unfold arc4rand_head
    by_cases hH : s.arc4rand_iniseed_state = arc4_entr.ARC4_ENTR_HAVE <;>
      by_cases ht : arc4rand_trigger ts reseed s
    · simp only [hH, ht, if_true]
      exact fresh_stir i1 false _ h1
    · simp only [hH, ht, if_true, if_false]
      exact h1
    · simp only [hH, ht, if_true, if_false]
      exact fresh_stir i1 false _ h0
    · simp only [hH, ht, if_false]
      exact h0
  exact h2

/-- On a fresh generator `_rs_stir_if_needed` takes its first branch: it loads the
all-zero key and nonce and touches nothing else but `rs_count` and `rs_initialized`. -/
theorem stir_if_needed_fresh (i : StirInput) (len : Nat) (s : State K) (h : Fresh s) :
    _rs_stir_if_needed i len s =
      { s with rs := zero_key_ctx K, rs_count := 1024 * 1024 * 1024, rs_initialized := true } := by
  obtain ⟨h1, _, h3⟩ := h
  have e1 : bytes s.rs_buf 0 KEYSZ = List.replicate KEYSZ 0 :=
    bytes_zero _ _ _ (fun j _ hj => h3 j (by simp only [KEYSZ_eq, RSBUFSZ_eq] at hj ⊢; omega))
  have e2 : bytes s.rs_buf KEYSZ IVSZ = List.replicate IVSZ 0 :=
    bytes_zero _ _ _ (fun j _ hj => h3 j (by simp only [KEYSZ_eq, IVSZ_eq, RSBUFSZ_eq] at hj ⊢; omega))
  simp only [_rs_stir_if_needed, h1, if_true, _rs_init, e1, e2, zero_key_ctx]

/-- From an empty cache, the first `min n 984` bytes the loop stores are bytes
`40, 41, ...` of the keystream of the context held on entry. -/
theorem loop_first_bytes (l : BufLoop K) (h : l.s.rs_have = 0) :
    ∃ l2, _rs_random_buf_loop l = some l2 ∧
      ∀ j, j < l.n → j < 984 → l2.out (l.buf + j) = K.generate l.s.rs (40 + j) := by
  by_cases h0 : l.n = 0
  · exact ⟨l, loop_zero l h0, fun j hj _ => by omega⟩
  · rw [loop_refill l h h0]
    obtain ⟨l1, hb⟩ := body_some { l with s := _rs_rekey none 0 l.s }
      (by simp [rekey_rs_have, RSBUFSZ_eq])
    rw [loop_step { l with s := _rs_rekey none 0 l.s } l1 h0 hb]
    have hle1 : l1.s.rs_have ≤ RSBUFSZ :=
      body_rs_have_le _ l1 (by simp [rekey_rs_have, RSBUFSZ_eq]) hb
    obtain ⟨l2, hl2, hp, _⟩ := loop_spec l1 hle1
    refine ⟨l2, hl2, ?_⟩
    intro j hj1 hj2
    obtain ⟨_, _, _, hframe, _⟩ := hp
    have hserved : l1.buf = l.buf + min l.n 984 ∧
        l1.out (l.buf + j) = K.generate l.s.rs (40 + j) := by
      have hcopy : (serve_block { l with s := _rs_rekey none 0 l.s }).out (l.buf + j) =
          K.generate l.s.rs (40 + j) := by
        have hj3 : j < min l.n 984 := Nat.lt_min.mpr ⟨hj1, hj2⟩
        simp only [serve_block, memcpy, rekey_rs_have, RSBUFSZ_eq]
        rw [if_pos ⟨by omega, by omega⟩]
        have e : 1024 - 984 + (l.buf + j - l.buf) = 40 + j := by omega
        rw [e]
        exact rekey_buf_high 0 l.s (40 + j) (by omega) (by omega)
      rcases body_cases _ l1 hb with ⟨hz, _⟩ | ⟨_, _, _, rfl⟩ | ⟨_, _, _, rfl⟩
      · simp [rekey_rs_have] at hz
      · exact ⟨by simp [serve_block, rekey_rs_have], hcopy⟩
      · exact ⟨by simp [serve_block, rekey_rs_have], hcopy⟩
    rw [hframe (l.buf + j) (Or.inl (by rw [hserved.1]; have := Nat.lt_min.mpr ⟨hj1, hj2⟩; omega))]
    exact hserved.2

/-- The first call of `arc4rand` on a fresh generator: the context loaded before the first
byte is served is the one of the all-zero key and nonce, and the first 984 bytes returned
are bytes `40, 41, ...` of its keystream, whatever the entropy source and the clock gave. -/
theorem first_arc4rand_zero_key (ts : timespec) (i1 i2 : StirInput) (ptr : Nat → Nat)
    (len : Nat) (reseed : Int) (s : State K) (h : Fresh s) :
    (_rs_stir_if_needed i2 len (arc4rand_locked ts i1 len reseed s)).rs = zero_key_ctx K ∧
    ∃ s1 out, arc4rand ts i1 i2 ptr len reseed s = some (s1, out) ∧
      ∀ j, j < len → j < 984 → out j = K.generate (zero_key_ctx K) (40 + j) := by
  have hf := fresh_locked ts i1 len reseed s h
  have hs := stir_if_needed_fresh i2 len _ hf
  refine ⟨by rw [hs], ?_⟩
  obtain ⟨l2, hl2, hout⟩ := loop_first_bytes
    ({ s := _rs_stir_if_needed i2 len (arc4rand_locked ts i1 len reseed s),
       out := ptr, buf := 0, n := len } : BufLoop K) (by rw [hs]; exact hf.2.1)
  refine ⟨{ l2.s with trace := l2.s.trace ++ [Event.mtx_unlock] }, l2.out, ?_, ?_⟩
  · simp [arc4rand, _rs_random_buf, hl2]
  · intro j hj1 hj2
    have := hout j hj1 hj2
    simp only [Nat.zero_add] at this
    rw [this, hs]

/-- A first request of exactly 984 bytes on a fresh generator copies cache positions
`40 .. 1023` out, drains the cache, and refills it before returning: position 40 is then
byte 40 of the keystream of the context loaded by the first refill. -/
theorem arc4rand_fresh_984 (ts : timespec) (i1 i2 : StirInput) (ptr : Nat → Nat) (reseed : Int)
    (s : State K) (h : Fresh s) :
    ∃ (s1 : State K) (out : Nat → Nat),
      arc4rand ts i1 i2 ptr 984 reseed s = some (s1, out) ∧
      (∃ t, s1.trace = t ++ [Event.copy_out 40 0 984, Event.rs_rekey, Event.mtx_unlock]) ∧
      s1.rs_buf 40 =
        K.generate
          (K.init (bytes (K.generate (zero_key_ctx K)) 0 32)
            (bytes (K.generate (zero_key_ctx K)) 32 8)) 40 := by
  have hf := fresh_locked ts i1 984 reseed s h
  have hs := stir_if_needed_fresh i2 984 _ hf
  obtain ⟨_, hh, _⟩ := hf
  unfold arc4rand _rs_random_buf
  generalize arc4rand_locked ts i1 984 reseed s = sL at hs hh
  rw [hs, loop_refill _ hh (by simp),
    loop_exact _ (by simp [rekey_rs_have, RSBUFSZ_eq]) (by simp) (by simp [rekey_rs_have])]
  refine ⟨_, _, rfl, ?_, ?_⟩
  · refine ⟨sL.trace ++ [Event.rs_rekey], ?_⟩
    simp [rekey_trace, serve_block, rekey_rs_have, RSBUFSZ_eq]
  · simp only [Option.map_some']
    rw [rekey_buf_high 0 _ 40 (by omega) (by omega)]
    simp only [serve_block]
    rw [rekey_rs]

/-- C3, the claim as written fails: in the first `arc4rand(ptr, 984, 0)` on the load-time
state, cache position 40 is copied out to the caller (the log ends with the copy of 984
bytes from index 40, the refill of the drained cache and `mtx_unlock`), and when the call
returns position 40 holds the byte 93 of the fresh keystream, not zero. -/
theorem copied_position_refilled :
    ∃ (s1 : State toyKS) (out : Nat → Nat),
      arc4rand ts1000 stir32 stir32 (fun _ => 0) 984 0 (State.initial toyKS) = some (s1, out) ∧
      (∃ t, s1.trace = t ++ [Event.copy_out 40 0 984, Event.rs_rekey, Event.mtx_unlock]) ∧
      s1.rs_buf 40 = 93 := by
  obtain ⟨s1, out, h1, h2, h3⟩ :=
    arc4rand_fresh_984 ts1000 stir32 stir32 (fun _ => 0) 0 (State.initial toyKS) fresh_initial
  refine ⟨s1, out, h1, h2, ?_⟩
  rw [h3]
  decide

/-- C5, what the code does instead. Take two boots that differ in everything the
collaborators return (the entropy reads `i0`, `i1`, `i2` and the clock against `i0b`, `i1b`,
`i2b` and another clock): after `arc4_init`, the first call of `arc4rand` loads the
all-zero key and nonce in `_rs_stir_if_needed`, because `rs_initialized` is still 0 and
`rs_buf` was cleared by `_rs_seed`; both runs therefore return the same first bytes, the
keystream of the all-zero key from byte 40 on. -/
theorem first_output_ignores_seed (i0 i0b : StirInput) (ts tsb : timespec)
    (i1 i2 i1b i2b : StirInput) (ptr : Nat → Nat) (len : Nat) (reseed reseedb : Int) :
    (_rs_stir_if_needed i2 len
        (arc4rand_locked ts i1 len reseed (arc4_init i0 (State.initial K)))).rs =
      zero_key_ctx K ∧
    (_rs_stir_if_needed i2b len
        (arc4rand_locked tsb i1b len reseedb (arc4_init i0b (State.initial K)))).rs =
      zero_key_ctx K ∧
    ∃ (s1 : State K) (out : Nat → Nat) (s1b : State K) (outb : Nat → Nat),
      arc4rand ts i1 i2 ptr len reseed (arc4_init i0 (State.initial K)) = some (s1, out) ∧
      arc4rand tsb i1b i2b ptr len reseedb (arc4_init i0b (State.initial K)) =
        some (s1b, outb) ∧
      ∀ j, j < len → j < 984 →
        out j = outb j ∧ out j = K.generate (zero_key_ctx K) (40 + j) := by
  obtain ⟨c1, s1, out, h1, o1⟩ :=
    first_arc4rand_zero_key ts i1 i2 ptr len reseed _ (fresh_arc4_init i0 _ fresh_initial)
  obtain ⟨c2, s1b, outb, h2, o2⟩ :=
    first_arc4rand_zero_key tsb i1b i2b ptr len reseedb _ (fresh_arc4_init i0b _ fresh_initial)
  refine ⟨c1, c2, s1, out, s1b, outb, h1, h2, ?_⟩
  intro j hj1 hj2
  exact ⟨by rw [o1 j hj1 hj2, o2 j hj1 hj2], o1 j hj1 hj2⟩

/-! ### Reseed policy of `arc4rand` -/

theorem stir_if_needed_iniseed (i : StirInput) (len : Nat) (s : State K) :
    (_rs_stir_if_needed i len s).arc4rand_iniseed_state = s.arc4rand_iniseed_state := by
  unfold _rs_stir_if_needed
  split_ifs
  · rfl
  · exact (stir_frame i false s).1
  · rfl

theorem head_iniseed (ts : timespec) (i1 : StirInput) (reseed : Int) (s : State K) :
    (arc4rand_head ts i1 reseed s).arc4rand_iniseed_state =
      if s.arc4rand_iniseed_state = arc4_entr.ARC4_ENTR_HAVE then arc4_entr.ARC4_ENTR_SEED
      else s.arc4rand_iniseed_state := by
  unfold arc4rand_head
  by_cases hH : s.arc4rand_iniseed_state = arc4_entr.ARC4_ENTR_HAVE <;>
    by_cases ht : arc4rand_trigger ts reseed s <;> simp [hH, ht, (stir_frame i1 false _).1]

theorem count_stir_events (lock : Bool) : (stir_events lock).count Event.rs_stir = 1 := by
  cases lock <;> decide

theorem lock_mem_stir_events : ¬ Event.mtx_lock ∈ stir_events false := by
  decide

/-- C6. For every state with `rs_have ≤ RSBUFSZ`, every `len` and every flag, the part of
`arc4rand(ptr, len, reseed)` before `mtx_lock` (the log `pre`) serves no byte and runs
`_rs_stir` exactly once if, at the time of the call, `arc4rand_iniseed_state` is HAVE, or
`reseed != 0`, or `arc4_numruns > 65536`, or the clock's seconds exceed `arc4_t_reseed`,
and not at all otherwise; and if `arc4rand_iniseed_state` was HAVE it is SEED after the
call. -/
theorem arc4rand_entry_reseed_iff (ts : timespec) (i1 i2 : StirInput) (ptr : Nat → Nat)
    (len : Nat) (reseed : Int) (s : State K) (h : s.rs_have ≤ RSBUFSZ) :
    ∃ (s1 : State K) (out : Nat → Nat) (pre post : List Event),
      arc4rand ts i1 i2 ptr len reseed s = some (s1, out) ∧
      s1.trace = s.trace ++ pre ++ Event.mtx_lock :: post ∧
      ¬ Event.mtx_lock ∈ pre ∧
      (∀ a b c, ¬ Event.copy_out a b c ∈ pre) ∧
      (Event.rs_stir ∈ pre ↔
        (s.arc4rand_iniseed_state = arc4_entr.ARC4_ENTR_HAVE ∨ reseed ≠ 0 ∨
          s.arc4_numruns > 65536 ∨ ts.tv_sec > s.arc4_t_reseed)) ∧
      pre.count Event.rs_stir ≤ 1 ∧
      (s.arc4rand_iniseed_state = arc4_entr.ARC4_ENTR_HAVE →
        s1.arc4rand_iniseed_state = arc4_entr.ARC4_ENTR_SEED) := by
  obtain ⟨l2, _, hp, _, hr⟩ := arc4rand_spec ts i1 i2 ptr len reseed s h
  obtain ⟨_, _, _, _, hsc, evs, htr, _, _⟩ := hp
  have htrig : arc4rand_trigger ts reseed s ↔
      (s.arc4rand_iniseed_state = arc4_entr.ARC4_ENTR_HAVE ∨ reseed ≠ 0 ∨
        s.arc4_numruns > 65536 ∨ ts.tv_sec > s.arc4_t_reseed) := Iff.rfl
  refine ⟨_, _,
    Event.nanotime :: (if arc4rand_trigger ts reseed s then stir_events false else []),
    (if (arc4rand_locked ts i1 len reseed s).rs_initialized = true ∧
        (arc4rand_locked ts i1 len reseed s).rs_count ≤ len then stir_events false else []) ++
      evs ++ [Event.mtx_unlock], hr, ?_, ?_, ?_, ?_, ?_, ?_⟩
  · simp only [htr, stir_if_needed_trace, locked_trace]
    simp [List.append_assoc]
  · by_cases ht : arc4rand_trigger ts reseed s
    · simp only [ht, if_true, List.mem_cons, not_or]
      exact ⟨by simp, lock_mem_stir_events⟩
    · simp [ht]
  · intro a b c
    by_cases ht : arc4rand_trigger ts reseed s
    · simp only [ht, if_true, List.mem_cons, not_or]
      exact ⟨by simp, copy_mem_stir_events false a b c⟩
    · simp [ht]
  · rw [← htrig]
    by_cases ht : arc4rand_trigger ts reseed s
    · simp [ht, stir_events]
    · simp [ht]
  · by_cases ht : arc4rand_trigger ts reseed s
    · simp [ht, List.count_cons, count_stir_events]
    · simp [ht]
  · intro hH
    have e1 : l2.s.arc4rand_iniseed_state =
        (arc4rand_head ts i1 reseed s).arc4rand_iniseed_state := by
      rw [hsc.1, stir_if_needed_iniseed]
      rfl
    show l2.s.arc4rand_iniseed_state = _
    rw [e1, head_iniseed, if_pos hH]

/-- Witness for C6: a call on the load-time state. -/
theorem arc4rand_entry_reseed_iff_witness :
    (State.initial toyKS).rs_have ≤ RSBUFSZ ∧
    ∃ (s1 : State toyKS) (out : Nat → Nat) (pre post : List Event),
      arc4rand ts1000 stir32 stir32 (fun _ => 0) 8 0 (State.initial toyKS) = some (s1, out) ∧
      s1.trace = (State.initial toyKS).trace ++ pre ++ Event.mtx_lock :: post ∧
      ¬ Event.mtx_lock ∈ pre ∧
      (∀ a b c, ¬ Event.copy_out a b c ∈ pre) ∧
      (Event.rs_stir ∈ pre ↔
        ((State.initial toyKS).arc4rand_iniseed_state = arc4_entr.ARC4_ENTR_HAVE ∨ (0 : Int) ≠ 0 ∨
          (State.initial toyKS).arc4_numruns > 65536 ∨
          ts1000.tv_sec > (State.initial toyKS).arc4_t_reseed)) ∧
      pre.count Event.rs_stir ≤ 1 ∧
      ((State.initial toyKS).arc4rand_iniseed_state = arc4_entr.ARC4_ENTR_HAVE →
        s1.arc4rand_iniseed_state = arc4_entr.ARC4_ENTR_SEED) :=
  ⟨by decide,
    arc4rand_entry_reseed_iff ts1000 stir32 stir32 (fun _ => 0) 8 0 (State.initial toyKS)
      (by decide)⟩

theorem head_scalars (ts : timespec) (i1 : StirInput) (reseed : Int) (s : State K) :
    (arc4rand_head ts i1 reseed s).arc4_numruns =
      (if arc4rand_trigger ts reseed s then 0 else s.arc4_numruns) ∧
    (arc4rand_head ts i1 reseed s).arc4_t_reseed =
      (if arc4rand_trigger ts reseed s then to_time_t (i1.ts_now.tv_sec + 300)
        else s.arc4_t_reseed) ∧
    (arc4rand_head ts i1 reseed s).rs_count =
      (if arc4rand_trigger ts reseed s then 1600000 else s.rs_count) ∧
    (arc4rand_head ts i1 reseed s).rs_initialized = s.rs_initialized := by
  unfold arc4rand_head
  by_cases hH : s.arc4rand_iniseed_state = arc4_entr.ARC4_ENTR_HAVE <;>
    by_cases ht : arc4rand_trigger ts reseed s <;>
    simp [hH, ht, stir_numruns, stir_t_reseed, stir_rs_count, (stir_frame i1 false _).2]

theorem locked_scalars (ts : timespec) (i1 : StirInput) (len : Nat) (reseed : Int)
    (s : State K) :
    (arc4rand_locked ts i1 len reseed s).arc4_numruns =
      to_int ((if arc4rand_trigger ts reseed s then 0 else s.arc4_numruns) + (len : Int)) ∧
    (arc4rand_locked ts i1 len reseed s).arc4_t_reseed =
      (if arc4rand_trigger ts reseed s then to_time_t (i1.ts_now.tv_sec + 300)
        else s.arc4_t_reseed) ∧
    (arc4rand_locked ts i1 len reseed s).rs_count =
      (if arc4rand_trigger ts reseed s then 1600000 else s.rs_count) ∧
    (arc4rand_locked ts i1 len reseed s).rs_initialized = s.rs_initialized ∧
    (arc4rand_locked ts i1 len reseed s).arc4rand_iniseed_state =
      (if s.arc4rand_iniseed_state = arc4_entr.ARC4_ENTR_HAVE then arc4_entr.ARC4_ENTR_SEED
        else s.arc4rand_iniseed_state) := by
  obtain ⟨h1, h2, h3, h4⟩ := head_scalars ts i1 reseed s
  refine ⟨?_, h2, h3, h4, head_iniseed ts i1 reseed s⟩
  show to_int (_ + _) = _
  rw [h1]

theorem serving_not_stir (evs : List Event) (h : ∀ e, e ∈ evs → e.serving) :
    ¬ Event.rs_stir ∈ evs ∧ ¬ Event.read_random ∈ evs ∧ evs.count Event.rs_stir = 0 := by
  refine ⟨fun hm => h _ hm, fun hm => h _ hm, ?_⟩
  exact List.count_eq_zero.mpr (fun hm => h _ hm)

/-- The whole of `arc4rand`, on any state with `rs_have ≤ RSBUFSZ`: the call has a result;
the static variables other than the cache are those left by `_rs_stir_if_needed`; and the
log grows by `nanotime`, the events of `_rs_stir` if the head condition holds, `mtx_lock`,
the events of `_rs_stir` if the generator is initialised with `rs_count ≤ len`, serving
events, and `mtx_unlock`. -/
theorem arc4rand_full (ts : timespec) (i1 i2 : StirInput) (ptr : Nat → Nat) (len : Nat)
    (reseed : Int) (s : State K) (h : s.rs_have ≤ RSBUFSZ) :
    ∃ (s1 : State K) (out : Nat → Nat) (evs : List Event),
      arc4rand ts i1 i2 ptr len reseed s = some (s1, out) ∧
      SameScalars s1 (_rs_stir_if_needed i2 len (arc4rand_locked ts i1 len reseed s)) ∧
      s1.rs_have ≤ RSBUFSZ ∧
      (∀ e, e ∈ evs → e.serving) ∧
      s1.trace = s.trace ++
        ([Event.nanotime] ++ (if arc4rand_trigger ts reseed s then stir_events false else []) ++
          [Event.mtx_lock] ++
          (if (arc4rand_locked ts i1 len reseed s).rs_initialized = true ∧
              (arc4rand_locked ts i1 len reseed s).rs_count ≤ len then stir_events false else []) ++
          evs ++ [Event.mtx_unlock]) := by
  obtain ⟨l2, _, hp, _, hr⟩ := arc4rand_spec ts i1 i2 ptr len reseed s h
  obtain ⟨hle, _, _, _, hsc, evs, htr, _, hserv⟩ := hp
  refine ⟨_, _, evs, hr, hsc, hle, hserv, ?_⟩
  simp only [htr, stir_if_needed_trace, locked_trace]
  simp [List.append_assoc]

theorem stir_if_needed_scalars (i : StirInput) (len : Nat) (s : State K) :
    (_rs_stir_if_needed i len s).rs_initialized = true ∧
    (_rs_stir_if_needed i len s).arc4_numruns =
      (if s.rs_initialized = true ∧ s.rs_count ≤ len then 0 else s.arc4_numruns) ∧
    (_rs_stir_if_needed i len s).arc4_t_reseed =
      (if s.rs_initialized = true ∧ s.rs_count ≤ len then to_time_t (i.ts_now.tv_sec + 300)
        else s.arc4_t_reseed) ∧
    (_rs_stir_if_needed i len s).rs_count =
      (if s.rs_initialized = false then 1024 * 1024 * 1024
        else if s.rs_count ≤ len then 1600000 else s.rs_count - len) := by
  unfold _rs_stir_if_needed
  by_cases h1 : s.rs_initialized = false
  · simp [h1, _rs_init]
  · have h1t : s.rs_initialized = true := by simpa using h1
    by_cases h2 : s.rs_count ≤ len
    · simp [h1t, h2, stir_numruns, stir_t_reseed, stir_rs_count, (stir_frame i false s).2]
    · have h3 : len ≤ s.rs_count := by omega
      simp [h1t, h2, size_t_sub_of_le h3]

/-- The static variables after `arc4rand`, in terms of those at its call of
`_rs_random_buf`, and the events it logs. -/
theorem arc4rand_scalars (ts : timespec) (i1 i2 : StirInput) (ptr : Nat → Nat) (len : Nat)
    (reseed : Int) (s : State K) (h : s.rs_have ≤ RSBUFSZ) :
    ∃ (s1 : State K) (out : Nat → Nat) (evs : List Event),
      arc4rand ts i1 i2 ptr len reseed s = some (s1, out) ∧
      s1.rs_have ≤ RSBUFSZ ∧
      (∀ e, e ∈ evs → e.serving) ∧
      s1.trace = s.trace ++
        ([Event.nanotime] ++ (if arc4rand_trigger ts reseed s then stir_events false else []) ++
          [Event.mtx_lock] ++
          (if (arc4rand_locked ts i1 len reseed s).rs_initialized = true ∧
              (arc4rand_locked ts i1 len reseed s).rs_count ≤ len then stir_events false else []) ++
          evs ++ [Event.mtx_unlock]) ∧
      s1.arc4rand_iniseed_state =
        (if s.arc4rand_iniseed_state = arc4_entr.ARC4_ENTR_HAVE then arc4_entr.ARC4_ENTR_SEED
          else s.arc4rand_iniseed_state) ∧
      s1.rs_initialized = true ∧
      s1.arc4_numruns =
        (if (arc4rand_locked ts i1 len reseed s).rs_initialized = true ∧
            (arc4rand_locked ts i1 len reseed s).rs_count ≤ len then 0
          else (arc4rand_locked ts i1 len reseed s).arc4_numruns) ∧
      s1.arc4_t_reseed =
        (if (arc4rand_locked ts i1 len reseed s).rs_initialized = true ∧
            (arc4rand_locked ts i1 len reseed s).rs_count ≤ len
          then to_time_t (i2.ts_now.tv_sec + 300)
          else (arc4rand_locked ts i1 len reseed s).arc4_t_reseed) ∧
      s1.rs_count =
        (if (arc4rand_locked ts i1 len reseed s).rs_initialized = false then 1024 * 1024 * 1024
          else if (arc4rand_locked ts i1 len reseed s).rs_count ≤ len then 1600000
          else (arc4rand_locked ts i1 len reseed s).rs_count - len) := by
  obtain ⟨s1, out, evs, hr, hsc, hle, hserv, htr⟩ := arc4rand_full ts i1 i2 ptr len reseed s h
  obtain ⟨c1, c2, c3, c4, c5⟩ := hsc
  obtain ⟨d1, d2, d3, d4⟩ := stir_if_needed_scalars i2 len (arc4rand_locked ts i1 len reseed s)
  refine ⟨s1, out, evs, hr, hle, hserv, htr, ?_, ?_, ?_, ?_, ?_⟩
  · rw [c1, stir_if_needed_iniseed, (locked_scalars ts i1 len reseed s).2.2.2.2]
  · rw [c4, d1]
  · rw [c2, d2]
  · rw [c3, d3]
  · rw [c5, d4]

theorem to_int_of_range (x : Int) (h1 : 0 ≤ x) (h2 : x < 2 ^ 31) : to_int x = x := by
  unfold to_int
  omega

theorem to_time_t_of_range (x : Int) (h1 : -2 ^ 63 ≤ x) (h2 : x < 2 ^ 63) :
    to_time_t x = x := by
  unfold to_time_t
  omega

/-- Effect of a call during which no trigger fires. -/
theorem quiet_effect (c : Call) (s s1 : State K) (hq : c.quiet s s1) (hh : s.rs_have ≤ RSBUFSZ)
    (h0 : 0 ≤ s.arc4_numruns) (hb : s.arc4_numruns + (s.rs_count : Int) < 2 ^ 31) :
    s1.arc4_numruns = s.arc4_numruns + (c.len : Int) ∧ s1.rs_count = s.rs_count - c.len ∧
    s1.arc4_t_reseed = s.arc4_t_reseed ∧
    s1.arc4rand_iniseed_state = s.arc4rand_iniseed_state ∧ s1.rs_initialized = true ∧
    s1.rs_have ≤ RSBUFSZ ∧
    ∃ evs, s1.trace = s.trace ++ evs ∧ ¬ Event.rs_stir ∈ evs := by
  obtain ⟨hnt, hi, hlen, out, hr⟩ := hq
  obtain ⟨s1b, outb, evs, hrb, hle, hserv, htr, e1, e2, e3, e4, e5⟩ :=
    arc4rand_scalars c.ts c.i1 c.i2 c.ptr c.len c.reseed s hh
  rw [hr] at hrb
  simp only [Option.some.injEq, Prod.mk.injEq] at hrb
  obtain ⟨rfl, _⟩ := hrb
  obtain ⟨l1, l2, l3, l4, _⟩ := locked_scalars c.ts c.i1 c.len c.reseed s
  simp only [hnt, if_false] at l1 l2 l3
  have hnH : ¬ s.arc4rand_iniseed_state = arc4_entr.ARC4_ENTR_HAVE := fun hH => hnt (Or.inl hH)
  have hns : ¬ ((arc4rand_locked c.ts c.i1 c.len c.reseed s).rs_initialized = true ∧
      (arc4rand_locked c.ts c.i1 c.len c.reseed s).rs_count ≤ c.len) := by
    rw [l3]
    omega
  have hlt : (c.len : Int) < (s.rs_count : Int) := by exact_mod_cast hlen
  refine ⟨?_, ?_, ?_, ?_, e2, hle, ?_⟩
  · rw [e3, if_neg hns, l1, to_int_of_range _ (by omega) (by omega)]
  · rw [e5, l4, hi, l3]
    have : ¬ s.rs_count ≤ c.len := by omega
    simp [this]
  · rw [e4, if_neg hns, l2]
  · rw [e1, if_neg hnH]
  · refine ⟨_, htr, ?_⟩
    simp only [hnt, hns, if_false, List.append_nil, List.mem_append, List.mem_singleton,
      List.mem_cons, List.not_mem_nil, or_false, not_or]
    exact ⟨⟨⟨by simp, by simp⟩, (serving_not_stir evs hserv).1⟩, by simp⟩

/-- Along a run without triggers `arc4_numruns` grows by the lengths requested. -/
theorem quietRun_effect (cs : List Call) :
    ∀ (s s2 : State K), QuietRun s cs s2 → s.rs_have ≤ RSBUFSZ → 0 ≤ s.arc4_numruns →
      s.arc4_numruns + (s.rs_count : Int) < 2 ^ 31 →
      s2.arc4_numruns = s.arc4_numruns + (((cs.map Call.len).sum : Nat) : Int) ∧
      s2.rs_have ≤ RSBUFSZ ∧ s2.arc4_t_reseed = s.arc4_t_reseed ∧
      s2.arc4rand_iniseed_state = s.arc4rand_iniseed_state := by
  induction cs with
  | nil =>
    intro s s2 hq hh _ _
    simp only [QuietRun] at hq
    subst hq
    simp [hh]
  | cons c cs ih =>
    intro s s2 hq hh h0 hb
    obtain ⟨s1, hq1, hq2⟩ := hq
    obtain ⟨e1, e2, e3, e4, _, e6, _⟩ := quiet_effect c s s1 hq1 hh h0 hb
    have hlen : c.len < s.rs_count := hq1.2.2.1
    have hb1 : s1.arc4_numruns + (s1.rs_count : Int) < 2 ^ 31 := by
      rw [e1, e2]
      omega
    obtain ⟨f1, f2, f3, f4⟩ := ih s1 s2 hq2 e6 (by rw [e1]; omega) hb1
    refine ⟨?_, f2, by rw [f3, e3], by rw [f4, e4]⟩
    rw [f1, e1]
    simp only [List.map_cons, List.sum_cons]
    push_cast
    omega

/-- C7, as amended. From a state just after a reseed (`arc4_numruns = 0`,
`rs_count ≤ 2^30`), after a sequence of `arc4rand` calls during which no trigger fires,
`arc4_numruns` is the sum of the requested lengths, and the next call on which no other
trigger fires (flag 0, `arc4rand_iniseed_state` not HAVE, clock not past `arc4_t_reseed`,
`rs_count` above the length) runs `_rs_stir` if and only if that sum exceeds 65536: at
exactly 65536 it does not reseed. -/
theorem reseed_iff_more_than_threshold (s s2 : State K) (cs : List Call)
    (hq : QuietRun s cs s2) (h0 : s.arc4_numruns = 0) (hc : s.rs_count ≤ 1024 * 1024 * 1024)
    (hh : s.rs_have ≤ RSBUFSZ) :
    s2.arc4_numruns = (((cs.map Call.len).sum : Nat) : Int) ∧
    ∀ c : Call, c.reseed = 0 → s2.arc4rand_iniseed_state ≠ arc4_entr.ARC4_ENTR_HAVE →
      c.ts.tv_sec ≤ s2.arc4_t_reseed → c.len < s2.rs_count →
      ∃ (s3 : State K) (out : Nat → Nat) (evs : List Event),
        arc4rand c.ts c.i1 c.i2 c.ptr c.len c.reseed s2 = some (s3, out) ∧
        s3.trace = s2.trace ++ evs ∧
        (Event.rs_stir ∈ evs ↔ 65536 < (cs.map Call.len).sum) := by
  have hb : s.arc4_numruns + (s.rs_count : Int) < 2 ^ 31 := by
    rw [h0]
    have : (s.rs_count : Int) ≤ 1024 * 1024 * 1024 := by exact_mod_cast hc
    omega
  obtain ⟨f1, f2, _, _⟩ := quietRun_effect cs s s2 hq hh (by rw [h0]) hb
  rw [h0, Int.zero_add] at f1
  refine ⟨f1, ?_⟩
  intro c hre hnH hts hlen
  obtain ⟨s3, out, evs, hr, _, hserv, htr, _⟩ :=
    arc4rand_scalars c.ts c.i1 c.i2 c.ptr c.len c.reseed s2 f2
  refine ⟨s3, out, _, hr, htr, ?_⟩
  have htrig : arc4rand_trigger c.ts c.reseed s2 ↔ 65536 < (cs.map Call.len).sum := by
    unfold arc4rand_trigger
    rw [f1, hre]
    simp only [hnH, ne_eq, not_true_eq_false, false_or, ARC4_RESEED_BYTES, gt_iff_lt]
    constructor
    · rintro (h | h)
      · exact_mod_cast h
      · omega
    · intro h
      left
      exact_mod_cast h
  by_cases ht : arc4rand_trigger c.ts c.reseed s2
  · have : Event.rs_stir ∈ stir_events false := by decide
    simp [ht, this, htrig.mp ht]
  · have hns : ¬ ((arc4rand_locked c.ts c.i1 c.len c.reseed s2).rs_initialized = true ∧
        (arc4rand_locked c.ts c.i1 c.len c.reseed s2).rs_count ≤ c.len) := by
      rw [(locked_scalars c.ts c.i1 c.len c.reseed s2).2.2.1, if_neg ht]
      omega
    have hno : ¬ 65536 < (cs.map Call.len).sum := fun h => ht (htrig.mpr h)
    simp only [ht, hns, if_false, List.append_nil, List.mem_append, List.mem_singleton,
      List.mem_cons, List.not_mem_nil, or_false, hno, iff_false, not_or]
    exact ⟨⟨⟨by simp, by simp⟩, (serving_not_stir evs hserv).1⟩, by simp⟩

/-- Effect of a call whose head condition holds, for a length below the countdown set by
the reseed. -/
theorem triggered_effect (ts : timespec) (i1 i2 : StirInput) (ptr : Nat → Nat) (len : Nat)
    (reseed : Int) (s : State K) (hh : s.rs_have ≤ RSBUFSZ)
    (ht : arc4rand_trigger ts reseed s) (hlen : len < 1600000) :
    ∃ (s1 : State K) (out : Nat → Nat),
      arc4rand ts i1 i2 ptr len reseed s = some (s1, out) ∧
      s1.arc4_numruns = (len : Int) ∧
      s1.arc4_t_reseed = to_time_t (i1.ts_now.tv_sec + 300) ∧
      s1.rs_count = (if s.rs_initialized = false then 1024 * 1024 * 1024 else 1600000 - len) ∧
      s1.rs_initialized = true ∧ s1.rs_have ≤ RSBUFSZ ∧
      s1.arc4rand_iniseed_state =
        (if s.arc4rand_iniseed_state = arc4_entr.ARC4_ENTR_HAVE then arc4_entr.ARC4_ENTR_SEED
          else s.arc4rand_iniseed_state) := by
  obtain ⟨s1, out, evs, hr, hle, _, _, e1, e2, e3, e4, e5⟩ :=
    arc4rand_scalars ts i1 i2 ptr len reseed s hh
  obtain ⟨l1, l2, l3, l4, _⟩ := locked_scalars ts i1 len reseed s
  simp only [ht, if_true] at l1 l2 l3
  have hns : ¬ ((arc4rand_locked ts i1 len reseed s).rs_initialized = true ∧
      (arc4rand_locked ts i1 len reseed s).rs_count ≤ len) := by
    rw [l3]
    omega
  have hlt : (len : Int) < 1600000 := by exact_mod_cast hlen
  refine ⟨s1, out, hr, ?_, ?_, ?_, e2, hle, e1⟩
  · rw [e3, if_neg hns, l1, to_int_of_range _ (by omega) (by omega)]
    omega
  · rw [e4, if_neg hns, l2]
  · rw [e5, l4, l3]
    have : ¬ 1600000 ≤ len := by omega
    simp [this]

theorem run_call_eq (c : Call) (s s1 : State K) (out : Nat → Nat)
    (h : arc4rand c.ts c.i1 c.i2 c.ptr c.len c.reseed s = some (s1, out)) :
    run_call c s = s1 := by
  simp [run_call, h]

/-- The static variables of `toy_seeded`. -/
theorem toy_seeded_scalars :
    toy_seeded.arc4_numruns = 0 ∧ toy_seeded.rs_count = 1600000 ∧
    toy_seeded.arc4_t_reseed = 1300 ∧
    toy_seeded.arc4rand_iniseed_state = arc4_entr.ARC4_ENTR_NONE ∧
    toy_seeded.rs_initialized = true ∧ toy_seeded.rs_have ≤ RSBUFSZ := by
  obtain ⟨s0, o0, h0, _, _, _, a4, a5, a6⟩ :=
    triggered_effect ts1000 stir32 stir32 (fun _ => 0) 0 0 (State.initial toyKS)
      (by decide) (by decide) (by decide)
  obtain ⟨sA, oA, hA, b1, b2, b3, b4, b5, b6⟩ :=
    triggered_effect ts1000 stir32 stir32 (fun _ => 0) 0 1 s0 a5 (Or.inr (Or.inl (by decide)))
      (by decide)
  have e0 : run_call (toy_call 0 0) (State.initial toyKS) = s0 := run_call_eq _ _ _ o0 h0
  have eA : toy_seeded = sA := by
    unfold toy_seeded
    rw [e0]
    exact run_call_eq _ _ _ oA hA
  rw [eA]
  refine ⟨by simpa using b1, by simpa [a4] using b3, by rw [b2]; decide, ?_, b4, b5⟩
  rw [b6, a6]
  decide

/-- After a call during which no trigger fires, the state is `run_call`. -/
theorem quiet_run_call (c : Call) (s : State K) (hh : s.rs_have ≤ RSBUFSZ)
    (ht : ¬ arc4rand_trigger c.ts c.reseed s) (hi : s.rs_initialized = true)
    (hlen : c.len < s.rs_count) : c.quiet s (run_call c s) := by
  obtain ⟨s1, o1, _, h1, _⟩ := arc4rand_scalars c.ts c.i1 c.i2 c.ptr c.len c.reseed s hh
  rw [run_call_eq c s s1 o1 h1]
  exact ⟨ht, hi, hlen, o1, h1⟩

/-- C7, the claim as written fails. `toy_seeded` is a state just after a reseed
(`arc4_numruns = 0`, `rs_count = 1600000`, deadline 1300 against a clock at 1000); a call
for exactly 65536 bytes follows, during which no trigger fires and after which
`arc4_numruns = 65536`; the next call does not run `_rs_stir`. -/
theorem no_reseed_at_exactly_65536 :
    toy_seeded.arc4_numruns = 0 ∧
    QuietRun toy_seeded [toy_call 65536 0] (run_call (toy_call 65536 0) toy_seeded) ∧
    (run_call (toy_call 65536 0) toy_seeded).arc4_numruns = 65536 ∧
    ∃ (s3 : State toyKS) (o3 : Nat → Nat) (evs : List Event),
      arc4rand ts1000 stir32 stir32 (fun _ => 0) 1 0 (run_call (toy_call 65536 0) toy_seeded) =
        some (s3, o3) ∧
      s3.trace = (run_call (toy_call 65536 0) toy_seeded).trace ++ evs ∧
      ¬ Event.rs_stir ∈ evs := by
  obtain ⟨b1z, b3c, b2t, b6n, b4, b5⟩ := toy_seeded_scalars
  have q2 : (toy_call 65536 0).quiet toy_seeded (run_call (toy_call 65536 0) toy_seeded) := by
    refine quiet_run_call _ _ b5 ?_ b4 (by rw [b3c]; decide)
    unfold arc4rand_trigger
    rw [b6n, b1z, b2t]
    decide
  generalize run_call (toy_call 65536 0) toy_seeded = s2 at q2 ⊢
  obtain ⟨c1, c2, c3, c4, c5, c6, _⟩ :=
    quiet_effect (toy_call 65536 0) toy_seeded s2 q2 b5 (by rw [b1z])
      (by rw [b1z, b3c]; decide)
  have c1v : s2.arc4_numruns = 65536 := by rw [c1, b1z]; rfl
  have c2v : s2.rs_count = 1534464 := by rw [c2, b3c]; rfl
  have q3 : (toy_call 1 0).quiet s2 (run_call (toy_call 1 0) s2) := by
    refine quiet_run_call _ _ c6 ?_ c5 (by rw [c2v]; decide)
    unfold arc4rand_trigger
    rw [c4, b6n, c1v, c3, b2t]
    decide
  obtain ⟨_, _, _, _, _, _, evs, d7, d8⟩ :=
    quiet_effect (toy_call 1 0) s2 _ q3 c6 (by rw [c1v]; decide) (by rw [c1v, c2v]; decide)
  obtain ⟨_, _, _, o3, h3⟩ := q3
  exact ⟨b1z, ⟨s2, q2, rfl⟩, c1v, _, o3, evs, h3, d7, d8⟩

/-- Witness for C7 as amended: from `toy_seeded`, a call for 65537 bytes during which no
trigger fires. -/
theorem reseed_iff_more_than_threshold_witness :
    QuietRun toy_seeded [toy_call 65537 0] (run_call (toy_call 65537 0) toy_seeded) ∧
    toy_seeded.arc4_numruns = 0 ∧ toy_seeded.rs_count ≤ 1024 * 1024 * 1024 ∧
    toy_seeded.rs_have ≤ RSBUFSZ ∧
    (run_call (toy_call 65537 0) toy_seeded).arc4_numruns = 65537 ∧
    ∀ c : Call, c.reseed = 0 →
      (run_call (toy_call 65537 0) toy_seeded).arc4rand_iniseed_state ≠
        arc4_entr.ARC4_ENTR_HAVE →
      c.ts.tv_sec ≤ (run_call (toy_call 65537 0) toy_seeded).arc4_t_reseed →
      c.len < (run_call (toy_call 65537 0) toy_seeded).rs_count →
      ∃ (s3 : State toyKS) (out : Nat → Nat) (evs : List Event),
        arc4rand c.ts c.i1 c.i2 c.ptr c.len c.reseed (run_call (toy_call 65537 0) toy_seeded) =
          some (s3, out) ∧
        s3.trace = (run_call (toy_call 65537 0) toy_seeded).trace ++ evs ∧
        (Event.rs_stir ∈ evs ↔ 65536 < 65537) := by
  obtain ⟨b1z, b3c, b2t, b6n, b4, b5⟩ := toy_seeded_scalars
  have q2 : (toy_call 65537 0).quiet toy_seeded (run_call (toy_call 65537 0) toy_seeded) := by
    refine quiet_run_call _ _ b5 ?_ b4 (by rw [b3c]; decide)
    unfold arc4rand_trigger
    rw [b6n, b1z, b2t]
    decide
  have hq : QuietRun toy_seeded [toy_call 65537 0] (run_call (toy_call 65537 0) toy_seeded) :=
    ⟨_, q2, rfl⟩
  have hc : toy_seeded.rs_count ≤ 1024 * 1024 * 1024 := by rw [b3c]; decide
  exact ⟨hq, b1z, hc, b5,
    reseed_iff_more_than_threshold toy_seeded _ [toy_call 65537 0] hq b1z hc b5⟩

/-! ### `_rs_random_u32` against `_rs_random_buf` -/

theorem bytes_memcpy (dst src : Nat → Nat) (off m k : Nat) (hk : k ≤ m) :
    bytes (memcpy dst 0 src off m) 0 k = bytes src off k := by
  apply List.map_congr_left
  intro a ha
  have : a < k := List.mem_range.mp ha
  simp only [memcpy, Nat.zero_add, Nat.zero_le, true_and, Nat.sub_zero]
  rw [if_pos (by omega)]

theorem stir_if_needed_rs_have (i : StirInput) (len : Nat) (s : State K) :
    (_rs_stir_if_needed i len s).rs_have =
      (if s.rs_initialized = true ∧ s.rs_count ≤ len then 0 else s.rs_have) := by
  unfold _rs_stir_if_needed
  by_cases h1 : s.rs_initialized = false
  · simp [h1, _rs_init]
  · have h1t : s.rs_initialized = true := by simpa using h1
    by_cases h2 : s.rs_count ≤ len
    · simp [h1t, h2, stir_rs_have]
    · simp [h1t, h2]

/-- The bytes `_rs_random_buf(buf, 4)` stores when the cache holds none or at least four. -/
theorem buf4_spec (i : StirInput) (ptr : Nat → Nat) (s : State K)
    (hle : (_rs_stir_if_needed i 4 s).rs_have ≤ RSBUFSZ)
    (hc : (_rs_stir_if_needed i 4 s).rs_have = 0 ∨ 4 ≤ (_rs_stir_if_needed i 4 s).rs_have) :
    ∃ (s2 : State K) (out : Nat → Nat),
      _rs_random_buf i ptr 4 s = some (s2, out) ∧
      bytes out 0 4 = bytes (u32_ready i s).rs_buf (RSBUFSZ - (u32_ready i s).rs_have) 4 := by
  unfold _rs_random_buf u32_ready
  generalize _rs_stir_if_needed i 4 s = t at hle hc
  rcases hc with h0 | h4
  · -- empty cache: refill, then one copy
    rw [loop_refill _ h0 (by simp),
      loop_short _ (by simp [rekey_rs_have, RSBUFSZ_eq]) (by simp) (by simp [rekey_rs_have])]
    refine ⟨_, _, rfl, ?_⟩
    have hlt : t.rs_have < 4 := by omega
    simp only [hlt, if_true, serve_block, rekey_rs_have]
    exact bytes_memcpy _ _ _ _ _ (by decide)
  · have hnlt : ¬ t.rs_have < 4 := by omega
    simp only [hnlt, if_false]
    by_cases h5 : 4 < t.rs_have
    · rw [loop_short _ hle (by simp) h5]
      refine ⟨_, _, rfl, ?_⟩
      have hm : min 4 t.rs_have = 4 := Nat.min_eq_left h4
      simp only [serve_block, hm]
      exact bytes_memcpy _ _ _ _ _ (Nat.le_refl _)
    · have h6 : t.rs_have = 4 := by omega
      rw [loop_exact _ hle (by simp) (by simp [h6])]
      refine ⟨_, _, rfl, ?_⟩
      simp only [serve_block, h6, Nat.min_self]
      exact bytes_memcpy _ _ _ _ _ (Nat.le_refl _)

/-- C8, as amended. For every generator state with `rs_have ≤ RSBUFSZ` whose cache holds
no byte or at least four (`rs_have = 0` or `rs_have ≥ 4`), whether or not a trigger fires,
the word returned by `_rs_random_u32`, as the four bytes stored in `*val`, equals the four
bytes that `_rs_random_buf(buf, 4)` writes from the same state with the same keystream
primitive and collaborators. -/
theorem u32_eq_buf4 (i : StirInput) (ptr : Nat → Nat) (s : State K)
    (hle : s.rs_have ≤ RSBUFSZ) (hc : s.rs_have = 0 ∨ 4 ≤ s.rs_have) :
    ∃ (s1 : State K) (val : List Nat) (s2 : State K) (out : Nat → Nat),
      _rs_random_u32 i s = some (s1, val) ∧ _rs_random_buf i ptr 4 s = some (s2, out) ∧
      val = bytes out 0 4 := by
  have hle2 := stir_if_needed_rs_have_le i 4 s hle
  have hc2 : (_rs_stir_if_needed i 4 s).rs_have = 0 ∨ 4 ≤ (_rs_stir_if_needed i 4 s).rs_have := by
    rw [stir_if_needed_rs_have]
    split_ifs
    · exact Or.inl rfl
    · exact hc
  obtain ⟨s2, out, h2, hb⟩ := buf4_spec i ptr s hle2 hc2
  have hready : 4 ≤ (u32_ready i s).rs_have ∧ (u32_ready i s).rs_have ≤ RSBUFSZ := by
    unfold u32_ready
    by_cases hlt : (_rs_stir_if_needed i 4 s).rs_have < 4
    · simp [hlt, rekey_rs_have, RSBUFSZ_eq]
    · simp only [hlt, if_false]
      exact ⟨by omega, hle2⟩
  have hu : ∃ s1, _rs_random_u32 i s =
      some (s1, bytes (u32_ready i s).rs_buf (RSBUFSZ - (u32_ready i s).rs_have) 4) := by
    simp only [_rs_random_u32, hready, and_self, if_true]
    exact ⟨_, rfl⟩
  obtain ⟨s1, h1⟩ := hu
  exact ⟨s1, _, s2, out, h1, h2, hb.symm⟩

/-- Witness for C8 as amended: the state just after a reseed, whose cache is empty. -/
theorem u32_eq_buf4_witness :
    (_rs_stir stir32 false (State.initial toyKS)).rs_have ≤ RSBUFSZ ∧
    ((_rs_stir stir32 false (State.initial toyKS)).rs_have = 0 ∨
      4 ≤ (_rs_stir stir32 false (State.initial toyKS)).rs_have) ∧
    ∃ (s1 : State toyKS) (val : List Nat) (s2 : State toyKS) (out : Nat → Nat),
      _rs_random_u32 stir32 (_rs_stir stir32 false (State.initial toyKS)) = some (s1, val) ∧
      _rs_random_buf stir32 (fun _ => 0) 4 (_rs_stir stir32 false (State.initial toyKS)) =
        some (s2, out) ∧
      val = bytes out 0 4 :=
  ⟨by decide, Or.inl rfl,
    u32_eq_buf4 stir32 (fun _ => 0) (_rs_stir stir32 false (State.initial toyKS)) (by decide)
      (Or.inl rfl)⟩

theorem locked_rs_have (ts : timespec) (i1 : StirInput) (len : Nat) (reseed : Int)
    (s : State K) :
    (arc4rand_locked ts i1 len reseed s).rs_have =
      (if arc4rand_trigger ts reseed s then 0 else s.rs_have) := by
  show (arc4rand_head ts i1 reseed s).rs_have = _
  unfold arc4rand_head
  by_cases hH : s.arc4rand_iniseed_state = arc4_entr.ARC4_ENTR_HAVE <;>
    by_cases ht : arc4rand_trigger ts reseed s <;> simp [hH, ht, stir_rs_have]

/-- A call on an empty cache for fewer than 984 bytes leaves `984 - len` bytes in the
cache, or none if `len = 0`. -/
theorem arc4rand_from_empty (ts : timespec) (i1 i2 : StirInput) (ptr : Nat → Nat) (len : Nat)
    (reseed : Int) (s : State K) (h0 : s.rs_have = 0) (hlen : len < 984) :
    ∃ (s1 : State K) (out : Nat → Nat),
      arc4rand ts i1 i2 ptr len reseed s = some (s1, out) ∧
      s1.rs_have = (if len = 0 then 0 else 984 - len) := by
  have ht : (_rs_stir_if_needed i2 len (arc4rand_locked ts i1 len reseed s)).rs_have = 0 := by
    rw [stir_if_needed_rs_have, locked_rs_have, h0]
    split_ifs <;> rfl
  unfold arc4rand _rs_random_buf
  generalize _rs_stir_if_needed i2 len (arc4rand_locked ts i1 len reseed s) = t at ht
  by_cases hz : len = 0
  · subst hz
    rw [loop_zero _ rfl]
    exact ⟨_, _, rfl, by simpa using ht⟩
  · rw [loop_refill _ ht (by simpa using hz),
      loop_short _ (by simp [rekey_rs_have, RSBUFSZ_eq]) (by simpa using hz)
        (by simpa [rekey_rs_have] using hlen)]
    refine ⟨_, _, rfl, ?_⟩
    have hm : min len 984 = len := Nat.min_eq_left (Nat.le_of_lt hlen)
    simp [serve_block, rekey_rs_have, hm, hz, size_t_sub_of_le (Nat.le_of_lt hlen)]

theorem reachable_run_call (c : Call) (s : State K) (h : Reachable s) :
    Reachable (run_call c s) := by
  unfold run_call
  split
  · rename_i s1 out heq
    exact Reachable.arc4rand c.ts c.i1 c.i2 c.ptr c.len c.reseed s s1 out h heq
  · exact h

theorem run_call_rs_have (c : Call) (s : State K) (h0 : s.rs_have = 0) (hlen : c.len < 984) :
    (run_call c s).rs_have = (if c.len = 0 then 0 else 984 - c.len) := by
  obtain ⟨s1, out, h1, h2⟩ := arc4rand_from_empty c.ts c.i1 c.i2 c.ptr c.len c.reseed s h0 hlen
  rw [run_call_eq c s s1 out h1, h2]

theorem toy_seeded_rs_have : toy_seeded.rs_have = 0 := by
  unfold toy_seeded
  have e1 : (run_call (toy_call 0 0) (State.initial toyKS)).rs_have = 0 :=
    run_call_rs_have _ _ rfl (by decide)
  exact run_call_rs_have _ _ e1 (by decide)

theorem toy_seeded_reachable : Reachable toy_seeded :=
  reachable_run_call _ _ (reachable_run_call _ _ Reachable.initial)

/-- With three bytes left in the cache of an initialised generator, `_rs_random_u32`
discards them and returns keystream bytes 40 to 43 of the current context, while the
fourth byte stored by `_rs_random_buf(buf, 4)` is keystream byte 40 of that context. -/
theorem u32_buf4_three_left (i : StirInput) (ptr : Nat → Nat) (s : State K)
    (hi : s.rs_initialized = true) (hcount : 4 < s.rs_count) (h3 : s.rs_have = 3) :
    ∃ (s1 : State K) (val : List Nat) (s2 : State K) (out : Nat → Nat),
      _rs_random_u32 i s = some (s1, val) ∧ _rs_random_buf i ptr 4 s = some (s2, out) ∧
      val = bytes (K.generate s.rs) 40 4 ∧ out 3 = K.generate s.rs 40 := by
  have ht : _rs_stir_if_needed i 4 s = { s with rs_count := size_t_sub s.rs_count 4 } := by
    have : ¬ s.rs_count ≤ 4 := by omega
    simp [_rs_stir_if_needed, hi, this]
  have hu : ∃ s1, _rs_random_u32 i s = some (s1, bytes (K.generate s.rs) 40 4) := by
    have hb : bytes (_rs_rekey none 0
        ({ s with rs_count := size_t_sub s.rs_count 4 } : State K)).rs_buf 40 4 =
        bytes (K.generate s.rs) 40 4 := by
      apply List.map_congr_left
      intro a ha
      have : a < 4 := List.mem_range.mp ha
      exact rekey_buf_high 0 _ (40 + a) (by omega) (by omega)
    simp only [_rs_random_u32, u32_ready, ht, h3, rekey_rs_have, RSBUFSZ_eq]
    simp only [show (3 : Nat) < 4 by decide, if_true, show (4 : Nat) ≤ 984 ∧ 984 ≤ 1024 by decide,
      show 1024 - 984 = 40 by decide, hb]
    exact ⟨_, rfl⟩
  obtain ⟨s1, h1⟩ := hu
  have hb : ∃ s2 out, _rs_random_buf i ptr 4 s = some (s2, out) ∧ out 3 = K.generate s.rs 40 := by
    unfold _rs_random_buf
    rw [ht, loop_step _ _ (by simp)
        (body_drain _ (by simp [h3]) (by simp [h3, RSBUFSZ_eq]) (by simp [h3])),
      loop_short _ (by simp [rekey_rs_have, RSBUFSZ_eq])
        (by simp [serve_block, h3, size_t_sub]) (by simp [serve_block, h3, size_t_sub, rekey_rs_have])]
    refine ⟨_, _, rfl, ?_⟩
    simp only [serve_block, h3, rekey_rs_have, memcpy, RSBUFSZ_eq]
    simp only [show min 4 3 = 3 by decide, size_t_sub, show (3 : Nat) ≤ 4 by decide, if_true,
      show 4 - 3 = 1 by decide, show min 1 984 = 1 by decide, Nat.zero_add,
      show (3 : Nat) ≤ 3 ∧ 3 < 3 + 1 by decide, Nat.sub_self, Nat.add_zero,
      show 1024 - 984 = 40 by decide]
    exact rekey_buf_high 0 _ 40 (by omega) (by omega)
  obtain ⟨s2, out, h2, ho⟩ := hb
  exact ⟨s1, _, s2, out, h1, h2, rfl, ho⟩

/-- C8, the claim as written fails. The state reached from `toy_seeded` by
`arc4rand(ptr, 981, 0)` is reachable, initialised, satisfies the cache invariants and has
`rs_count > 4`, with three bytes left in the cache; there the word of `_rs_random_u32`
differs from the four bytes written by `_rs_random_buf(buf, 4)`. -/
theorem u32_differs_from_buf4 :
    Reachable (run_call (toy_call 981 0) toy_seeded) ∧
    (run_call (toy_call 981 0) toy_seeded).rs_initialized = true ∧
    CacheInv (run_call (toy_call 981 0) toy_seeded) ∧
    4 < (run_call (toy_call 981 0) toy_seeded).rs_count ∧
    (run_call (toy_call 981 0) toy_seeded).rs_have = 3 ∧
    ∃ (s1 : State toyKS) (val : List Nat) (s2 : State toyKS) (out : Nat → Nat),
      _rs_random_u32 stir32 (run_call (toy_call 981 0) toy_seeded) = some (s1, val) ∧
      _rs_random_buf stir32 (fun _ => 0) 4 (run_call (toy_call 981 0) toy_seeded) =
        some (s2, out) ∧
      val ≠ bytes out 0 4 := by
  obtain ⟨b1z, b3c, b2t, b6n, b4, b5⟩ := toy_seeded_scalars
  have hr : Reachable (run_call (toy_call 981 0) toy_seeded) :=
    reachable_run_call _ _ toy_seeded_reachable
  have q : (toy_call 981 0).quiet toy_seeded (run_call (toy_call 981 0) toy_seeded) := by
    refine quiet_run_call _ _ b5 ?_ b4 (by rw [b3c]; decide)
    unfold arc4rand_trigger
    rw [b6n, b1z, b2t]
    decide
  have h3 : (run_call (toy_call 981 0) toy_seeded).rs_have = 3 :=
    run_call_rs_have _ _ toy_seeded_rs_have (by decide)
  generalize run_call (toy_call 981 0) toy_seeded = sT at hr q h3 ⊢
  obtain ⟨_, c2, _, _, c5, _, _⟩ :=
    quiet_effect (toy_call 981 0) toy_seeded sT q b5 (by rw [b1z]) (by rw [b1z, b3c]; decide)
  have hcount : 4 < sT.rs_count := by
    rw [c2, b3c]
    decide
  obtain ⟨s1, val, s2, out, h1, h2, hv, ho⟩ :=
    u32_buf4_three_left stir32 (fun _ => 0) sT c5 hcount h3
  refine ⟨hr, c5, (reachable_ginv sT hr).1, hcount, h3, s1, val, s2, out, h1, h2, ?_⟩
  intro heq
  have e1 : val.getD 3 0 = (bytes out 0 4).getD 3 0 := by rw [heq]
  have e2 : val.getD 3 0 = toyKS.generate sT.rs 43 := by
    rw [hv]
    rfl
  have e3 : (bytes out 0 4).getD 3 0 = toyKS.generate sT.rs 40 := by
    show out (0 + 3) = _
    rw [Nat.zero_add, ho]
  rw [e2, e3] at e1
  have key : ∀ c : Nat, (c + 43) % 256 ≠ (c + 40) % 256 := by
    intro c
    omega
  exact key sT.rs e1

/-! ### `arc4random` and the reseed policy -/

theorem stir_if_needed_frame (i : StirInput) (len : Nat) (s : State K)
    (h : s.rs_initialized = false ∨ len < s.rs_count) :
    (_rs_stir_if_needed i len s).trace = s.trace ∧
    (_rs_stir_if_needed i len s).arc4_numruns = s.arc4_numruns ∧
    (_rs_stir_if_needed i len s).arc4_t_reseed = s.arc4_t_reseed := by
  have hns : ¬ (s.rs_initialized = true ∧ s.rs_count ≤ len) := by
    rintro ⟨h1, h2⟩
    rcases h with h | h
    · rw [h1] at h
      cases h
    · omega
  obtain ⟨_, d2, d3, _⟩ := stir_if_needed_scalars i len s
  refine ⟨?_, ?_, ?_⟩
  · rw [stir_if_needed_trace, if_neg hns, List.append_nil]
  · rw [d2, if_neg hns]
  · rw [d3, if_neg hns]

/-- Whatever `arc4rand_iniseed_state`, `arc4_numruns` and `arc4_t_reseed` are,
`arc4random()` on a generator whose countdown has not run out logs `mtx_lock`, at most a
refill, one copy of four bytes and `mtx_unlock`: it never reads the clock, never runs
`_rs_stir`, and leaves the three variables as they were. -/
theorem arc4random_no_policy (i : StirInput) (s : State K) (hle : s.rs_have ≤ RSBUFSZ)
    (hq : s.rs_initialized = false ∨ 4 < s.rs_count) :
    ∃ (s1 : State K) (val : List Nat) (evs : List Event),
      arc4random i s = some (s1, val) ∧ s1.trace = s.trace ++ evs ∧
      ¬ Event.rs_stir ∈ evs ∧ ¬ Event.nanotime ∈ evs ∧ ¬ Event.read_random ∈ evs ∧
      s1.arc4rand_iniseed_state = s.arc4rand_iniseed_state ∧
      s1.arc4_numruns = s.arc4_numruns ∧ s1.arc4_t_reseed = s.arc4_t_reseed := by
  obtain ⟨f1, f2, f3⟩ :=
    stir_if_needed_frame i 4 ({ s with trace := s.trace ++ [Event.mtx_lock] } : State K) hq
  have f4 := stir_if_needed_iniseed i 4
    ({ s with trace := s.trace ++ [Event.mtx_lock] } : State K)
  have f5 := stir_if_needed_rs_have_le i 4
    ({ s with trace := s.trace ++ [Event.mtx_lock] } : State K) hle
  unfold arc4random _rs_random_u32 u32_ready
  generalize _rs_stir_if_needed i 4
    ({ s with trace := s.trace ++ [Event.mtx_lock] } : State K) = t at f1 f2 f3 f4 f5
  simp only [] at f1 f2 f3 f4
  by_cases hlt : t.rs_have < 4
  · simp only [hlt, if_true, rekey_rs_have, RSBUFSZ_eq,
      show (4 : Nat) ≤ 984 ∧ 984 ≤ 1024 by decide, Option.map_some']
    refine ⟨_, _, [Event.mtx_lock, Event.rs_rekey, Event.copy_out (1024 - 984) 0 4,
      Event.mtx_unlock], rfl, ?_, by decide, by decide, by decide, f4, f2, f3⟩
    simp [rekey_trace, f1]
  · have h4 : 4 ≤ t.rs_have ∧ t.rs_have ≤ RSBUFSZ := ⟨by omega, f5⟩
    simp only [hlt, if_false, h4, and_self, if_true, Option.map_some']
    refine ⟨_, _, [Event.mtx_lock, Event.copy_out (RSBUFSZ - t.rs_have) 0 4,
      Event.mtx_unlock], rfl, ?_, ?_, ?_, ?_, f4, f2, f3⟩
    · simp [f1]
    · simp
    · simp
    · simp

theorem toy_overdue_eq :
    toy_overdue =
      { run_call (toy_call 65537 0) toy_seeded with
        arc4rand_iniseed_state := arc4_entr.ARC4_ENTR_HAVE } := rfl

theorem overdue_facts (s2 : State toyKS) (hreach : Reachable s2) (hn : s2.arc4_numruns = 65537)
    (ht : s2.arc4_t_reseed = 1300) (hi : s2.rs_initialized = true) (hc : s2.rs_count = 1534463)
    (hh : s2.rs_have ≤ RSBUFSZ) (t : State toyKS)
    (e : t = { s2 with arc4rand_iniseed_state := arc4_entr.ARC4_ENTR_HAVE }) :
    Reachable t ∧ t.arc4rand_iniseed_state = arc4_entr.ARC4_ENTR_HAVE ∧
    t.arc4_numruns = 65537 ∧ t.arc4_t_reseed = 1300 ∧
    t.rs_initialized = true ∧ t.rs_count = 1534463 ∧ t.rs_have ≤ RSBUFSZ := by
  subst e
  exact ⟨Reachable.host_signal _ _ hreach, rfl, hn, ht, hi, hc, hh⟩

theorem toy_overdue_facts :
    Reachable toy_overdue ∧ toy_overdue.arc4rand_iniseed_state = arc4_entr.ARC4_ENTR_HAVE ∧
    toy_overdue.arc4_numruns = 65537 ∧ toy_overdue.arc4_t_reseed = 1300 ∧
    toy_overdue.rs_initialized = true ∧ toy_overdue.rs_count = 1534463 ∧
    toy_overdue.rs_have ≤ RSBUFSZ := by
  obtain ⟨b1z, b3c, b2t, b6n, b4, b5⟩ := toy_seeded_scalars
  have q : (toy_call 65537 0).quiet toy_seeded (run_call (toy_call 65537 0) toy_seeded) := by
    refine quiet_run_call _ _ b5 ?_ b4 (by rw [b3c]; decide)
    unfold arc4rand_trigger
    rw [b6n, b1z, b2t]
    decide
  have hreach := reachable_run_call (toy_call 65537 0) toy_seeded toy_seeded_reachable
  have e := toy_overdue_eq
  generalize run_call (toy_call 65537 0) toy_seeded = s2 at q hreach e
  obtain ⟨c1, c2, c3, _, c5, c6, _⟩ :=
    quiet_effect (toy_call 65537 0) toy_seeded s2 q b5 (by rw [b1z]) (by rw [b1z, b3c]; decide)
  refine overdue_facts s2 hreach ?_ ?_ c5 ?_ c6 toy_overdue e
  · rw [c1, b1z]
    rfl
  · rw [c3, b2t]
  · rw [c2, b3c]
    rfl

/-- C9, what the code does instead. `toy_overdue` is a reachable state in which
`arc4rand_iniseed_state` is HAVE, `arc4_numruns = 65537 > 65536` and the deadline
`arc4_t_reseed = 1300` is past for any later clock; `arc4random()` returns its word there
without running `_rs_stir`, without reading the clock or the entropy source, and leaves
`arc4rand_iniseed_state` at HAVE. -/
theorem arc4random_skips_reseed :
    Reachable toy_overdue ∧ toy_overdue.arc4rand_iniseed_state = arc4_entr.ARC4_ENTR_HAVE ∧
    toy_overdue.arc4_numruns > ARC4_RESEED_BYTES ∧ ts1000.tv_sec + 1000 > toy_overdue.arc4_t_reseed ∧
    ∃ (s1 : State toyKS) (val : List Nat) (evs : List Event),
      arc4random stir32 toy_overdue = some (s1, val) ∧ s1.trace = toy_overdue.trace ++ evs ∧
      ¬ Event.rs_stir ∈ evs ∧ ¬ Event.nanotime ∈ evs ∧ ¬ Event.read_random ∈ evs ∧
      s1.arc4rand_iniseed_state = arc4_entr.ARC4_ENTR_HAVE := by
  obtain ⟨hr, h1, h2, h3, h4, h5, h6⟩ := toy_overdue_facts
  obtain ⟨s1, val, evs, e1, e2, e3, e4, e5, e6, _, _⟩ :=
    arc4random_no_policy stir32 toy_overdue h6 (Or.inr (by rw [h5]; decide))
  refine ⟨hr, h1, by rw [h2]; decide, by rw [h3]; decide, s1, val, evs, e1, e2, e3, e4, e5, ?_⟩
  rw [e6, h1]

/-! ### Expiry of the countdown -/

theorem count_read_random_stir_events (lock : Bool) :
    (stir_events lock).count Event.read_random = 1 := by
  cases lock <;> decide

/-- C10, as amended. When the generator is initialised, the condition at the head of
`arc4rand` is false (none of triggers 1 to 4 fires) and `rs_count ≤ len`, the call runs
`_rs_stir(0)`, a full reseed, from `_rs_stir_if_needed`: the entropy source is read exactly
once, and after the call `arc4_t_reseed` is the time read by that `_rs_stir` plus 300,
computed in `time_t` (the exact sum whenever it is within the range of `time_t`),
`arc4_numruns = 0` and `rs_count = 1600000`. -/
theorem countdown_expiry_reseeds (ts : timespec) (i1 i2 : StirInput) (ptr : Nat → Nat)
    (len : Nat) (reseed : Int) (s : State K) (hh : s.rs_have ≤ RSBUFSZ)
    (hi : s.rs_initialized = true) (hnt : ¬ arc4rand_trigger ts reseed s)
    (hc : s.rs_count ≤ len) :
    ∃ (s1 : State K) (out : Nat → Nat) (evs : List Event),
      arc4rand ts i1 i2 ptr len reseed s = some (s1, out) ∧ s1.trace = s.trace ++ evs ∧
      evs.count Event.rs_stir = 1 ∧ evs.count Event.read_random = 1 ∧
      s1.arc4_t_reseed = to_time_t (i2.ts_now.tv_sec + 300) ∧
      (-2 ^ 63 ≤ i2.ts_now.tv_sec → i2.ts_now.tv_sec + 300 < 2 ^ 63 →
        s1.arc4_t_reseed = i2.ts_now.tv_sec + 300) ∧
      s1.arc4_numruns = 0 ∧ s1.rs_count = 1600000 := by
  obtain ⟨s1, out, evs, hr, _, hserv, htr, _, _, e3, e4, e5⟩ :=
    arc4rand_scalars ts i1 i2 ptr len reseed s hh
  obtain ⟨_, _, l3, l4, _⟩ := locked_scalars ts i1 len reseed s
  rw [if_neg hnt] at l3
  have hs : (arc4rand_locked ts i1 len reseed s).rs_initialized = true ∧
      (arc4rand_locked ts i1 len reseed s).rs_count ≤ len := ⟨by rw [l4, hi], by rw [l3]; exact hc⟩
  obtain ⟨_, hnr, hcs⟩ := serving_not_stir evs hserv
  have hcr : evs.count Event.read_random = 0 := List.count_eq_zero.mpr hnr
  refine ⟨s1, out, _, hr, htr, ?_, ?_, ?_, ?_, ?_, ?_⟩
  · simp only [hnt, hs, and_self, if_true, if_false, List.append_nil, List.count_append,
      count_stir_events, hcs]
    decide
  · simp only [hnt, hs, and_self, if_true, if_false, List.append_nil, List.count_append,
      count_read_random_stir_events, hcr]
    decide
  · rw [e4, if_pos hs]
  · intro h1 h2
    rw [e4, if_pos hs, to_time_t_of_range _ (by omega) h2]
  · rw [e3, if_pos hs]
  · rw [e5, hs.1, if_neg (by simp), if_pos hs.2]

/-- Witness for C10 as amended: a request of 1600000 bytes on `toy_seeded`, whose
countdown stands at 1600000, with the clock at 1200 seconds, a reading within the range
of `time_t`. -/
theorem countdown_expiry_reseeds_witness :
    toy_seeded.rs_have ≤ RSBUFSZ ∧ toy_seeded.rs_initialized = true ∧
    ¬ arc4rand_trigger ts1200 0 toy_seeded ∧ toy_seeded.rs_count ≤ 1600000 ∧
    -2 ^ 63 ≤ stir32_late.ts_now.tv_sec ∧ stir32_late.ts_now.tv_sec + 300 < 2 ^ 63 ∧
    ∃ (s1 : State toyKS) (out : Nat → Nat) (evs : List Event),
      arc4rand ts1200 stir32 stir32_late (fun _ => 0) 1600000 0 toy_seeded = some (s1, out) ∧
      s1.trace = toy_seeded.trace ++ evs ∧
      evs.count Event.rs_stir = 1 ∧ evs.count Event.read_random = 1 ∧
      s1.arc4_t_reseed = to_time_t (stir32_late.ts_now.tv_sec + 300) ∧
      (-2 ^ 63 ≤ stir32_late.ts_now.tv_sec → stir32_late.ts_now.tv_sec + 300 < 2 ^ 63 →
        s1.arc4_t_reseed = stir32_late.ts_now.tv_sec + 300) ∧
      s1.arc4_numruns = 0 ∧ s1.rs_count = 1600000 := by
  obtain ⟨b1z, b3c, b2t, b6n, b4, b5⟩ := toy_seeded_scalars
  have hnt : ¬ arc4rand_trigger ts1200 0 toy_seeded := by
    unfold arc4rand_trigger
    rw [b6n, b1z, b2t]
    decide
  have hc : toy_seeded.rs_count ≤ 1600000 := by rw [b3c]
  exact ⟨b5, b4, hnt, hc, by decide, by decide,
    countdown_expiry_reseeds ts1200 stir32 stir32_late (fun _ => 0) 1600000 0 toy_seeded b5 b4
      hnt hc⟩

/-- C10, the claim as written fails. On `toy_seeded` (initialised, `arc4_numruns = 0`,
`rs_count = 1600000`, deadline 1300) with the clock at 1200, none of triggers 1 to 4
fires and `rs_count ≤ len` for `len = 1600000`; the call reads the entropy source, moves
`arc4_t_reseed` from 1300 to 1500, and leaves `arc4_numruns = 0`, not `0 + 1600000`. -/
theorem countdown_expiry_is_full_reseed :
    toy_seeded.rs_initialized = true ∧ ¬ arc4rand_trigger ts1200 0 toy_seeded ∧
    toy_seeded.rs_count ≤ 1600000 ∧
    ∃ (s1 : State toyKS) (out : Nat → Nat) (evs : List Event),
      arc4rand ts1200 stir32 stir32_late (fun _ => 0) 1600000 0 toy_seeded = some (s1, out) ∧
      s1.trace = toy_seeded.trace ++ evs ∧ Event.read_random ∈ evs ∧
      s1.arc4_t_reseed ≠ toy_seeded.arc4_t_reseed ∧
      s1.arc4_numruns ≠ toy_seeded.arc4_numruns + 1600000 := by
  obtain ⟨b1z, b3c, b2t, b6n, b4, b5⟩ := toy_seeded_scalars
  have hnt : ¬ arc4rand_trigger ts1200 0 toy_seeded := by
    unfold arc4rand_trigger
    rw [b6n, b1z, b2t]
    decide
  have hc : toy_seeded.rs_count ≤ 1600000 := by rw [b3c]
  obtain ⟨s1, out, evs, hr, _, hserv, htr, _, _, e3, e4, _⟩ :=
    arc4rand_scalars ts1200 stir32 stir32_late (fun _ => 0) 1600000 0 toy_seeded b5
  obtain ⟨_, _, l3, l4, _⟩ := locked_scalars ts1200 stir32 1600000 0 toy_seeded
  rw [if_neg hnt] at l3
  have hs : (arc4rand_locked ts1200 stir32 1600000 0 toy_seeded).rs_initialized = true ∧
      (arc4rand_locked ts1200 stir32 1600000 0 toy_seeded).rs_count ≤ 1600000 :=
    ⟨by rw [l4, b4], by rw [l3]; exact hc⟩
  refine ⟨b4, hnt, hc, s1, out, _, hr, htr, ?_, ?_, ?_⟩
  · simp only [hnt, hs, and_self, if_true, if_false, List.append_nil, List.mem_append]
    left
    left
    right
    decide
  · rw [e4, if_pos hs, b2t]
    decide
  · rw [e3, if_pos hs, b1z]
    decide

/-! ### Postconditions of `_rs_rekey` and `_rs_stir` -/

theorem xor_fold (d : Nat → Nat) (r : Nat) (b0 : Nat → Nat) (j : Nat) :
    ((List.range r).foldl (fun b n => Function.update b n (b n ^^^ d n)) b0) j =
      if j < r then b0 j ^^^ d j else b0 j := by
  induction r with
  | zero => simp
  | succ r ih =>
    rw [List.range_succ, List.foldl_append, List.foldl_cons, List.foldl_nil,
      Function.update_apply]
    by_cases h1 : j = r
    · subst h1
      rw [if_pos rfl, ih, if_neg (Nat.lt_irrefl _), if_pos (Nat.lt_succ_self _)]
    · rw [if_neg h1, ih]
      by_cases h2 : j < r
      · have h3 : j < r + 1 := Nat.lt_succ_of_lt h2
        rw [if_pos h2, if_pos h3]
      · have h3 : ¬ j < r + 1 :=
          fun h => h2 (Nat.lt_of_le_of_ne (Nat.le_of_lt_succ h) h1)
        rw [if_neg h2, if_neg h3]

theorem cyclic_fold (r : Nat) (hr : 0 < r) (key : Nat → Nat) (len j : Nat) :
    ((List.range' r len).foldl (fun k n => Function.update k n (k (n % r))) key) j =
      if r ≤ j ∧ j < r + len then key (j % r) else key j := by
  induction len generalizing j with
  | zero =>
    rw [if_neg (by omega)]
    rfl
  | succ len ih =>
    rw [List.range'_1_concat, List.foldl_append, List.foldl_cons, List.foldl_nil,
      Function.update_apply]
    have hmod : (r + len) % r < r := Nat.mod_lt _ hr
    by_cases h1 : j = r + len
    · subst h1
      rw [if_pos rfl, ih, if_neg (by omega), if_pos (by omega)]
    · rw [if_neg h1, ih]
      by_cases h2 : r ≤ j ∧ j < r + len
      · rw [if_pos h2, if_pos (by omega)]
      · rw [if_neg h2, if_neg (by omega)]

/-- The cache after the keystream block is written and `dat` is XORed in, and before
`_rs_init`: the refilled buffer whose first forty bytes are `rekey_key`. -/
theorem rekey_material (dat : Option (Nat → Nat)) (datlen : Nat) (s : State K) :
    (_rs_rekey dat datlen s).rs =
      K.init (bytes (rekey_key K s.rs dat datlen) 0 KEYSZ)
        (bytes (rekey_key K s.rs dat datlen) KEYSZ IVSZ) := by
  have e : ∀ (buf : Nat → Nat) (off len : Nat), off + len ≤ 40 →
      (∀ n, n < 40 → buf n = rekey_key K s.rs dat datlen n) →
      bytes buf off len = bytes (rekey_key K s.rs dat datlen) off len := by
    intro buf off len h hb
    apply List.map_congr_left
    intro a ha
    have := List.mem_range.mp ha
    exact hb (off + a) (by omega)
  cases dat with
  | none =>
    have hb : ∀ n, n < 40 →
        (fun i => if i < RSBUFSZ then K.generate s.rs i else s.rs_buf i) n =
          rekey_key K s.rs none datlen n := by
      intro n hn
      have : n < RSBUFSZ := by rw [RSBUFSZ_eq]; omega
      simp [rekey_key, this]
    simp only [_rs_rekey, _rs_init]
    rw [e _ 0 KEYSZ (by decide) hb, e _ KEYSZ IVSZ (by decide) hb]
  | some d =>
    have hb : ∀ n, n < 40 →
        ((List.range (min datlen (KEYSZ + IVSZ))).foldl
          (fun b n => Function.update b n (b n ^^^ d n))
          (fun i => if i < RSBUFSZ then K.generate s.rs i else s.rs_buf i)) n =
          rekey_key K s.rs (some d) datlen n := by
      intro n hn
      have : n < RSBUFSZ := by rw [RSBUFSZ_eq]; omega
      rw [xor_fold]
      simp [rekey_key, this]
    simp only [_rs_rekey, _rs_init]
    rw [e _ 0 KEYSZ (by decide) hb, e _ KEYSZ IVSZ (by decide) hb]

theorem rekey_buf_tail (dat : Option (Nat → Nat)) (datlen : Nat) (s : State K) (j : Nat)
    (h1 : 40 ≤ j) (h2 : j < 1024) : (_rs_rekey dat datlen s).rs_buf j = K.generate s.rs j := by
  cases dat with
  | none => exact rekey_buf_high datlen s j h1 h2
  | some d =>
    have h3 : ¬ j < 40 := by omega
    have h4 : ¬ j < min datlen (KEYSZ + IVSZ) := by
      simp only [KEYSZ_eq, IVSZ_eq]
      omega
    simp only [_rs_rekey, _rs_init, memset, KEYSZ_eq, IVSZ_eq, Nat.zero_le, Nat.zero_add,
      true_and, h3, if_false]
    rw [xor_fold]
    simp only [KEYSZ_eq, IVSZ_eq] at h4
    simp [h4, RSBUFSZ_eq, h2]

/-- C16. For every state and data `dat` of length `datlen` (or the null pointer), with `ks`
the keystream block of the current context: after `_rs_rekey(dat, datlen)` the context is
`init(k[0..32), k[32..40))` where `k[n] = ks[n] XOR dat[n]` for `n < min(datlen, 40)` and
`k[n] = ks[n]` otherwise (`k = ks` when `dat` is null); `rs_buf[0..40)` is zero;
`rs_buf[40..1024) = ks[40..1024)`; and `rs_have = 984`. -/
theorem rekey_postcondition (dat : Option (Nat → Nat)) (datlen : Nat) (s : State K) :
    (_rs_rekey dat datlen s).rs =
      K.init (bytes (rekey_key K s.rs dat datlen) 0 32)
        (bytes (rekey_key K s.rs dat datlen) 32 8) ∧
    (∀ n, rekey_key K s.rs dat datlen n =
      match dat with
      | some d => if n < min datlen 40 then K.generate s.rs n ^^^ d n else K.generate s.rs n
      | none => K.generate s.rs n) ∧
    (∀ j, j < 40 → (_rs_rekey dat datlen s).rs_buf j = 0) ∧
    (∀ j, 40 ≤ j → j < 1024 → (_rs_rekey dat datlen s).rs_buf j = K.generate s.rs j) ∧
    (_rs_rekey dat datlen s).rs_have = 984 :=
  ⟨rekey_material dat datlen s, fun n => by cases dat <;> rfl,
    fun j hj => rekey_buf_low dat datlen s j hj,
    fun j h1 h2 => rekey_buf_tail dat datlen s j h1 h2, rfl⟩

theorem stir_rs (i : StirInput) (lock : Bool) (s : State K) :
    (_rs_stir i lock s).rs =
      K.init (bytes (rekey_key K s.rs (some (stir_key i)) (KEYSZ + IVSZ)) 0 KEYSZ)
        (bytes (rekey_key K s.rs (some (stir_key i)) (KEYSZ + IVSZ)) KEYSZ IVSZ) := by
  cases lock
  · show (_rs_rekey (some (stir_key i)) (KEYSZ + IVSZ)
      ({ s with trace := s.trace ++ [Event.rs_stir, Event.read_random, Event.nanotime] } :
        State K)).rs = _
    rw [rekey_material]
  · show (_rs_rekey (some (stir_key i)) (KEYSZ + IVSZ)
      ({ s with trace := s.trace ++ [Event.rs_stir, Event.read_random, Event.nanotime] ++
          [Event.mtx_lock] } : State K)).rs = _
    rw [rekey_material]

/-- C14, as amended. For every prior state, every entropy result and every clock value,
after `_rs_stir` returns: `arc4_numruns = 0`; `arc4_t_reseed` is `ts_now.tv_sec + 300`
computed in `time_t`, which is the integer `ts_now.tv_sec + 300` whenever `ts_now.tv_sec`
is a `time_t` value and the sum is at most `2^63 - 1`; `rs_count = 1600000`, `rs_have = 0`,
every byte of `rs_buf` is zero, and the cipher context is the one initialised from the
first 40 bytes of a fresh keystream block of the prior context XORed with the 40-byte
seed. -/
theorem stir_postcondition (i : StirInput) (lock : Bool) (s : State K) :
    (_rs_stir i lock s).arc4_numruns = 0 ∧
    (_rs_stir i lock s).arc4_t_reseed = to_time_t (i.ts_now.tv_sec + 300) ∧
    (-2 ^ 63 ≤ i.ts_now.tv_sec → i.ts_now.tv_sec + 300 < 2 ^ 63 →
      (_rs_stir i lock s).arc4_t_reseed = i.ts_now.tv_sec + 300) ∧
    (_rs_stir i lock s).rs_count = 1600000 ∧
    (_rs_stir i lock s).rs_have = 0 ∧
    (∀ j, j < RSBUFSZ → (_rs_stir i lock s).rs_buf j = 0) ∧
    (_rs_stir i lock s).rs =
      K.init (bytes (fun n => K.generate s.rs n ^^^ stir_key i n) 0 32)
        (bytes (fun n => K.generate s.rs n ^^^ stir_key i n) 32 8) := by
  refine ⟨stir_numruns i lock s, stir_t_reseed i lock s,
    fun h1 h2 => by rw [stir_t_reseed, to_time_t_of_range _ (by omega) h2],
    stir_rs_count i lock s, stir_rs_have i lock s, fun j hj => stir_buf i lock s j hj, ?_⟩
  rw [stir_rs]
  have e : ∀ off len, off + len ≤ 40 →
      bytes (rekey_key K s.rs (some (stir_key i)) (KEYSZ + IVSZ)) off len =
        bytes (fun n => K.generate s.rs n ^^^ stir_key i n) off len := by
    intro off len h
    apply List.map_congr_left
    intro a ha
    have := List.mem_range.mp ha
    have h2 : off + a < min (KEYSZ + IVSZ) (KEYSZ + IVSZ) := by
      simp only [KEYSZ_eq, IVSZ_eq, Nat.min_self]
      omega
    simp only [rekey_key, h2, if_true]
  rw [e 0 KEYSZ (by decide), e KEYSZ IVSZ (by decide)]
  rfl

/-- Witness for C14 as amended: `_rs_stir(0)` on the load-time state with the clock at
1000 seconds, where the deadline is the exact sum 1300. -/
theorem stir_postcondition_witness :
    -2 ^ 63 ≤ stir32.ts_now.tv_sec ∧ stir32.ts_now.tv_sec + 300 < 2 ^ 63 ∧
    (_rs_stir stir32 false (State.initial toyKS)).arc4_t_reseed =
      stir32.ts_now.tv_sec + 300 :=
  ⟨by decide, by decide,
    (stir_postcondition stir32 false (State.initial toyKS)).2.2.1 (by decide) (by decide)⟩

/-- C14, the claim as written fails. With the clock at `2^63 - 1` seconds, the last value
`time_t` can hold, the sum `ts_now.tv_sec + 300` wraps: `_rs_stir` leaves
`arc4_t_reseed = -9223372036854775509`, not `ts_now.tv_sec + 300 = 9223372036854776107`;
the other postconditions hold as claimed. -/
theorem stir_deadline_wraps :
    stir32_last.ts_now.tv_sec = 2 ^ 63 - 1 ∧
    (_rs_stir stir32_last false (State.initial toyKS)).arc4_t_reseed = -9223372036854775509 ∧
    (_rs_stir stir32_last false (State.initial toyKS)).arc4_t_reseed ≠
      stir32_last.ts_now.tv_sec + 300 ∧
    (_rs_stir stir32_last false (State.initial toyKS)).arc4_numruns = 0 ∧
    (_rs_stir stir32_last false (State.initial toyKS)).rs_count = 1600000 := by
  refine ⟨by decide, ?_, ?_, stir_numruns _ _ _, stir_rs_count _ _ _⟩
  · rw [stir_t_reseed]
    decide
  · rw [stir_t_reseed]
    decide

/-! ### The seed of a reseed -/

theorem stir_key_xor (i : StirInput) (key1 : Nat → Nat) (n : Nat) :
    ((List.range i.ts_now.bytes.length).foldl
      (fun k n => Function.update k n (k n ^^^ i.ts_now.bytes.getD n 0)) key1) n =
      key1 n ^^^ (if n < i.ts_now.bytes.length then i.ts_now.bytes.getD n 0 else 0) := by
  have h := xor_fold (fun n => i.ts_now.bytes.getD n 0) i.ts_now.bytes.length key1 n
  simp only [] at h
  rw [h]
  split_ifs
  · rfl
  · rw [Nat.xor_zero]

/-- C15. For every `n < 40`, the seed that `_rs_stir` passes to `_rs_seed` is, when the
entropy source returned `r > 0` bytes `e[0..r)` (the first `r` bytes of `key`),
`key[n] = e[n mod r] XOR (t[n] if n < T, else 0)` with `t[0..T)` the bytes of the timestamp;
when `r ≤ 0` it is the prior content of `key[n]` with the same timestamp XOR applied. -/
theorem stir_key_formula (i : StirInput) (n : Nat) (hn : n < 40) :
    (0 < i.r →
      stir_key i n =
        i.key (n % i.r.toNat) ^^^
          (if n < i.ts_now.bytes.length then i.ts_now.bytes.getD n 0 else 0)) ∧
    (i.r ≤ 0 →
      stir_key i n =
        i.key n ^^^ (if n < i.ts_now.bytes.length then i.ts_now.bytes.getD n 0 else 0)) := by
  constructor
  · intro hr
    have hpos : 0 < i.r.toNat := by omega
    unfold stir_key
    simp only [gt_iff_lt, hr, if_true]
    rw [stir_key_xor, cyclic_fold _ hpos]
    by_cases h1 : i.r.toNat ≤ n
    · rw [if_pos ⟨h1, by simp only [KEYSZ_eq, IVSZ_eq]; omega⟩]
    · have h2 : n % i.r.toNat = n := Nat.mod_eq_of_lt (by omega)
      rw [if_neg (fun h => h1 h.1), h2]
  · intro hr
    have hn0 : ¬ i.r > 0 := by omega
    unfold stir_key
    simp only [hn0, if_false]
    rw [stir_key_xor]

/-- Witness for C15: byte 35 of the seed built from the entropy read `stir32`. -/
theorem stir_key_formula_witness :
    35 < 40 ∧
    (0 < stir32.r →
      stir_key stir32 35 =
        stir32.key (35 % stir32.r.toNat) ^^^
          (if 35 < stir32.ts_now.bytes.length then stir32.ts_now.bytes.getD 35 0 else 0)) ∧
    (stir32.r ≤ 0 →
      stir_key stir32 35 =
        stir32.key 35 ^^^
          (if 35 < stir32.ts_now.bytes.length then stir32.ts_now.bytes.getD 35 0 else 0)) :=
  ⟨by decide, stir_key_formula stir32 35 (by decide)⟩

/-! ### The countdown and `rs_initialized` -/

theorem body_initialized (l l1 : BufLoop K) (h : l.s.rs_initialized = true)
    (hb : _rs_random_buf_body l = some l1) : l1.s.rs_initialized = true := by
  rcases body_cases l l1 hb with ⟨_, rfl⟩ | ⟨_, _, _, rfl⟩ | ⟨_, _, _, rfl⟩
  · exact h
  · exact h
  · exact h

theorem random_buf_initialized (i : StirInput) (ptr : Nat → Nat) (n : Nat) (s s1 : State K)
    (out : Nat → Nat) (h : _rs_random_buf i ptr n s = some (s1, out)) :
    s1.rs_initialized = true := by
  unfold _rs_random_buf at h
  cases hl : _rs_random_buf_loop
      ({ s := _rs_stir_if_needed i n s, out := ptr, buf := 0, n := n } : BufLoop K) with
  | none => simp [hl] at h
  | some l2 =>
    simp only [hl, Option.map_some', Option.some.injEq, Prod.mk.injEq] at h
    obtain ⟨rfl, _⟩ := h
    exact (loop_inv_rule (fun l => l.s.rs_initialized = true)
      (fun l l1 hp _ hb => body_initialized l l1 hp hb) _ l2
      (stir_if_needed_scalars i n s).1 hl).1

theorem arc4rand_initialized (ts : timespec) (i1 i2 : StirInput) (ptr : Nat → Nat) (len : Nat)
    (reseed : Int) (s s1 : State K) (out : Nat → Nat)
    (h : arc4rand ts i1 i2 ptr len reseed s = some (s1, out)) : s1.rs_initialized = true := by
  unfold arc4rand at h
  cases hr : _rs_random_buf i2 ptr len (arc4rand_locked ts i1 len reseed s) with
  | none => simp [hr] at h
  | some p =>
    obtain ⟨s2, o2⟩ := p
    simp only [hr, Option.map_some', Option.some.injEq, Prod.mk.injEq] at h
    obtain ⟨rfl, _⟩ := h
    exact random_buf_initialized i2 ptr len _ s2 o2 hr

theorem u32_ready_initialized (i : StirInput) (s : State K) :
    (u32_ready i s).rs_initialized = true := by
  unfold u32_ready
  have h := (stir_if_needed_scalars i 4 s).1
  by_cases hlt : (_rs_stir_if_needed i 4 s).rs_have < 4
  · simp only [hlt, if_true]
    exact h
  · simp only [hlt, if_false]
    exact h

theorem arc4random_initialized (i : StirInput) (s s1 : State K) (val : List Nat)
    (h : arc4random i s = some (s1, val)) : s1.rs_initialized = true := by
  unfold arc4random _rs_random_u32 at h
  have hi := u32_ready_initialized i ({ s with trace := s.trace ++ [Event.mtx_lock] } : State K)
  generalize u32_ready i ({ s with trace := s.trace ++ [Event.mtx_lock] } : State K) = t at h hi
  by_cases hc : 4 ≤ t.rs_have ∧ t.rs_have ≤ RSBUFSZ
  · simp only [hc, and_self, if_true, Option.map_some', Option.some.injEq, Prod.mk.injEq] at h
    obtain ⟨rfl, _⟩ := h
    exact hi
  · simp [hc] at h

/-- C17. For every state and length `len`, after `_rs_stir_if_needed(len)`: if
`rs_initialized` was 0 then `rs_count = 1024*1024*1024`; otherwise if `rs_count ≤ len` then
`rs_count = 1600000`; otherwise `rs_count` is its old value minus `len`, without wrapping,
with `rs_have`, `rs_buf` and the cipher context unchanged. In every case `rs_initialized`
is 1 afterwards, and none of `_rs_rekey`, `_rs_seed`, `_rs_stir`, `arc4_init`, `arc4rand`
and `arc4random` sets it back to 0. -/
theorem stir_if_needed_countdown (i : StirInput) (len : Nat) (s : State K) :
    (s.rs_initialized = false →
      (_rs_stir_if_needed i len s).rs_count = 1024 * 1024 * 1024) ∧
    (s.rs_initialized = true → s.rs_count ≤ len →
      (_rs_stir_if_needed i len s).rs_count = 1600000) ∧
    (s.rs_initialized = true → len < s.rs_count →
      ((_rs_stir_if_needed i len s).rs_count : Int) = (s.rs_count : Int) - (len : Int) ∧
      (_rs_stir_if_needed i len s).rs_have = s.rs_have ∧
      (_rs_stir_if_needed i len s).rs_buf = s.rs_buf ∧
      (_rs_stir_if_needed i len s).rs = s.rs) ∧
    (_rs_stir_if_needed i len s).rs_initialized = true ∧
    (∀ (d : Option (Nat → Nat)) (n : Nat) (t : State K),
      (_rs_rekey d n t).rs_initialized = t.rs_initialized) ∧
    (∀ (b : Nat → Nat) (n : Nat) (t : State K),
      (_rs_seed b n t).rs_initialized = t.rs_initialized) ∧
    (∀ (j : StirInput) (lock : Bool) (t : State K),
      (_rs_stir j lock t).rs_initialized = t.rs_initialized) ∧
    (∀ (j : StirInput) (t : State K), (arc4_init j t).rs_initialized = t.rs_initialized) ∧
    (∀ (ts : timespec) (i1 i2 : StirInput) (ptr : Nat → Nat) (n : Nat) (reseed : Int)
      (t t1 : State K) (out : Nat → Nat),
      arc4rand ts i1 i2 ptr n reseed t = some (t1, out) → t1.rs_initialized = true) ∧
    ∀ (j : StirInput) (t t1 : State K) (val : List Nat),
      arc4random j t = some (t1, val) → t1.rs_initialized = true := by
  obtain ⟨d1, _, _, d4⟩ := stir_if_needed_scalars i len s
  refine ⟨?_, ?_, ?_, d1, fun _ _ _ => rfl, fun _ _ _ => rfl,
    fun j lock t => (stir_frame j lock t).2, fun j t => (stir_frame j true t).2,
    fun ts i1 i2 ptr n reseed t t1 out h => arc4rand_initialized ts i1 i2 ptr n reseed t t1 out h,
    fun j t t1 val h => arc4random_initialized j t t1 val h⟩
  · intro h
    rw [d4, if_pos h]
  · intro h1 h2
    rw [d4, if_neg (by simp [h1]), if_pos h2]
  · intro h1 h2
    have h3 : ¬ s.rs_count ≤ len := by omega
    refine ⟨?_, ?_, ?_, ?_⟩
    · rw [d4, if_neg (by simp [h1]), if_neg h3]
      omega
    · simp [_rs_stir_if_needed, h1, h3]
    · simp [_rs_stir_if_needed, h1, h3]
    · simp [_rs_stir_if_needed, h1, h3]

/-- Witness for C17: a request of 8 bytes on `toy_seeded`, an initialised generator whose
countdown is 1600000. -/
theorem stir_if_needed_countdown_witness :
    toy_seeded.rs_initialized = true ∧ 8 < toy_seeded.rs_count ∧
    ((_rs_stir_if_needed stir32 8 toy_seeded).rs_count : Int) =
      (toy_seeded.rs_count : Int) - ((8 : Nat) : Int) ∧
    (_rs_stir_if_needed stir32 8 toy_seeded).rs_have = toy_seeded.rs_have ∧
    (_rs_stir_if_needed stir32 8 toy_seeded).rs_buf = toy_seeded.rs_buf ∧
    (_rs_stir_if_needed stir32 8 toy_seeded).rs = toy_seeded.rs := by
  have hi := toy_seeded_scalars.2.2.2.2.1
  have hc : 8 < toy_seeded.rs_count := by rw [toy_seeded_scalars.2.1]; decide
  exact ⟨hi, hc, (stir_if_needed_countdown stir32 8 toy_seeded).2.2.1 hi hc⟩

/-! ### Number of reseeds in one call -/

/-- How many times one call of `arc4rand` runs `_rs_stir`: once at the head if its condition
holds, and once more from `_rs_stir_if_needed` if the generator is initialised and the
countdown, which a reseed at the head has just set to 1600000, is at most `len`. -/
theorem arc4rand_stir_count (ts : timespec) (i1 i2 : StirInput) (ptr : Nat → Nat) (len : Nat)
    (reseed : Int) (s : State K) (h : s.rs_have ≤ RSBUFSZ) :
    ∃ (s1 : State K) (out : Nat → Nat) (evs : List Event),
      arc4rand ts i1 i2 ptr len reseed s = some (s1, out) ∧ s1.trace = s.trace ++ evs ∧
      evs.count Event.rs_stir =
        (if arc4rand_trigger ts reseed s then 1 else 0) +
          (if s.rs_initialized = true ∧
              (if arc4rand_trigger ts reseed s then 1600000 else s.rs_count) ≤ len
            then 1 else 0) ∧
      s1.rs_count =
        (if s.rs_initialized = false then 1024 * 1024 * 1024
          else if (if arc4rand_trigger ts reseed s then 1600000 else s.rs_count) ≤ len
            then 1600000
          else (if arc4rand_trigger ts reseed s then 1600000 else s.rs_count) - len) := by
  obtain ⟨s1, out, evs, hr, _, hserv, htr, _, _, _, _, e5⟩ :=
    arc4rand_scalars ts i1 i2 ptr len reseed s h
  obtain ⟨_, _, l3, l4, _⟩ := locked_scalars ts i1 len reseed s
  rw [l3, l4] at htr e5
  obtain ⟨_, _, hcs⟩ := serving_not_stir evs hserv
  refine ⟨s1, out, _, hr, htr, ?_, e5⟩
  have c1 : ∀ c : Prop, ∀ [Decidable c],
      (if c then stir_events false else []).count Event.rs_stir = if c then 1 else 0 := by
    intro c _
    split_ifs
    · exact count_stir_events false
    · rfl
  simp only [List.count_append, c1, hcs]
  have c2 : [Event.nanotime].count Event.rs_stir = 0 := by decide
  have c3 : [Event.mtx_lock].count Event.rs_stir = 0 := by decide
  have c4 : [Event.mtx_unlock].count Event.rs_stir = 0 := by decide
  rw [c2, c3, c4]
  omega

/-- C18, as amended. A single `arc4rand` call runs `_rs_stir` at most twice: once at the
head when one of triggers 1 to 4 fires, and once from `_rs_stir_if_needed` when the
generator is initialised and the countdown is at most `len`. When a trigger fires on an
initialised generator the later rules are still applied to the countdown the reseed has
set: `rs_count` is `1600000 - len` when the call returns if `len < 1600000`, and 1600000,
after a second reseed, otherwise. -/
theorem arc4rand_at_most_two_reseeds (ts : timespec) (i1 i2 : StirInput) (ptr : Nat → Nat)
    (len : Nat) (reseed : Int) (s : State K) (h : s.rs_have ≤ RSBUFSZ) :
    ∃ (s1 : State K) (out : Nat → Nat) (evs : List Event),
      arc4rand ts i1 i2 ptr len reseed s = some (s1, out) ∧ s1.trace = s.trace ++ evs ∧
      evs.count Event.rs_stir ≤ 2 ∧
      (arc4rand_trigger ts reseed s → s.rs_initialized = true →
        (evs.count Event.rs_stir = 2 ↔ 1600000 ≤ len) ∧
        s1.rs_count = (if len < 1600000 then 1600000 - len else 1600000)) := by
  obtain ⟨s1, out, evs, hr, htr, hc, hrc⟩ := arc4rand_stir_count ts i1 i2 ptr len reseed s h
  refine ⟨s1, out, evs, hr, htr, ?_, ?_⟩
  · rw [hc]
    split_ifs <;> omega
  · intro ht hi
    simp only [ht, hi, if_true, true_and] at hc hrc
    constructor
    · rw [hc]
      split_ifs <;> omega
    · rw [hrc, if_neg (by simp)]
      split_ifs <;> omega

/-- Witness for C18 as amended: a call with the reseed flag set on `toy_seeded`, an
initialised generator. -/
theorem arc4rand_at_most_two_reseeds_witness :
    toy_seeded.rs_have ≤ RSBUFSZ ∧ arc4rand_trigger ts1000 1 toy_seeded ∧
    toy_seeded.rs_initialized = true ∧
    ∃ (s1 : State toyKS) (out : Nat → Nat) (evs : List Event),
      arc4rand ts1000 stir32 stir32 (fun _ => 0) 8 1 toy_seeded = some (s1, out) ∧
      s1.trace = toy_seeded.trace ++ evs ∧
      evs.count Event.rs_stir ≤ 2 ∧
      (arc4rand_trigger ts1000 1 toy_seeded → toy_seeded.rs_initialized = true →
        (evs.count Event.rs_stir = 2 ↔ 1600000 ≤ 8) ∧
        s1.rs_count = (if 8 < 1600000 then 1600000 - 8 else 1600000)) :=
  ⟨toy_seeded_scalars.2.2.2.2.2, Or.inr (Or.inl (by decide)), toy_seeded_scalars.2.2.2.2.1,
    arc4rand_at_most_two_reseeds ts1000 stir32 stir32 (fun _ => 0) 8 1 toy_seeded
      toy_seeded_scalars.2.2.2.2.2⟩

/-- C18, the claim as written fails. On `toy_seeded`, an initialised generator, the call
`arc4rand(ptr, 1, 1)` fires trigger 2 and returns with `rs_count = 1599999`, not 1600000;
and the call `arc4rand(ptr, 1600000, 1)` runs `_rs_stir` twice. -/
theorem two_reseeds_in_one_call :
    toy_seeded.rs_initialized = true ∧ arc4rand_trigger ts1000 1 toy_seeded ∧
    (∃ (s1 : State toyKS) (out : Nat → Nat),
      arc4rand ts1000 stir32 stir32 (fun _ => 0) 1 1 toy_seeded = some (s1, out) ∧
      s1.rs_count = 1599999) ∧
    ∃ (s2 : State toyKS) (out2 : Nat → Nat) (evs : List Event),
      arc4rand ts1000 stir32 stir32 (fun _ => 0) 1600000 1 toy_seeded = some (s2, out2) ∧
      s2.trace = toy_seeded.trace ++ evs ∧ evs.count Event.rs_stir = 2 := by
  obtain ⟨_, _, _, _, b4, b5⟩ := toy_seeded_scalars
  have ht : arc4rand_trigger ts1000 1 toy_seeded := Or.inr (Or.inl (by decide))
  refine ⟨b4, ht, ?_, ?_⟩
  · obtain ⟨s1, out, _, hr, _, _, hrc⟩ :=
      arc4rand_stir_count ts1000 stir32 stir32 (fun _ => 0) 1 1 toy_seeded b5
    refine ⟨s1, out, hr, ?_⟩
    rw [hrc]
    simp only [ht, b4, if_true]
    decide
  · obtain ⟨s2, out2, evs, hr, htr, hc, _⟩ :=
      arc4rand_stir_count ts1000 stir32 stir32 (fun _ => 0) 1600000 1 toy_seeded b5
    refine ⟨s2, out2, evs, hr, htr, ?_⟩
    rw [hc]
    simp only [ht, b4, if_true]
    decide

/-! ### The byte-volume counter -/

theorem arc4random_rs_count (i : StirInput) (s s1 : State K) (val : List Nat)
    (h : arc4random i s = some (s1, val)) :
    s1.rs_count =
      (if s.rs_initialized = false then 1024 * 1024 * 1024
        else if s.rs_count ≤ 4 then 1600000 else s.rs_count - 4) := by
  have hc : (u32_ready i ({ s with trace := s.trace ++ [Event.mtx_lock] } : State K)).rs_count =
      (if s.rs_initialized = false then 1024 * 1024 * 1024
        else if s.rs_count ≤ 4 then 1600000 else s.rs_count - 4) := by
    have d4 := (stir_if_needed_scalars i 4
      ({ s with trace := s.trace ++ [Event.mtx_lock] } : State K)).2.2.2
    simp only [] at d4
    unfold u32_ready
    by_cases hlt : (_rs_stir_if_needed i 4
        ({ s with trace := s.trace ++ [Event.mtx_lock] } : State K)).rs_have < 4
    · simp only [hlt, if_true]
      exact d4
    · simp only [hlt, if_false]
      exact d4
  unfold arc4random _rs_random_u32 at h
  generalize u32_ready i ({ s with trace := s.trace ++ [Event.mtx_lock] } : State K) = t at h hc
  by_cases hq : 4 ≤ t.rs_have ∧ t.rs_have ≤ RSBUFSZ
  · simp only [hq, and_self, if_true, Option.map_some', Option.some.injEq, Prod.mk.injEq] at h
    obtain ⟨rfl, _⟩ := h
    exact hc
  · simp [hq] at h

/-- In every reachable state the countdown is at most `1024 * 1024 * 1024`. -/
theorem reachable_rs_count (s : State K) (h : Reachable s) : s.rs_count ≤ 1024 * 1024 * 1024 := by
  induction h with
  | initial => simp [State.initial]
  | arc4_init i s _ _ =>
    show (_rs_stir i true s).rs_count ≤ _
    rw [stir_rs_count]
    decide
  | rs_stir i lock s _ _ =>
    rw [stir_rs_count]
    decide
  | arc4rand ts i1 i2 ptr len reseed s s1 out hs hr ih =>
    obtain ⟨s1b, outb, _, hrb, _, _, hrc⟩ :=
      arc4rand_stir_count ts i1 i2 ptr len reseed s (ginv_rs_have_le s (reachable_ginv s hs))
    rw [hr] at hrb
    simp only [Option.some.injEq, Prod.mk.injEq] at hrb
    obtain ⟨rfl, _⟩ := hrb
    rw [hrc]
    split_ifs <;> omega
  | arc4random i s s1 val _ hr ih =>
    rw [arc4random_rs_count i s s1 val hr]
    split_ifs <;> omega
  | host_signal e s _ ih => exact ih

/-- C20, as amended. For every reachable state of an initialised generator with
`0 ≤ arc4_numruns` and every `len`, after an `arc4rand` call in which no reseed occurs (the
head condition is false and `len < rs_count`), `arc4_numruns` equals its previous value
plus `len` as integers; hence once that sum is above 65536 the test
`arc4_numruns > ARC4_RESEED_BYTES` holds on the next call. -/
theorem numruns_adds_len (ts : timespec) (i1 i2 : StirInput) (ptr : Nat → Nat) (len : Nat)
    (reseed : Int) (s : State K) (hr : Reachable s) (hi : s.rs_initialized = true)
    (h0 : 0 ≤ s.arc4_numruns) (hnt : ¬ arc4rand_trigger ts reseed s) (hc : len < s.rs_count) :
    ∃ (s1 : State K) (out : Nat → Nat) (evs : List Event),
      arc4rand ts i1 i2 ptr len reseed s = some (s1, out) ∧ s1.trace = s.trace ++ evs ∧
      ¬ Event.rs_stir ∈ evs ∧
      s1.arc4_numruns = s.arc4_numruns + (len : Int) ∧
      (65536 < s.arc4_numruns + (len : Int) →
        s1.arc4_numruns > ARC4_RESEED_BYTES ∧
        ∀ (ts2 : timespec) (reseed2 : Int), arc4rand_trigger ts2 reseed2 s1) := by
  have hh := ginv_rs_have_le s (reachable_ginv s hr)
  have hq : ({ ts := ts, i1 := i1, i2 := i2, ptr := ptr, len := len, reseed := reseed } :
      Call).quiet s (run_call
        { ts := ts, i1 := i1, i2 := i2, ptr := ptr, len := len, reseed := reseed } s) :=
    quiet_run_call _ s hh hnt hi hc
  have hcount := reachable_rs_count s hr
  have hn : s.arc4_numruns ≤ 65536 := by
    by_contra hcon
    exact hnt (Or.inr (Or.inr (Or.inl (by
      show s.arc4_numruns > 65536
      omega))))
  have hb : s.arc4_numruns + (s.rs_count : Int) < 2 ^ 31 := by
    have : (s.rs_count : Int) ≤ 1024 * 1024 * 1024 := by exact_mod_cast hcount
    omega
  obtain ⟨e1, _, _, _, _, _, evs, e7, e8⟩ := quiet_effect _ s _ hq hh h0 hb
  obtain ⟨_, _, _, out, hrun⟩ := hq
  refine ⟨_, out, evs, hrun, e7, e8, e1, ?_⟩
  intro hgt
  have hgt2 : (run_call
      { ts := ts, i1 := i1, i2 := i2, ptr := ptr, len := len, reseed := reseed } s).arc4_numruns >
      ARC4_RESEED_BYTES := by
    rw [e1]
    exact hgt
  exact ⟨hgt2, fun ts2 reseed2 => Or.inr (Or.inr (Or.inl hgt2))⟩

/-- Witness for C20 as amended: a request of 100 bytes on `toy_seeded`. -/
theorem numruns_adds_len_witness :
    Reachable toy_seeded ∧ toy_seeded.rs_initialized = true ∧ 0 ≤ toy_seeded.arc4_numruns ∧
    ¬ arc4rand_trigger ts1000 0 toy_seeded ∧ 100 < toy_seeded.rs_count ∧
    ∃ (s1 : State toyKS) (out : Nat → Nat) (evs : List Event),
      arc4rand ts1000 stir32 stir32 (fun _ => 0) 100 0 toy_seeded = some (s1, out) ∧
      s1.trace = toy_seeded.trace ++ evs ∧ ¬ Event.rs_stir ∈ evs ∧
      s1.arc4_numruns = toy_seeded.arc4_numruns + ((100 : Nat) : Int) ∧
      (65536 < toy_seeded.arc4_numruns + ((100 : Nat) : Int) →
        s1.arc4_numruns > ARC4_RESEED_BYTES ∧
        ∀ (ts2 : timespec) (reseed2 : Int), arc4rand_trigger ts2 reseed2 s1) := by
  obtain ⟨b1z, b3c, b2t, b6n, b4, _⟩ := toy_seeded_scalars
  have hnt : ¬ arc4rand_trigger ts1000 0 toy_seeded := by
    unfold arc4rand_trigger
    rw [b6n, b1z, b2t]
    decide
  have h0 : 0 ≤ toy_seeded.arc4_numruns := by rw [b1z]
  have hc : 100 < toy_seeded.rs_count := by rw [b3c]; decide
  exact ⟨toy_seeded_reachable, b4, h0, hnt, hc,
    numruns_adds_len ts1000 stir32 stir32 (fun _ => 0) 100 0 toy_seeded toy_seeded_reachable b4
      h0 hnt hc⟩

/-- C20, the claim as written fails. On the load-time state (`arc4_numruns = 0`, generator
not yet initialised) with the clock at zero seconds, `arc4rand(ptr, 2147483648, 0)` runs no
reseed and leaves `arc4_numruns = -2147483648`, not `0 + 2147483648`; the test
`arc4_numruns > ARC4_RESEED_BYTES` is then false although more than 65536 bytes were
requested since the last reseed. -/
theorem numruns_wraps_negative :
    0 ≤ (State.initial toyKS).arc4_numruns ∧
    ∃ (s1 : State toyKS) (out : Nat → Nat) (evs : List Event),
      arc4rand ts_zero stir32 stir32 (fun _ => 0) 2147483648 0 (State.initial toyKS) =
        some (s1, out) ∧
      s1.trace = (State.initial toyKS).trace ++ evs ∧ ¬ Event.rs_stir ∈ evs ∧
      s1.arc4_numruns = -2147483648 ∧
      s1.arc4_numruns ≠ (State.initial toyKS).arc4_numruns + ((2147483648 : Nat) : Int) ∧
      ¬ s1.arc4_numruns > ARC4_RESEED_BYTES := by
  have hnt : ¬ arc4rand_trigger ts_zero 0 (State.initial toyKS) := by decide
  obtain ⟨s1, out, evs, hr, _, hserv, htr, _, _, e3, _, _⟩ :=
    arc4rand_scalars ts_zero stir32 stir32 (fun _ => 0) 2147483648 0 (State.initial toyKS)
      (by decide)
  obtain ⟨l1, _, _, l4, _⟩ := locked_scalars ts_zero stir32 2147483648 0 (State.initial toyKS)
  have hns : ¬ ((arc4rand_locked ts_zero stir32 2147483648 0
      (State.initial toyKS)).rs_initialized = true ∧
      (arc4rand_locked ts_zero stir32 2147483648 0 (State.initial toyKS)).rs_count ≤
        2147483648) := by
    rw [l4]
    simp [State.initial]
  have hv : s1.arc4_numruns = -2147483648 := by
    rw [e3, if_neg hns, l1, if_neg hnt]
    decide
  refine ⟨by decide, s1, out, _, hr, htr, ?_, hv, ?_, ?_⟩
  · simp only [hnt, hns, if_false, List.append_nil, List.mem_append, List.mem_singleton,
      List.mem_cons, List.not_mem_nil, or_false, not_or]
    exact ⟨⟨⟨by simp, by simp⟩, (serving_not_stir evs hserv).1⟩, by simp⟩
  · rw [hv]
    decide
  · rw [hv]
    decide

/-! ### Lock discipline -/

/-- When the condition at the head of `arc4rand` holds, the call logs the reseed, with its
refill of the cache, before `mtx_lock`. -/
theorem head_reseed_unlocked (ts : timespec) (i1 i2 : StirInput) (ptr : Nat → Nat) (len : Nat)
    (reseed : Int) (s : State K) (h : s.rs_have ≤ RSBUFSZ)
    (ht : arc4rand_trigger ts reseed s) :
    ∃ (s1 : State K) (out : Nat → Nat) (rest : List Event),
      arc4rand ts i1 i2 ptr len reseed s = some (s1, out) ∧
      s1.trace = s.trace ++
        ([Event.nanotime, Event.rs_stir, Event.read_random, Event.nanotime, Event.rs_rekey,
          Event.mtx_lock] ++ rest) ∧
      writes_locked false
        ([Event.nanotime, Event.rs_stir, Event.read_random, Event.nanotime, Event.rs_rekey,
          Event.mtx_lock] ++ rest) = false := by
  obtain ⟨s1, out, evs, hr, _, _, htr, _⟩ := arc4rand_scalars ts i1 i2 ptr len reseed s h
  refine ⟨s1, out,
    (if (arc4rand_locked ts i1 len reseed s).rs_initialized = true ∧
        (arc4rand_locked ts i1 len reseed s).rs_count ≤ len then stir_events false else []) ++
      evs ++ [Event.mtx_unlock], hr, ?_, ?_⟩
  · rw [htr, if_pos ht]
    have e : stir_events false =
        [Event.rs_stir, Event.read_random, Event.nanotime, Event.rs_rekey] := rfl
    generalize (if (arc4rand_locked ts i1 len reseed s).rs_initialized = true ∧
        (arc4rand_locked ts i1 len reseed s).rs_count ≤ len then stir_events false else []) = b
    rw [e]
    simp
  · simp [writes_locked]

/-- C12, what the code does instead. On `toy_seeded` the call `arc4rand(ptr, 8, 1)` runs
`_rs_stir(0)` at its head: the log of the call starts with `nanotime`, the entry of
`_rs_stir`, `read_random`, `nanotime` and the refill of the cache by `_rs_rekey`, and only
then `mtx_lock`; the state after the head, reached without the mutex, already has
`rs_count = 1600000` and `rs_have = 0`. -/
theorem arc4rand_reseeds_before_lock :
    (arc4rand_head ts1000 stir32 1 toy_seeded).rs_count = 1600000 ∧
    (arc4rand_head ts1000 stir32 1 toy_seeded).rs_have = 0 ∧
    (arc4rand_head ts1000 stir32 1 toy_seeded).trace =
      toy_seeded.trace ++
        [Event.nanotime, Event.rs_stir, Event.read_random, Event.nanotime, Event.rs_rekey] ∧
    ∃ (s1 : State toyKS) (out : Nat → Nat) (rest : List Event),
      arc4rand ts1000 stir32 stir32 (fun _ => 0) 8 1 toy_seeded = some (s1, out) ∧
      s1.trace = toy_seeded.trace ++
        ([Event.nanotime, Event.rs_stir, Event.read_random, Event.nanotime, Event.rs_rekey,
          Event.mtx_lock] ++ rest) ∧
      writes_locked false
        ([Event.nanotime, Event.rs_stir, Event.read_random, Event.nanotime, Event.rs_rekey,
          Event.mtx_lock] ++ rest) = false := by
  obtain ⟨_, _, _, _, _, b5⟩ := toy_seeded_scalars
  have ht : arc4rand_trigger ts1000 1 toy_seeded := Or.inr (Or.inl (by decide))
  refine ⟨?_, ?_, ?_,
    head_reseed_unlocked ts1000 stir32 stir32 (fun _ => 0) 8 1 toy_seeded b5 ht⟩
  · rw [(head_scalars ts1000 stir32 1 toy_seeded).2.2.1, if_pos ht]
  · have := locked_rs_have ts1000 stir32 8 1 toy_seeded
    rw [if_pos ht] at this
    exact this
  · rw [head_trace, if_pos ht]
    simp [stir_events]

/-! ### The layout of the keystream block -/

theorem servedOnce_snoc (t : List Event) (e : Event) (h : ServedOnce t)
    (hn : (served_since_rekey (t ++ [e])).Nodup) : ServedOnce (t ++ [e]) := by
  intro p hp
  rcases List.prefix_concat_iff.mp hp with h2 | h2
  · rw [h2]
    exact hn
  · exact h p h2

theorem servedOnce_quiet (t : List Event) (e : Event) (h : ServedOnce t)
    (h2 : ∀ a b c, e ≠ Event.copy_out a b c) : ServedOnce (t ++ [e]) := by
  apply servedOnce_snoc t e h
  rw [served_snoc]
  have ht := h t (List.prefix_refl t)
  cases e with
  | copy_out a b c => exact absurd rfl (h2 a b c)
  | rs_rekey => exact List.nodup_nil
  | read_random => exact ht
  | nanotime => exact ht
  | mtx_lock => exact ht
  | mtx_unlock => exact ht
  | rs_stir => exact ht

theorem servedOnce_append (t es : List Event) (h : ServedOnce t)
    (h2 : ∀ e, e ∈ es → ∀ a b c, e ≠ Event.copy_out a b c) : ServedOnce (t ++ es) := by
  induction es using List.reverseRecOn with
  | nil => simpa using h
  | append_singleton es e ih =>
    rw [← List.append_assoc]
    exact servedOnce_quiet _ e (ih fun x hx => h2 x (List.mem_append_left _ hx))
      (h2 e (by simp))

theorem blockInv_empty (s : State K) (h : s.rs_have = 0) : BlockInv s :=
  ⟨fun hp => absurd h (Nat.pos_iff_ne_zero.mp hp),
    s.rs, fun hp => absurd h (Nat.pos_iff_ne_zero.mp hp), fun i h1 h2 => by
      rw [h] at h1
      omega⟩

theorem blockInv_rekey (n : Nat) (s : State K) (hi : s.rs_initialized = true) :
    BlockInv (_rs_rekey none n s) :=
  ⟨fun _ => hi, s.rs, fun _ => rekey_rs n s, fun i h1 h2 => by
    rw [rekey_rs_have, RSBUFSZ_eq] at h1
    rw [RSBUFSZ_eq] at h2
    exact rekey_buf_high n s i (by omega) h2⟩

theorem blockInv_serve (l : BufLoop K) (h : BlockInv l.s) (hle : l.s.rs_have ≤ RSBUFSZ) :
    BlockInv (serve_block l).s := by
  obtain ⟨b1, c, b2, b3⟩ := h
  have hm2 : min l.n l.s.rs_have ≤ l.s.rs_have := Nat.min_le_right _ _
  generalize hm : min l.n l.s.rs_have = m at hm2
  have hh : (serve_block l).s.rs_have = l.s.rs_have - m := by
    simp only [serve_block, hm, size_t_sub_of_le hm2]
  refine ⟨fun hp => b1 (by rw [hh] at hp; omega), c, fun hp => b2 (by rw [hh] at hp; omega), ?_⟩
  intro i h1 h2
  rw [hh] at h1
  have hn : ¬ (RSBUFSZ - l.s.rs_have ≤ i ∧ i < RSBUFSZ - l.s.rs_have + m) := by omega
  simp only [serve_block, hm, memset, hn, if_false]
  exact b3 i (by omega) h2

theorem stir_if_needed_block (i : StirInput) (len : Nat) (s : State K) (h : BlockInv s) :
    BlockInv (_rs_stir_if_needed i len s) ∧
      (_rs_stir_if_needed i len s).rs_initialized = true := by
  unfold _rs_stir_if_needed
  by_cases h1 : s.rs_initialized = false
  · have h0 : s.rs_have = 0 := by
      by_contra hne
      have := h.1 (Nat.pos_of_ne_zero hne)
      rw [h1] at this
      cases this
    rw [if_pos h1]
    exact ⟨blockInv_empty _ h0, rfl⟩
  · have h1t : s.rs_initialized = true := by simpa using h1
    by_cases h2 : s.rs_count ≤ len
    · rw [if_neg h1, if_pos h2]
      exact ⟨blockInv_empty _ (stir_rs_have i false s), by rw [(stir_frame i false s).2, h1t]⟩
    · rw [if_neg h1, if_neg h2]
      exact ⟨h, h1t⟩

theorem linv_rekey (n : Nat) (s : State K) (h : LayoutInv s) (hi : s.rs_initialized = true) :
    LayoutInv (_rs_rekey none n s) :=
  ⟨ginv_rekey none n s h.1, blockInv_rekey n s hi, by
    rw [rekey_trace]
    exact servedOnce_quiet _ _ h.2.2 (by simp)⟩

theorem linv_stir (i : StirInput) (lock : Bool) (s : State K) (h : LayoutInv s) :
    LayoutInv (_rs_stir i lock s) :=
  ⟨ginv_stir i lock s h.1, blockInv_empty _ (stir_rs_have i lock s), by
    rw [stir_trace]
    exact servedOnce_append _ _ h.2.2 fun e he a b c hc =>
      copy_mem_stir_events lock a b c (hc ▸ he)⟩

theorem stir_if_needed_servedOnce (i : StirInput) (len : Nat) (s : State K)
    (h : ServedOnce s.trace) : ServedOnce (_rs_stir_if_needed i len s).trace := by
  rw [stir_if_needed_trace]
  apply servedOnce_append _ _ h
  intro e he a b c hc
  split_ifs at he
  · exact copy_mem_stir_events false a b c (hc ▸ he)
  · simp at he

theorem linv_stir_if_needed (i : StirInput) (len : Nat) (s : State K) (h : LayoutInv s) :
    LayoutInv (_rs_stir_if_needed i len s) ∧
      (_rs_stir_if_needed i len s).rs_initialized = true :=
  ⟨⟨ginv_stir_if_needed i len s h.1, (stir_if_needed_block i len s h.2.1).1,
    stir_if_needed_servedOnce i len s h.2.2⟩, (stir_if_needed_block i len s h.2.1).2⟩

/-- Appending an event that is neither a refill nor a copy keeps the layout invariant. -/
theorem linv_log (s : State K) (e : Event) (h : LayoutInv s) (h1 : e ≠ Event.rs_rekey)
    (h2 : ∀ a b c, e ≠ Event.copy_out a b c) :
    LayoutInv { s with trace := s.trace ++ [e] } :=
  ⟨ginv_log s e h.1 h1 h2, h.2.1, servedOnce_quiet _ e h.2.2 h2⟩

theorem linv_serve (l : BufLoop K) (h : LayoutInv l.s) (hpos : 0 < l.s.rs_have) :
    LayoutInv (serve_block l).s := by
  refine ⟨ginv_serve l h.1 hpos, blockInv_serve l h.2.1 (ginv_rs_have_le _ h.1), ?_⟩
  apply servedOnce_snoc l.s.trace _ h.2.2
  rw [served_snoc]
  refine List.Nodup.append (h.2.2 _ (List.prefix_refl _)) (List.nodup_range' _ _) ?_
  intro x hx1 hx2
  have := h.1.2.1 x hx1
  have := (List.mem_range'_1.mp hx2).1
  omega

theorem linv_body (l l1 : BufLoop K) (h : LayoutInv l.s) (hi : l.s.rs_initialized = true)
    (hb : _rs_random_buf_body l = some l1) :
    LayoutInv l1.s ∧ l1.s.rs_initialized = true := by
  rcases body_cases l l1 hb with ⟨_, rfl⟩ | ⟨hp, _, _, rfl⟩ | ⟨hp, _, _, rfl⟩
  · exact ⟨linv_rekey 0 l.s h hi, hi⟩
  · exact ⟨linv_serve l h hp, hi⟩
  · exact ⟨linv_rekey 0 _ (linv_serve l h hp) hi, hi⟩

/-- One iteration keeps every byte written so far a keystream byte from an index within
`[KEYSZ + IVSZ, RSBUFSZ)`. -/
theorem fromTail_body (l l1 : BufLoop K) (h : LayoutInv l.s) (ho : FromTail K l.out l.buf)
    (hb : _rs_random_buf_body l = some l1) : FromTail K l1.out l1.buf := by
  have hserve : 0 < l.s.rs_have → FromTail K (serve_block l).out (serve_block l).buf := by
    intro hp j hj
    obtain ⟨⟨c1, _⟩, _, _⟩ := h.1
    obtain ⟨_, c, _, b3⟩ := h.2.1
    have hm2 : min l.n l.s.rs_have ≤ l.s.rs_have := Nat.min_le_right _ _
    generalize hm : min l.n l.s.rs_have = m at hm2
    simp only [serve_block, hm] at hj ⊢
    simp only [RSBUFSZ_eq, KEYSZ_eq, IVSZ_eq] at c1 b3 ⊢
    by_cases hc : l.buf ≤ j ∧ j < l.buf + m
    · refine ⟨c, 1024 - l.s.rs_have + (j - l.buf), by omega, by omega, ?_⟩
      simp only [memcpy, hc, and_self, if_true]
      exact b3 _ (by omega) (by omega)
    · obtain ⟨c2, src, e1, e2, e3⟩ := ho j (by omega)
      refine ⟨c2, src, e1, e2, ?_⟩
      simp only [memcpy, hc, if_false]
      exact e3
  rcases body_cases l l1 hb with ⟨_, rfl⟩ | ⟨hp, _, _, rfl⟩ | ⟨hp, _, _, rfl⟩
  · exact ho
  · exact hserve hp
  · exact hserve hp

theorem linv_signal (e : arc4_entr) (s : State K) (h : LayoutInv s) :
    LayoutInv { s with arc4rand_iniseed_state := e } := h

theorem linv_head (ts : timespec) (i1 : StirInput) (reseed : Int) (s : State K)
    (h : LayoutInv s) : LayoutInv (arc4rand_head ts i1 reseed s) := by
  have h0 : LayoutInv { s with trace := s.trace ++ [Event.nanotime] } :=
    linv_log s Event.nanotime h (by simp) (by simp)
  have h1 := fun e => linv_signal e _ h0
  unfold arc4rand_head
  by_cases hH : s.arc4rand_iniseed_state = arc4_entr.ARC4_ENTR_HAVE <;>
    by_cases ht : arc4rand_trigger ts reseed s
  · simp only [hH, ht, if_true]
    exact linv_stir i1 false _ (h1 _)
  · simp only [hH, ht, if_true, if_false]
    exact h1 _
  · simp only [hH, ht, if_true, if_false]
    exact linv_stir i1 false _ h0
  · simp only [hH, ht, if_false]
    exact h0

theorem linv_locked (ts : timespec) (i1 : StirInput) (len : Nat) (reseed : Int) (s : State K)
    (h : LayoutInv s) : LayoutInv (arc4rand_locked ts i1 len reseed s) := by
  have h2 := linv_log _ Event.mtx_lock (linv_head ts i1 reseed s h) (by simp) (by simp)
  exact h2

/-- The layout invariant is kept by `arc4rand`, and every byte it leaves at an offset
below `len` of the caller's buffer is a keystream byte from an index within
`[KEYSZ + IVSZ, RSBUFSZ)`. -/
theorem linv_arc4rand (ts : timespec) (i1 i2 : StirInput) (ptr : Nat → Nat) (len : Nat)
    (reseed : Int) (s s1 : State K) (out : Nat → Nat) (h : LayoutInv s)
    (hr : arc4rand ts i1 i2 ptr len reseed s = some (s1, out)) :
    LayoutInv s1 ∧ FromTail K out len := by
  obtain ⟨l2, hl, hprog, hn, hr2⟩ :=
    arc4rand_spec ts i1 i2 ptr len reseed s (ginv_rs_have_le s h.1)
  rw [hr2] at hr
  cases hr
  obtain ⟨h1, h2⟩ := linv_stir_if_needed i2 len _ (linv_locked ts i1 len reseed s h)
  have hg :=
    (loop_inv_rule
      (fun l => (LayoutInv l.s ∧ l.s.rs_initialized = true) ∧ FromTail K l.out l.buf)
      (fun l l1 hp _ hb => ⟨linv_body l l1 hp.1.1 hp.1.2 hb, fromTail_body l l1 hp.1.1 hp.2 hb⟩)
      _ l2 ⟨⟨h1, h2⟩, fun j hj => absurd hj (Nat.not_lt_zero j)⟩ hl).1
  refine ⟨linv_log l2.s Event.mtx_unlock hg.1.1 (by simp) (by simp), ?_⟩
  have hb : l2.buf = len := by
    have := hprog.2.1
    simp only [hn] at this
    simpa using this
  rw [← hb]
  exact hg.2

theorem linv_u32_ready (i : StirInput) (s : State K) (h : LayoutInv s) :
    LayoutInv (u32_ready i s) := by
  obtain ⟨h1, h2⟩ := linv_stir_if_needed i 4 s h
  unfold u32_ready
  by_cases hlt : (_rs_stir_if_needed i 4 s).rs_have < 4
  · simp only [hlt, if_true]
    exact linv_rekey 0 _ h1 h2
  · simp only [hlt, if_false]
    exact h1

/-- The layout invariant is kept by `arc4random`, and the four bytes it returns are
keystream bytes of one block from indices within `[KEYSZ + IVSZ, RSBUFSZ)`. -/
theorem linv_arc4random (i : StirInput) (s s1 : State K) (val : List Nat) (h : LayoutInv s)
    (hr : arc4random i s = some (s1, val)) :
    LayoutInv s1 ∧ ∃ (c : K.Ctx) (src : Nat),
      KEYSZ + IVSZ ≤ src ∧ src + 4 ≤ RSBUFSZ ∧ val = bytes (K.generate c) src 4 := by
  have hl := linv_log s Event.mtx_lock h (by simp) (by simp)
  have hu := linv_u32_ready i _ hl
  obtain ⟨_, h4, _⟩ := ginv_u32_ready i _ hl.1
  unfold arc4random at hr
  rw [u32_spec i _ hl.1] at hr
  simp only [Option.map_some', Option.some.injEq, Prod.mk.injEq] at hr
  obtain ⟨rfl, rfl⟩ := hr
  refine ⟨linv_log _ Event.mtx_unlock (linv_serve _ hu (by simp; omega)) (by simp) (by simp), ?_⟩
  obtain ⟨_, c, _, b3⟩ := hu.2.1
  have c1 := hu.1.1.1
  generalize u32_ready i { s with trace := s.trace ++ [Event.mtx_lock] } = u at h4 b3 c1 ⊢
  simp only [RSBUFSZ_eq, KEYSZ_eq, IVSZ_eq] at c1 b3 ⊢
  refine ⟨c, 1024 - u.rs_have, by omega, by omega, ?_⟩
  apply List.map_congr_left
  intro a ha
  have := List.mem_range.mp ha
  exact b3 _ (by omega) (by omega)

theorem linv_initial : LayoutInv (State.initial K) :=
  ⟨ginv_initial, blockInv_empty _ rfl, by
    intro p hp
    have : p = [] := List.prefix_nil.mp hp
    rw [this]
    exact List.nodup_nil⟩

/-- Every reachable state satisfies the layout invariant. -/
theorem reachable_layout (s : State K) (h : Reachable s) : LayoutInv s := by
  induction h with
  | initial => exact linv_initial
  | arc4_init i s _ ih => exact linv_stir i true s ih
  | rs_stir i lock s _ ih => exact linv_stir i lock s ih
  | arc4rand ts i1 i2 ptr len reseed s s1 out _ hr ih =>
    exact (linv_arc4rand ts i1 i2 ptr len reseed s s1 out ih hr).1
  | arc4random i s s1 val _ hr ih => exact (linv_arc4random i s s1 val ih hr).1
  | host_signal e s _ ih => exact linv_signal e s ih

/-- C11. In every state reached from the load-time state by calls of `arc4_init`,
`arc4rand`, `arc4random` and `_rs_stir`: every copy to a caller recorded in the log read
cache indices within `[KEYSZ + IVSZ, RSBUFSZ) = [40, 1024)`; at every moment of the log the
cache indices served since the last `_rs_rekey` are pairwise distinct; the unconsumed tail
of the cache holds, at their own indices, bytes of the keystream block of a context `c`,
and while the tail is not empty the current context is the one loaded from bytes `[0, 40)`
of that same block; a rekey loads the context from bytes `[0, 40)` of the block it
generates (XORed with `dat` where given) and keeps bytes `[40, 1024)` of it for serving;
and every byte that the next `arc4rand` or `arc4random` call returns is a keystream byte
from an index within `[40, 1024)` of a block. -/
theorem served_bytes_above_key_material (s : State K) (h : Reachable s) :
    (∀ src dst m, Event.copy_out src dst m ∈ s.trace →
      KEYSZ + IVSZ ≤ src ∧ src + m ≤ RSBUFSZ) ∧
    (∀ p, p <+: s.trace → (served_since_rekey p).Nodup) ∧
    (∃ c : K.Ctx,
      (0 < s.rs_have →
        s.rs = K.init (bytes (K.generate c) 0 KEYSZ) (bytes (K.generate c) KEYSZ IVSZ)) ∧
      ∀ i, RSBUFSZ - s.rs_have ≤ i → i < RSBUFSZ → s.rs_buf i = K.generate c i) ∧
    (∀ dat datlen,
      (_rs_rekey dat datlen s).rs =
        K.init (bytes (rekey_key K s.rs dat datlen) 0 KEYSZ)
          (bytes (rekey_key K s.rs dat datlen) KEYSZ IVSZ) ∧
      (∀ n, rekey_key K s.rs none datlen n = K.generate s.rs n) ∧
      (∀ j, KEYSZ + IVSZ ≤ j → j < RSBUFSZ →
        (_rs_rekey dat datlen s).rs_buf j = K.generate s.rs j) ∧
      (_rs_rekey dat datlen s).rs_have = RSBUFSZ - KEYSZ - IVSZ) ∧
    (∀ ts i1 i2 ptr len reseed s1 out,
      arc4rand ts i1 i2 ptr len reseed s = some (s1, out) →
      ∀ j, j < len → ∃ (c : K.Ctx) (src : Nat),
        KEYSZ + IVSZ ≤ src ∧ src < RSBUFSZ ∧ out j = K.generate c src) ∧
    ∀ i s1 val, arc4random i s = some (s1, val) →
      ∃ (c : K.Ctx) (src : Nat),
        KEYSZ + IVSZ ≤ src ∧ src + 4 ≤ RSBUFSZ ∧ val = bytes (K.generate c) src 4 := by
  have hl := reachable_layout s h
  refine ⟨hl.1.2.2, hl.2.2, hl.2.1.2, ?_, ?_, ?_⟩
  · intro dat datlen
    exact ⟨rekey_material dat datlen s, fun n => rfl,
      fun j h1 h2 => rekey_buf_tail dat datlen s j h1 h2, rfl⟩
  · intro ts i1 i2 ptr len reseed s1 out hr
    exact (linv_arc4rand ts i1 i2 ptr len reseed s s1 out hl hr).2
  · intro i s1 val hr
    exact (linv_arc4random i s s1 val hl hr).2

/-- Witness for C11: the state after `arc4rand(ptr, 8, 0)` on `toy_seeded`. -/
theorem served_bytes_above_key_material_witness :
    Reachable (run_call (toy_call 8 0) toy_seeded) ∧
    ∀ p, p <+: (run_call (toy_call 8 0) toy_seeded).trace → (served_since_rekey p).Nodup :=
  ⟨reachable_run_call _ _ toy_seeded_reachable,
    (served_bytes_above_key_material _ (reachable_run_call _ _ toy_seeded_reachable)).2.1⟩

/-! ### Serving a request in two parts -/

theorem sameCache_rekey (s t : State K) (h : SameCache s t) :
    SameCache (_rs_rekey none 0 s) (_rs_rekey none 0 t) := by
  obtain ⟨c1, c2, _⟩ := h
  simp only [SameCache, _rs_rekey, _rs_init, c1, c2, and_self]

theorem sameCache_serve (x y : BufLoop K) (h : SameCache x.s y.s) (hn : x.n = y.n) :
    SameCache (serve_block x).s (serve_block y).s ∧ (serve_block x).n = (serve_block y).n := by
  obtain ⟨c1, c2, c3⟩ := h
  simp only [SameCache, serve_block, c1, c2, c3, hn, and_self]

theorem serve_out (l : BufLoop K) (j : Nat) (hj : j < min l.n l.s.rs_have) :
    (serve_block l).out (l.buf + j) = l.s.rs_buf (RSBUFSZ - l.s.rs_have + j) := by
  have h1 : l.buf ≤ l.buf + j ∧ l.buf + j < l.buf + min l.n l.s.rs_have := by omega
  simp only [serve_block, memcpy, h1, and_self, if_true, Nat.add_sub_cancel_left]

/-- One iteration from two loop states with the same cache and the same count does the
same to the cache, advances both pointers by the same `m`, and stores the same `m` bytes. -/
theorem body_sim (x y x1 : BufLoop K) (hc : SameCache x.s y.s) (hn : x.n = y.n)
    (hb : _rs_random_buf_body x = some x1) :
    ∃ y1, _rs_random_buf_body y = some y1 ∧ SameCache x1.s y1.s ∧ x1.n = y1.n ∧
      ∃ m, x1.buf = x.buf + m ∧ y1.buf = y.buf + m ∧ m + x1.n = x.n ∧
        ∀ j, j < m → y1.out (y.buf + j) = x1.out (x.buf + j) := by
  have hc3 := hc.2.2
  have hserve : ∀ j, j < min x.n x.s.rs_have →
      (serve_block y).out (y.buf + j) = (serve_block x).out (x.buf + j) := by
    intro j hj
    rw [serve_out x j hj, serve_out y j (by rw [← hn, ← hc3]; exact hj), hc.2.1, hc3]
  have hbuf : (serve_block x).buf = x.buf + min x.n x.s.rs_have ∧
      (serve_block y).buf = y.buf + min x.n x.s.rs_have ∧
      min x.n x.s.rs_have + (serve_block x).n = x.n := by
    have := Nat.min_le_left x.n x.s.rs_have
    refine ⟨rfl, by rw [hn, hc3]; rfl, ?_⟩
    rw [serve_block_n]
    omega
  rcases body_cases x x1 hb with ⟨h0, rfl⟩ | ⟨hp, hle, hlt, rfl⟩ | ⟨hp, hle, hge, rfl⟩
  · exact ⟨_, body_refill y (by rw [← hc3]; exact h0), sameCache_rekey _ _ hc, hn, 0, rfl, rfl,
      Nat.zero_add _, fun j hj => absurd hj (Nat.not_lt_zero j)⟩
  · exact ⟨_, body_short y (by rw [← hc3]; exact hle) (by rw [← hc3, ← hn]; exact hlt),
      (sameCache_serve x y hc hn).1, (sameCache_serve x y hc hn).2, _, hbuf.1, hbuf.2.1,
      hbuf.2.2, hserve⟩
  · exact ⟨_, body_drain y (by rw [← hc3]; exact hp) (by rw [← hc3]; exact hle)
        (by rw [← hc3, ← hn]; exact hge),
      sameCache_rekey _ _ (sameCache_serve x y hc hn).1, (sameCache_serve x y hc hn).2, _,
      hbuf.1, hbuf.2.1, hbuf.2.2, hserve⟩

/-- The loop from two states with the same cache and the same count ends with the same
cache and stores the same bytes, whatever the two buffers, offsets, logs and countdowns. -/
theorem loop_sim (x : BufLoop K) :
    ∀ (y x2 : BufLoop K), SameCache x.s y.s → x.n = y.n → x.s.rs_have ≤ RSBUFSZ →
      _rs_random_buf_loop x = some x2 →
      ∃ y2, _rs_random_buf_loop y = some y2 ∧ SameCache x2.s y2.s ∧ LoopProgress y y2 ∧
        y2.n = 0 ∧ ∀ j, j < x.n → y2.out (y.buf + j) = x2.out (x.buf + j) := by
  induction x using _rs_random_buf_loop.induct with
  | case1 x hx =>
    intro y x2 hc hn hle hl
    rw [loop_zero x hx] at hl
    cases hl
    have hy : y.n = 0 := by rw [← hn]; exact hx
    exact ⟨y, loop_zero y hy, hc, loopProgress_refl y (by rw [← hc.2.2]; exact hle), hy,
      fun j hj => by omega⟩
  | case2 x hx hb =>
    intro y x2 _ _ _ hl
    rw [loop_none x hx hb] at hl
    cases hl
  | case3 x hx x1 hb ih =>
    intro y x2 hc hn hle hl
    rw [loop_step x x1 hx hb] at hl
    obtain ⟨y1, hby, hc1, hn1, m, e1, e2, e3, ho⟩ := body_sim x y x1 hc hn hb
    have hle1 := body_rs_have_le x x1 hle hb
    obtain ⟨y2, hly, hc2, hp2, _, ho2⟩ := ih y1 x2 hc1 hn1 hle1 hl
    have hyn : y.n ≠ 0 := by rw [← hn]; exact hx
    have hly2 : _rs_random_buf_loop y = some y2 := by rw [loop_step y y1 hyn hby]; exact hly
    obtain ⟨y3, hly3, hp, hn0⟩ := loop_spec y (by rw [← hc.2.2]; exact hle)
    rw [hly2] at hly3
    cases hly3
    obtain ⟨x3, hlx3, hpx, _⟩ := loop_spec x1 hle1
    rw [hl] at hlx3
    cases hlx3
    refine ⟨y2, hly2, hc2, hp, hn0, ?_⟩
    intro j hj
    by_cases hjm : j < m
    · rw [hp2.2.2.2.1 (y.buf + j) (Or.inl (by omega)),
        hpx.2.2.2.1 (x.buf + j) (Or.inl (by omega))]
      exact ho j hjm
    · have h3 := ho2 (j - m) (by omega)
      have e4 : y1.buf + (j - m) = y.buf + j := by omega
      have e5 : x1.buf + (j - m) = x.buf + j := by omega
      rw [e4, e5] at h3
      exact h3

/-- Serving `a` bytes and then up to `b` more from a cache that holds more than `a` bytes
is the same as serving up to `a + b` bytes at once. -/
theorem serve_twice (x : BufLoop K) (b : Nat) (ha : x.n < x.s.rs_have)
    (hle : x.s.rs_have ≤ RSBUFSZ) :
    SameCache (serve_block { serve_block x with n := b }).s
        (serve_block { x with n := x.n + b }).s ∧
      (serve_block { serve_block x with n := b }).n = (serve_block { x with n := x.n + b }).n ∧
      (serve_block { serve_block x with n := b }).buf =
        (serve_block { x with n := x.n + b }).buf ∧
      (serve_block { serve_block x with n := b }).out =
        (serve_block { x with n := x.n + b }).out := by
  have h1 : min x.n x.s.rs_have = x.n := Nat.min_eq_left (Nat.le_of_lt ha)
  have h2 : size_t_sub x.s.rs_have x.n = x.s.rs_have - x.n := size_t_sub_of_le (Nat.le_of_lt ha)
  have h3 : min (x.n + b) x.s.rs_have = x.n + min b (x.s.rs_have - x.n) := by omega
  have h4 : min b (x.s.rs_have - x.n) ≤ b := Nat.min_le_left _ _
  have h5 : min b (x.s.rs_have - x.n) ≤ x.s.rs_have - x.n := Nat.min_le_right _ _
  obtain ⟨m2, hm2⟩ : ∃ m2, min b (x.s.rs_have - x.n) = m2 := ⟨_, rfl⟩
  rw [hm2] at h3 h4 h5
  have h6 : RSBUFSZ - (x.s.rs_have - x.n) = RSBUFSZ - x.s.rs_have + x.n := by omega
  simp only [SameCache, serve_block, h1, h2, hm2, h3, h6]
  refine ⟨⟨trivial, ?_, ?_⟩, ?_, ?_, ?_⟩
  · funext i
    simp only [memset]
    by_cases c1 : RSBUFSZ - x.s.rs_have ≤ i ∧ i < RSBUFSZ - x.s.rs_have + (x.n + m2)
    · rw [if_pos c1]
      by_cases c2 : RSBUFSZ - x.s.rs_have + x.n ≤ i ∧ i < RSBUFSZ - x.s.rs_have + x.n + m2
      · rw [if_pos c2]
      · rw [if_neg c2, if_pos (by omega)]
    · rw [if_neg c1, if_neg (by omega), if_neg (by omega)]
  · rw [size_t_sub_of_le h5, size_t_sub_of_le (by omega)]
    omega
  · rw [size_t_sub_of_le h4, size_t_sub_of_le (by omega)]
    omega
  · omega
  · funext j
    simp only [memcpy, memset]
    by_cases c1 : x.buf ≤ j ∧ j < x.buf + (x.n + m2)
    · rw [if_pos c1]
      by_cases c2 : x.buf + x.n ≤ j ∧ j < x.buf + x.n + m2
      · rw [if_pos c2, if_neg (by omega)]
        congr 1
        omega
      · rw [if_neg c2, if_pos (by omega)]
    · rw [if_neg c1, if_neg (by omega), if_neg (by omega)]

/-- The first iterations of the second part and of the whole request, when the first part
left bytes in the cache: they end with the same cache, count, pointer and buffer. -/
theorem body_twice (x : BufLoop K) (b : Nat) (ha : x.n < x.s.rs_have)
    (hle : x.s.rs_have ≤ RSBUFSZ) :
    ∃ z1 y1, _rs_random_buf_body { serve_block x with n := b } = some z1 ∧
      _rs_random_buf_body { x with n := x.n + b } = some y1 ∧
      SameCache z1.s y1.s ∧ z1.n = y1.n ∧ z1.buf = y1.buf ∧ z1.out = y1.out := by
  have h1 : min x.n x.s.rs_have = x.n := Nat.min_eq_left (Nat.le_of_lt ha)
  have hz : ({ serve_block x with n := b } : BufLoop K).s.rs_have = x.s.rs_have - x.n := by
    simp only [serve_block, h1, size_t_sub_of_le (Nat.le_of_lt ha)]
  obtain ⟨t1, t2, t3, t4⟩ := serve_twice x b ha hle
  by_cases hc : x.n + b < x.s.rs_have
  · exact ⟨_, _, body_short _ (by rw [hz]; omega) (by rw [hz]; show b < _; omega),
      body_short { x with n := x.n + b } hle hc, t1, t2, t3, t4⟩
  · exact ⟨_, _,
      body_drain _ (by rw [hz]; omega) (by rw [hz]; omega) (by rw [hz]; show _ ≤ b; omega),
      body_drain { x with n := x.n + b } (by show 0 < x.s.rs_have; omega) hle
        (by show x.s.rs_have ≤ x.n + b; omega),
      sameCache_rekey _ _ t1, t2, t3, t4⟩

/-- The loop for `x.n` bytes followed by the loop for `b` bytes, continuing at the same
pointer, ends with the same cache and the same bytes in the buffer as one loop for
`x.n + b` bytes. -/
theorem loop_split (x : BufLoop K) :
    ∀ (b : Nat) (xa : BufLoop K), x.s.rs_have ≤ RSBUFSZ → _rs_random_buf_loop x = some xa →
      ∃ xb yab, _rs_random_buf_loop { xa with n := b } = some xb ∧
        _rs_random_buf_loop { x with n := x.n + b } = some yab ∧
        SameCache xb.s yab.s ∧ ∀ j, j < x.buf + (x.n + b) → xb.out j = yab.out j := by
  induction x using _rs_random_buf_loop.induct with
  | case1 x hx =>
    intro b xa hle hl
    rw [loop_zero x hx] at hl
    cases hl
    obtain ⟨xb, hxb⟩ := loop_total { x with n := b } hle
    have e : ({ x with n := x.n + b } : BufLoop K) = { x with n := b } := by
      rw [hx, Nat.zero_add]
    exact ⟨xb, xb, hxb, by rw [e]; exact hxb, ⟨rfl, rfl, rfl⟩, fun _ _ => rfl⟩
  | case2 x hx hb =>
    intro b xa _ hl
    rw [loop_none x hx hb] at hl
    cases hl
  | case3 x hx x1 hb ih =>
    intro b xa hle hl
    rw [loop_step x x1 hx hb] at hl
    have hle1 := body_rs_have_le x x1 hle hb
    have hyn : ({ x with n := x.n + b } : BufLoop K).n ≠ 0 := by
      show x.n + b ≠ 0
      omega
    rcases body_cases x x1 hb with ⟨h0, rfl⟩ | ⟨hp, _, hlt, rfl⟩ | ⟨hp, _, hge, rfl⟩
    · obtain ⟨xb, yab, e1, e2, e3, e4⟩ := ih b xa hle1 hl
      refine ⟨xb, yab, e1, ?_, e3, e4⟩
      rw [loop_step { x with n := x.n + b } _ hyn (body_refill _ h0)]
      exact e2
    · have h1 : min x.n x.s.rs_have = x.n := Nat.min_eq_left (Nat.le_of_lt hlt)
      have hx1n : (serve_block x).n = 0 := by
        rw [serve_block_n, h1]
        omega
      rw [loop_zero _ hx1n] at hl
      cases hl
      by_cases hb0 : b = 0
      · subst hb0
        exact ⟨{ serve_block x with n := 0 }, serve_block x, loop_zero _ rfl,
          loop_short x hle hx hlt, ⟨rfl, rfl, rfl⟩, fun _ _ => rfl⟩
      · obtain ⟨z1, y1, bz, byy, c, en, ebuf, eout⟩ := body_twice x b hlt hle
        have hzle : z1.s.rs_have ≤ RSBUFSZ :=
          body_rs_have_le { serve_block x with n := b } z1 hle1 bz
        obtain ⟨xb, hxb, hpz, _⟩ := loop_spec z1 hzle
        obtain ⟨yab, hy, c2, hpy, _, ho⟩ := loop_sim z1 y1 xb c en hzle hxb
        have hsum : z1.buf + z1.n = x.buf + x.n + b := by
          have := (loopProgress_body { serve_block x with n := b } _ z1
            (loopProgress_refl _ hle1) bz).2.1
          simp only [serve_block, h1] at this
          exact this
        refine ⟨xb, yab, ?_, ?_, c2, ?_⟩
        · rw [loop_step _ z1 hb0 bz]
          exact hxb
        · rw [loop_step _ y1 hyn byy]
          exact hy
        · intro j hj
          by_cases hjz : j < z1.buf
          · rw [hpz.2.2.2.1 j (Or.inl hjz), hpy.2.2.2.1 j (Or.inl (by rw [← ebuf]; exact hjz)),
              eout]
          · have h3 := ho (j - z1.buf) (by omega)
            have e4 : z1.buf + (j - z1.buf) = j := by omega
            rw [← ebuf, e4] at h3
            exact h3.symm
    · have h1 : min x.n x.s.rs_have = x.s.rs_have := Nat.min_eq_right hge
      have h2 : min (x.n + b) x.s.rs_have = x.s.rs_have := Nat.min_eq_right (by omega)
      obtain ⟨xb, yab, e1, e2, e3, e4⟩ := ih b xa hle1 hl
      have e : ({ serve_block { x with n := x.n + b } with
            s := _rs_rekey none 0 (serve_block { x with n := x.n + b }).s } : BufLoop K) =
          { ({ serve_block x with s := _rs_rekey none 0 (serve_block x).s } : BufLoop K) with
            n := ({ serve_block x with s := _rs_rekey none 0 (serve_block x).s } : BufLoop K).n
              + b } := by
        simp only [serve_block, h1, h2, size_t_sub_of_le hge,
          size_t_sub_of_le (Nat.le_trans hge (Nat.le_add_right _ _))]
        congr 1
        omega
      refine ⟨xb, yab, e1, ?_, e3, ?_⟩
      · rw [loop_step { x with n := x.n + b } _ hyn
          (body_drain { x with n := x.n + b } hp hle (by show x.s.rs_have ≤ x.n + b; omega)), e]
        exact e2
      · intro j hj
        apply e4 j
        simp only [serve_block, h1, size_t_sub_of_le hge]
        omega

theorem stir_if_needed_quiet (i : StirInput) (len : Nat) (s : State K)
    (hi : s.rs_initialized = true) (hc : len < s.rs_count) :
    _rs_stir_if_needed i len s = { s with rs_count := s.rs_count - len } := by
  unfold _rs_stir_if_needed
  rw [if_neg (by rw [hi]; simp), if_neg (by omega), size_t_sub_of_le (by omega)]

theorem bytes_append (m : Nat → Nat) (off a b : Nat) :
    bytes m off (a + b) = bytes m off a ++ bytes m (off + a) b := by
  simp [bytes, List.range_add, List.map_append, Nat.add_assoc]

/-- C19. For every initialised state with `rs_have ≤ 984` and all lengths `a`, `b` with
`rs_count > a + b`, whatever the buffers held before: `_rs_random_buf(a)` followed by
`_rs_random_buf(b)` and a single `_rs_random_buf(a + b)` from the same state all have a
result; the `a + b` bytes of the single call are the `a` bytes of the first call followed
by the `b` bytes of the second; and both ways end with the same cipher context, `rs_buf`,
`rs_have` and `rs_count`, the latter `rs_count - (a + b)`. -/
theorem random_buf_chunking (ia ib i : StirInput) (pa pb p : Nat → Nat) (a b : Nat)
    (s : State K) (hi : s.rs_initialized = true) (hh : s.rs_have ≤ 984)
    (hc : a + b < s.rs_count) :
    ∃ (sa sb sab : State K) (oa ob oab : Nat → Nat),
      _rs_random_buf ia pa a s = some (sa, oa) ∧
      _rs_random_buf ib pb b sa = some (sb, ob) ∧
      _rs_random_buf i p (a + b) s = some (sab, oab) ∧
      bytes oab 0 (a + b) = bytes oa 0 a ++ bytes ob 0 b ∧
      sab.rs = sb.rs ∧ sab.rs_buf = sb.rs_buf ∧ sab.rs_have = sb.rs_have ∧
      sab.rs_count = sb.rs_count ∧ sab.rs_count = s.rs_count - (a + b) := by
  have hle : s.rs_have ≤ RSBUFSZ := by
    rw [RSBUFSZ_eq]
    omega
  obtain ⟨xa, hxa, hpa, _⟩ :=
    loop_spec { s := { s with rs_count := s.rs_count - a }, out := pa, buf := 0, n := a } hle
  have hbufa : xa.buf = a := by
    have := hpa.2.1
    simp only [Nat.zero_add] at this
    have hn := (loop_inv_rule (fun _ => True) (fun _ _ _ _ _ => trivial) _ xa trivial hxa).2
    omega
  have hinita : xa.s.rs_initialized = true := by
    rw [hpa.2.2.2.2.1.2.2.2.1]
    exact hi
  have hcnta : xa.s.rs_count = s.rs_count - a := hpa.2.2.2.2.1.2.2.2.2
  obtain ⟨xb, yab, hxb, hyab, c1, o1⟩ := loop_split _ b xa hle hxa
  obtain ⟨xb2, hxb2, hpb, _⟩ := loop_spec { xa with n := b } hpa.1
  rw [hxb] at hxb2
  cases hxb2
  obtain ⟨yB2, hyB2, c2, hpB, _, o2⟩ :=
    loop_sim { xa with n := b }
      { s := { xa.s with rs_count := xa.s.rs_count - b }, out := pb, buf := 0, n := b } xb
      ⟨rfl, rfl, rfl⟩ rfl hpa.1 hxb
  obtain ⟨yAB2, hyAB2, c3, hpAB, _, o3⟩ :=
    loop_sim
      { s := { s with rs_count := s.rs_count - a }, out := pa, buf := 0, n := a + b }
      { s := { s with rs_count := s.rs_count - (a + b) }, out := p, buf := 0, n := a + b } yab
      ⟨rfl, rfl, rfl⟩ rfl hle hyab
  refine ⟨xa.s, yB2.s, yAB2.s, xa.out, yB2.out, yAB2.out, ?_, ?_, ?_, ?_, ?_, ?_, ?_, ?_, ?_⟩
  · simp only [_rs_random_buf, stir_if_needed_quiet ia a s hi (by omega), hxa, Option.map_some']
  · simp only [_rs_random_buf, stir_if_needed_quiet ib b xa.s hinita (by omega), hyB2,
      Option.map_some']
  · simp only [_rs_random_buf, stir_if_needed_quiet i (a + b) s hi hc, hyAB2, Option.map_some']
  · rw [bytes_append]
    congr 1
    · apply List.map_congr_left
      intro j hj
      have hja := List.mem_range.mp hj
      have h3 := o3 j (by show j < a + b; omega)
      simp only [Nat.zero_add] at h3 ⊢
      rw [h3, ← o1 j (by show j < 0 + (a + b); omega)]
      exact hpb.2.2.2.1 j (Or.inl (by show j < xa.buf; omega))
    · apply List.map_congr_left
      intro j hj
      have hjb := List.mem_range.mp hj
      have h3 := o3 (a + j) (by show a + j < a + b; omega)
      have h2 := o2 j hjb
      simp only [Nat.zero_add] at h3 h2 ⊢
      rw [h3, ← o1 (a + j) (by show a + j < 0 + (a + b); omega), h2]
      show xb.out (a + j) = xb.out (xa.buf + j)
      rw [hbufa]
  · rw [← c3.1, ← c1.1, c2.1]
  · rw [← c3.2.1, ← c1.2.1, c2.2.1]
  · rw [← c3.2.2, ← c1.2.2, c2.2.2]
  · rw [hpAB.2.2.2.2.1.2.2.2.2, hpB.2.2.2.2.1.2.2.2.2]
    show s.rs_count - (a + b) = xa.s.rs_count - b
    rw [hcnta]
    omega
  · exact hpAB.2.2.2.2.1.2.2.2.2

/-- Witness for C19: 100 bytes and then 1000 bytes, across a refill, on `toy_seeded`. -/
theorem random_buf_chunking_witness :
    toy_seeded.rs_initialized = true ∧ toy_seeded.rs_have ≤ 984 ∧
    100 + 1000 < toy_seeded.rs_count ∧
    ∃ (sa sb sab : State toyKS) (oa ob oab : Nat → Nat),
      _rs_random_buf stir32 (fun _ => 0) 100 toy_seeded = some (sa, oa) ∧
      _rs_random_buf stir32 (fun _ => 0) 1000 sa = some (sb, ob) ∧
      _rs_random_buf stir32 (fun _ => 0) (100 + 1000) toy_seeded = some (sab, oab) ∧
      bytes oab 0 (100 + 1000) = bytes oa 0 100 ++ bytes ob 0 1000 ∧
      sab.rs = sb.rs ∧ sab.rs_buf = sb.rs_buf ∧ sab.rs_have = sb.rs_have ∧
      sab.rs_count = sb.rs_count ∧ sab.rs_count = toy_seeded.rs_count - (100 + 1000) := by
  obtain ⟨_, b3c, _, _, b4, _⟩ := toy_seeded_scalars
  have hh : toy_seeded.rs_have ≤ 984 := by rw [toy_seeded_rs_have]; decide
  have hc : 100 + 1000 < toy_seeded.rs_count := by rw [b3c]; decide
  exact ⟨b4, hh, hc,
    random_buf_chunking stir32 stir32 stir32 (fun _ => 0) (fun _ => 0) (fun _ => 0) 100 1000
      toy_seeded b4 hh hc⟩

end Arc4
